import Mathlib

/-!
Verification of the dotfiles manager (`dotman.py` / `restore.py`).

We shallowly embed the program over an explicit filesystem model:

* a path is a list of components, each component a string modelled as a
  list of characters (an absolute path, with the leading `/` implicit);
* a filesystem is a finite association list from paths to nodes, where a
  node is a regular file (with content), a directory, or a symbolic link
  storing its (absolute) target path;
* the operations of `pathlib` / `os` used by the program are modelled as
  explicit functions on this state: `stat`-like queries follow symbolic
  links (with an explicit fuel bound standing for the OS symlink-nesting
  limit, so unresolvable symlink cycles come out as resolution failure),
  `lstat`-like queries resolve every component but the last.

Model restrictions, documented once here:
* hard links are not representable, so `os.path.samefile` degenerates to
  equality of fully resolved paths — exactly the check the code already
  performed just before calling it, so the fallback is the constant
  `false` in this model;
* the mutating primitives (`mkdir`, `rmdir`, `rename`, `symlink`,
  `unlink`, `shutil.move`) are modelled at literal paths and require the
  ancestor chain of the mutated path to consist of real directories;
  a POSIX kernel would instead write through a symlinked ancestor.  All
  theorems below either hypothesise states in which the two agree or
  concern read-only behaviour.
-/

namespace DF

/-- One path component, a Python string modelled as a list of characters. -/
abbrev Comp := List Char

/-- An absolute path: the list of components below the filesystem root. -/
abbrev Path := List Comp

/-- A filesystem node: regular file (with content), directory, or symlink
(storing the absolute target path written into the link). -/
inductive Node where
  | file (content : List Char)
  | dir
  | symlink (tgt : Path)
deriving DecidableEq, Repr

/-- A filesystem: an association list from absolute paths to nodes.  The
root directory is implicit (`lookupP fs [] = some .dir`). -/
abbrev FS := List (Path × Node)

/-- Look a path up in the filesystem (no symlink resolution).  The root
path `[]` always exists as a directory. -/
def lookupP (fs : FS) (p : Path) : Option Node :=
  if p = [] then some Node.dir
  else
    match fs.find? (fun e => e.1 = p) with
    | some e => some e.2
    | none => none

/-- Remove the entry at exactly path `p` (descendants untouched). -/
def eraseP (fs : FS) (p : Path) : FS :=
  fs.filter (fun e => decide (e.1 ≠ p))

/-- Set the node at path `p` (inserting or replacing). -/
def setP (fs : FS) (p : Path) (n : Node) : FS :=
  (p, n) :: eraseP fs p

/-- `p` is a (non-strict) prefix of `q`, as component lists. -/
def isPre (p q : Path) : Bool := decide (p <+: q)

/-- The directory `p` has at least one directory entry (a key exactly one
component below it) — the model of `any(p.iterdir())` being true and of
the emptiness check done by `rmdir`. -/
def hasEntry (fs : FS) (p : Path) : Bool :=
  fs.any (fun e => isPre p e.1 && decide (e.1.length = p.length + 1))

/-- All proper ancestors of `p` (including the implicit root) are real
directories.  This is the precondition of the literal-path mutation
primitives of this model. -/
def realChain (fs : FS) (p : Path) : Bool :=
  (List.range p.length).all (fun i => decide (lookupP fs (p.take i) = some Node.dir))

/-- Move the whole subtree rooted at `src` so that it is rooted at `dst`
(the model of `rename(2)` on a file or directory). -/
def renameTree (fs : FS) (src dst : Path) : FS :=
  fs.map (fun e => if isPre src e.1 then (dst ++ e.1.drop src.length, e.2) else e)

/-! ### Symlink resolution -/

/-- Walk the components of `todo`, extending the fully resolved prefix
`acc`; at a symlink component, defer to `onSym` (the walker for one less
unit of fuel). -/
def walkWith (fs : FS) (onSym : Path → Path → Path → Option Path) :
    Path → Path → Option Path
  | acc, [] => some acc
  | acc, c :: rest =>
    match lookupP fs (acc ++ [c]) with
    | some (Node.symlink t) => onSym t acc rest
    | _ => walkWith fs onSym (acc ++ [c]) rest

/-- Resolve `todo` against the filesystem starting from the already fully
resolved prefix `acc`, following symlinks in every component (the model
of non-strict `Path.resolve()` / `os.path.realpath`).  `fuel` bounds the
number of symlink traversals; exhaustion models an unresolvable cycle.
Missing components are kept literally (non-strict resolution). -/
def resolveSteps (fs : FS) : Nat → Path → Path → Option Path
  | 0 => walkWith fs (fun _ _ _ => none)
  | Nat.succ fuel => walkWith fs (fun t _ rest =>
      match resolveSteps fs fuel [] t with
      | none => none
      | some acc2 => resolveSteps fs fuel acc2 rest)

/-- Default resolution fuel: more than enough for every acyclic state the
theorems below quantify over. -/
def fsFuel (fs : FS) : Nat := fs.length + 1

/-- Non-strict full resolution of a path (model of `Path.resolve()`). -/
def resolveNS (fs : FS) (p : Path) : Option Path :=
  resolveSteps fs (fsFuel fs) [] p

/-- Split a path into its parent and final component. -/
def splitLast : Path → Option (Path × Comp)
  | [] => none
  | [c] => some ([], c)
  | c :: rest =>
    match splitLast rest with
    | some (q, l) => some (c :: q, l)
    | none => none

/-- Resolve every component but the last (the traversal an `lstat`-style
query performs). -/
def lresolve (fs : FS) (p : Path) : Option Path :=
  match splitLast p with
  | none => some []
  | some (par, l) =>
    match resolveSteps fs (fsFuel fs) [] par with
    | some q => some (q ++ [l])
    | none => none

/-- The node a `stat`-style query sees at `p` (follows final symlinks). -/
def statNode (fs : FS) (p : Path) : Option Node :=
  match resolveNS fs p with
  | some q => lookupP fs q
  | none => none

/-- The node an `lstat`-style query sees at `p`. -/
def lstatNode (fs : FS) (p : Path) : Option Node :=
  match lresolve fs p with
  | some q => lookupP fs q
  | none => none

/-- Model of `Path.exists()` (follows symlinks). -/
def pexists (fs : FS) (p : Path) : Bool := (statNode fs p).isSome

/-- Model of `Path.is_dir()` (follows symlinks). -/
def isDirAt (fs : FS) (p : Path) : Bool := decide (statNode fs p = some Node.dir)

/-- Model of `Path.is_symlink()`. -/
def isSymlinkAt (fs : FS) (p : Path) : Bool :=
  match lstatNode fs p with
  | some (Node.symlink _) => true
  | _ => false

/-- Model of `Path.resolve(strict=True)`: full resolution, requiring the
result to exist. -/
def resolveStrict (fs : FS) (p : Path) : Option Path :=
  match resolveNS fs p with
  | some q => if (lookupP fs q).isSome then some q else none
  | none => none

/-! ### Mutation primitives (literal paths, real-directory ancestor chains) -/

/-- Model of `os.symlink` as used by `Path.symlink_to`: the parent chain
must be real directories and the final path must be unoccupied. -/
def osSymlink (fs : FS) (p : Path) (tgt : Path) : Option FS :=
  if realChain fs p && decide (lookupP fs p = none) && !(p.isEmpty) then
    some (setP fs p (Node.symlink tgt))
  else none

/-- Model of `os.rename` as used by `Path.rename` and by `shutil.move`
onto a fresh destination: moves the whole subtree at `src` to `dst`.
Overwriting renames are modelled as errors; every call site below has
already ensured the destination is fresh. -/
def osRename (fs : FS) (src dst : Path) : Option FS :=
  if realChain fs src && realChain fs dst && (lookupP fs src).isSome
      && decide (lookupP fs dst = none) && !(isPre src dst) && !(isPre dst src)
      && !src.isEmpty && !dst.isEmpty then
    some (renameTree fs src dst)
  else none

/-- Model of `Path.rmdir`: the path must be an empty real directory. -/
def osRmdir (fs : FS) (p : Path) : Option FS :=
  if realChain fs p && decide (lookupP fs p = some Node.dir) && !(hasEntry fs p)
      && !p.isEmpty then
    some (eraseP fs p)
  else none

/-- Model of `Path.unlink`: removes a non-directory entry. -/
def osUnlink (fs : FS) (p : Path) : Option FS :=
  match lookupP fs p with
  | some Node.dir => none
  | some _ => if realChain fs p then some (eraseP fs p) else none
  | none => none

/-- Model of `Path.mkdir(parents=True, exist_ok=True)`: walk the
components, creating the missing ones as directories; any non-directory
entry met on the way is an error. -/
def mkdirSteps (fs : FS) (acc : Path) : Path → Option FS
  | [] => some fs
  | c :: rest =>
    let q := acc ++ [c]
    match lookupP fs q with
    | some Node.dir => mkdirSteps fs q rest
    | some _ => none
    | none => mkdirSteps (setP fs q Node.dir) q rest

/-- Model of `shutil.move(src, dst)`: if `dst` is an existing directory
the source is moved inside it (erroring if that slot is taken),
otherwise the move is a plain rename. -/
def shutilMove (fs : FS) (src dst : Path) : Option FS :=
  if isDirAt fs dst then
    match splitLast src with
    | none => none
    | some (_, base) =>
      let real_dst := dst ++ [base]
      if pexists fs real_dst then none else osRename fs src real_dst
  else osRename fs src dst

/-! ### Decimal numerals (Python `str(i)` for the backup counter) -/

/-- The decimal digit character for `n < 10`. -/
def digitChar : Nat → Char
  | 0 => '0' | 1 => '1' | 2 => '2' | 3 => '3' | 4 => '4'
  | 5 => '5' | 6 => '6' | 7 => '7' | 8 => '8' | _ => '9'

/-- Fuel-indexed digit writer; the fuel (strictly more than the number)
is provably never exhausted (`natCharsAux_irrel`). -/
def natCharsAux : Nat → Nat → List Char
  | 0, _ => []
  | Nat.succ fuel, n =>
    if n < 10 then [digitChar n]
    else natCharsAux fuel (n / 10) ++ [digitChar (n % 10)]

/-- Standard decimal representation of a natural number, most significant
digit first — the model of Python `str(i)` for `i : Nat`. -/
def natChars (n : Nat) : List Char := natCharsAux (n + 1) n

/-! ### The program under verification: shared helpers

`dotman.py` and `restore.py` contain character-for-character identical
copies of `_unique_backup_path`, `_is_same_symlink`,
`_is_same_file_or_resolves_to_same` and `_mkdirp`; they are embedded once
here and shared by both variants. -/

/-- `str(path) + suffix` re-parsed as a path modifies only the final
component (no slash can occur in the suffix: the timestamp is produced
by `strftime("%Y%m%d-%H%M%S")` and the counter is decimal). -/
def bakCandidate (par : Path) (last stamp : List Char) : Option Nat → Path
  | none => par ++ [last ++ (".bak.".data ++ stamp)]
  | some i => par ++ [last ++ (".bak.".data ++ stamp) ++ ('.' :: natChars i)]

/-- The freshness test `not cand.exists() and not cand.is_symlink()` from
`_unique_backup_path`. -/
def freeAt (fs : FS) (q : Path) : Bool := !(pexists fs q) && !(isSymlinkAt fs q)

/-- The numbered-candidate search loop of `_unique_backup_path`
(`while True: candidate = ...; i += 1`), run with explicit fuel.  The
fuel passed by `uniqueBackupPath` below is proven large enough that the
`0` case — which the unbounded Python loop does not have — is never hit
(`uniqueBackupPath_spec`). -/
def findFreeIdx (fs : FS) (par : Path) (last stamp : List Char) : Nat → Nat → Nat
  | 0, i => i
  | Nat.succ fuel, i =>
    if freeAt fs (bakCandidate par last stamp (some i)) then i
    else findFreeIdx fs par last stamp fuel (i + 1)

/-- The length of the longest final component among the entries of `fs`;
any component longer than this differs from the final component of every
key, which bounds the backup search. -/
def maxLastLen (fs : FS) : Nat :=
  fs.foldr
    (fun e m =>
      max (match splitLast e.1 with | some (_, l) => l.length | none => 0) m)
    0

/-- A search bound past which a free numbered candidate provably occurs. -/
def bakFuel (fs : FS) : Nat := 10 ^ (maxLastLen fs + 1) + 1

/-- `_unique_backup_path(path, stamp)` (identical in both source files):
try `path + ".bak." + stamp` first, then `path + ".bak." + stamp + ".i"`
for `i = 1, 2, ...`, returning the first candidate that neither exists
nor is a symlink. -/
def uniqueBackupPath (fs : FS) (p : Path) (stamp : List Char) : Path :=
  match splitLast p with
  | none => p
  | some (par, l) =>
    if freeAt fs (bakCandidate par l stamp none) then bakCandidate par l stamp none
    else bakCandidate par l stamp (some (findFreeIdx fs par l stamp (bakFuel fs) 1))

/-- `_is_same_symlink(target, source)` (identical in both source files):
target is a symlink and `target.resolve() == source.resolve()`.
Resolution failure counts as not-same, never as an error. -/
def isSameSymlink (fs : FS) (target source : Path) : Bool :=
  if !(isSymlinkAt fs target) then false
  else
    match resolveNS fs target, resolveNS fs source with
    | some a, some b => decide (a = b)
    | _, _ => false

/-- `_is_same_file_or_resolves_to_same(target, source)` (identical in
both source files): both exist and resolve to the same canonical path.
The `os.path.samefile` fallback covers only hard links, which this model
cannot express; it is therefore the constant false here. -/
def isSameFileOrResolvesToSame (fs : FS) (target source : Path) : Bool :=
  if !(pexists fs target) || !(pexists fs source) then false
  else
    match resolveNS fs target, resolveNS fs source with
    | some a, some b => decide (a = b)
    | _, _ => false

/-! ### Outcomes, errors and the event log -/

/-- The action string returned by the link engines. -/
inductive Action where
  | LINK | SKIP
deriving DecidableEq, Repr

/-- An error escaping an operation: a `ConflictError` carrying the
offending path, or any other `OSError` (which no caller catches). -/
inductive Err where
  | conflictAt (p : Path)
  | oserr
deriving DecidableEq, Repr

/-- The observable actions the program logs (`MKDIR`, `BACKUP`, `RMDIR`,
`LINK`): emitted both in real mode and under dry-run. -/
inductive Event where
  | eMkdir (p : Path)
  | eBackup (src dst : Path)
  | eRmdir (p : Path)
  | eLink (target source : Path)
deriving DecidableEq, Repr

instance {e a : Type} [DecidableEq e] [DecidableEq a] : DecidableEq (Except e a) := fun x y =>
  match x, y with
  | Except.ok u, Except.ok v =>
    if h : u = v then isTrue (by rw [h]) else isFalse (by simp [h])
  | Except.error u, Except.error v =>
    if h : u = v then isTrue (by rw [h]) else isFalse (by simp [h])
  | Except.ok _, Except.error _ => isFalse (by simp)
  | Except.error _, Except.ok _ => isFalse (by simp)

/-- The result of one link-engine call: the outcome (or escaped error),
the filesystem afterwards, the logged events, and the list of backup
files actually created (empty under dry-run). -/
structure LinkOut where
  res : Except Err Action
  fs : FS
  events : List Event
  mkBak : List Path
deriving DecidableEq, Repr

/-- `_mkdirp(path, dry_run)` (identical in both source files): no-op if
`path` is already a directory, `ConflictError` if it exists as a
non-directory, otherwise `mkdir(parents=True, exist_ok=True)`. -/
def mkdirp (fs : FS) (p : Path) (dry_run : Bool) :
    Except Err Unit × FS × List Event :=
  if isDirAt fs p then (Except.ok (), fs, [])
  else if pexists fs p && !(isDirAt fs p) then (Except.error (Err.conflictAt p), fs, [])
  else if dry_run then (Except.ok (), fs, [Event.eMkdir p])
  else
    match mkdirSteps fs [] p with
    | some fs1 => (Except.ok (), fs1, [Event.eMkdir p])
    | none => (Except.error Err.oserr, fs, [])

/-- `_backup_existing(path, dry_run)` from `dotman.py`: allocate a fresh
backup path for the given timestamp and rename the path onto it (logged
but not performed under dry-run). -/
def backupExisting (fs : FS) (p : Path) (dry_run : Bool) (stamp : List Char) :
    Except Err (Path × FS × List Event × List Path) :=
  let backup := uniqueBackupPath fs p stamp
  if dry_run then Except.ok (backup, fs, [Event.eBackup p backup], [])
  else
    match osRename fs p backup with
    | some fs1 => Except.ok (backup, fs1, [Event.eBackup p backup], [backup])
    | none => Except.error Err.oserr

/-! ### The link engines -/

/-- `link_path(target, source, dry_run, force)` from `dotman.py`
(lines 96-133).  The wall-clock timestamp drawn by `_backup_existing` is
threaded in as the `stamp` parameter. -/
def linkPath (fs : FS) (target source : Path) (dry_run force : Bool)
    (stamp : List Char) : LinkOut :=
  if isSameSymlink fs target source || isSameFileOrResolvesToSame fs target source then
    ⟨Except.ok Action.SKIP, fs, [], []⟩
  else
    let step2 : Except Err (FS × List Event × List Path) :=
      if pexists fs target || isSymlinkAt fs target then
        if isDirAt fs source && pexists fs target && isDirAt fs target
            && !(isSymlinkAt fs target) && !(hasEntry fs target) then
          if dry_run then Except.ok (fs, [Event.eRmdir target], [])
          else
            match osRmdir fs target with
            | some fs1 => Except.ok (fs1, [Event.eRmdir target], [])
            | none => Except.error Err.oserr
        else
          if !force then Except.error (Err.conflictAt target)
          else
            match backupExisting fs target dry_run stamp with
            | Except.ok (_, fs1, ev, bk) => Except.ok (fs1, ev, bk)
            | Except.error e => Except.error e
      else Except.ok (fs, [], [])
    match step2 with
    | Except.error e => ⟨Except.error e, fs, [], []⟩
    | Except.ok (fs1, ev1, bk1) =>
      if dry_run then
        ⟨Except.ok Action.LINK, fs1, ev1 ++ [Event.eLink target source], bk1⟩
      else
        match osSymlink fs1 target source with
        | some fs2 => ⟨Except.ok Action.LINK, fs2, ev1 ++ [Event.eLink target source], bk1⟩
        | none => ⟨Except.error Err.oserr, fs1, ev1, bk1⟩

/-- `link_file(target, source, dry_run, force)` from `restore.py`
(lines 84-119): like `link_path` but with the two identity checks in
separate `if` statements, no empty-directory special case, the backup
logic written inline, and `symlink_to` called without the
`target_is_directory` hint (irrelevant on POSIX and in this model). -/
def linkFile (fs : FS) (target source : Path) (dry_run force : Bool)
    (stamp : List Char) : LinkOut :=
  if isSameSymlink fs target source then ⟨Except.ok Action.SKIP, fs, [], []⟩
  else if isSameFileOrResolvesToSame fs target source then ⟨Except.ok Action.SKIP, fs, [], []⟩
  else
    let step2 : Except Err (FS × List Event × List Path) :=
      if pexists fs target || isSymlinkAt fs target then
        if !force then Except.error (Err.conflictAt target)
        else
          let backup := uniqueBackupPath fs target stamp
          if dry_run then Except.ok (fs, [Event.eBackup target backup], [])
          else
            match osRename fs target backup with
            | some fs1 => Except.ok (fs1, [Event.eBackup target backup], [backup])
            | none => Except.error Err.oserr
      else Except.ok (fs, [], [])
    match step2 with
    | Except.error e => ⟨Except.error e, fs, [], []⟩
    | Except.ok (fs1, ev1, bk1) =>
      if dry_run then
        ⟨Except.ok Action.LINK, fs1, ev1 ++ [Event.eLink target source], bk1⟩
      else
        match osSymlink fs1 target source with
        | some fs2 => ⟨Except.ok Action.LINK, fs2, ev1 ++ [Event.eLink target source], bk1⟩
        | none => ⟨Except.error Err.oserr, fs1, ev1, bk1⟩

/-! ### The path mapper -/

/-- Python `name.split("__")`: greedy leftmost non-overlapping split on
the two-character separator, keeping empty pieces. -/
def splitUU : List Char → List (List Char)
  | [] => [[]]
  | [c] => [[c]]
  | c1 :: c2 :: rest =>
    if c1 = '_' ∧ c2 = '_' then [] :: splitUU rest
    else
      match splitUU (c2 :: rest) with
      | h :: t => (c1 :: h) :: t
      | [] => [[c1]]

/-- Python `Path(*parts)`: empty components and `"."` components are
dropped by the `pathlib` parser. -/
def pathMk (parts : List Comp) : Path :=
  parts.filter (fun c => decide (c ≠ ([] : Comp)) && decide (c ≠ ['.']))

/-- `_map_top_level_to_home(name)` from `dotman.py` (lines 136-139), and
the character-for-character identical `_map_top_level` of `restore.py`:
split on `"__"`, dot-prefix the first piece, join as a path. -/
def mapTopLevelToHome (name : Comp) : Path :=
  pathMk
    (match splitUU name with
     | [] => []
     | h :: t => ('.' :: h) :: t)

/-- `repo_dest_for_home_path(home_path, home, dotfiles_root)` from
`dotman.py` (lines 192-221).  `Except.error ()` stands for the raised
`ValueError`; the `expanduser`/`abspath` normalisation is outside the
model (paths are already absolute). -/
def repoDestForHomePath (home_path home dotfiles_root : Path) : Except Unit Path :=
  if !(isPre home home_path) then Except.error ()
  else
    match home_path.drop home.length with
    | [] => Except.error ()
    | top :: restParts =>
      match top with
      | [] => Except.error ()
      | c :: _ =>
        if c ≠ '.' then Except.error ()
        else if top = (".config".data : Comp) then
          match restParts with
          | [] => Except.error ()
          | app :: rest2 =>
            Except.ok (dotfiles_root ++ [("config__".data ++ app)] ++ pathMk rest2)
        else if (top :: restParts).take 3
            = ([".local".data, "bin".data, "scripts".data] : List Comp) then
          Except.ok (dotfiles_root ++ ["local__bin__scripts".data]
            ++ pathMk ((top :: restParts).drop 3))
        else
          Except.ok (dotfiles_root ++ pathMk (top.drop 1 :: restParts))

/-! ### Traversal (restore) -/

/-- Code-point lexicographic comparison of character lists — Python
string comparison. -/
def lexLe : List Char → List Char → Bool
  | [], _ => true
  | _ :: _, [] => false
  | a :: as, b :: bs =>
    if a.toNat < b.toNat then true
    else if b.toNat < a.toNat then false
    else lexLe as bs

/-- `str(path)` up to the leading slash shared by all absolute paths:
components joined by `/`. -/
def joinSlash : Path → List Char
  | [] => []
  | [c] => c
  | c :: rest => c ++ '/' :: joinSlash rest

/-- Python `sorted` on paths: `Path.__lt__` compares the path strings. -/
def sortPaths (l : List Path) : List Path :=
  List.insertionSort (fun a b => lexLe (joinSlash a) (joinSlash b) = true) l

/-- The final component of a path (`Path.name`), empty for the root. -/
def lastComp (p : Path) : Comp :=
  match splitLast p with
  | some (_, l) => l
  | none => []

/-- Python `Path.suffix`: the part of the name from its last dot, when
that dot is neither the first nor the last character. -/
def suffixOf (name : Comp) : Comp :=
  match name.reverse.findIdx? (fun c => c == '.') with
  | none => []
  | some j =>
    let i := name.length - 1 - j
    if 0 < i ∧ i < name.length - 1 then name.drop i else []

/-- `DEFAULT_IGNORE_DIRS` (identical in both source files). -/
def IGNORE_DIRS : List Comp := ["__pycache__".data, ".git".data]

/-- `DEFAULT_IGNORE_SUFFIXES` (identical in both source files). -/
def IGNORE_SUFFIXES : List Comp := [".pyc".data]

/-- `sorted(p.iterdir())`: the sorted children of a real directory;
`none` (an escaping `OSError`) if `p` is not a real directory. -/
def iterdirSorted (fs : FS) (p : Path) : Option (List Path) :=
  if lookupP fs p = some Node.dir then
    some (sortPaths ((fs.filter (fun e => isPre p e.1 && decide (e.1.length = p.length + 1))).map (fun e => e.1)))
  else none

/-- `sorted(top.rglob("*"))`: every key strictly below `top`, sorted. -/
def rglobSorted (fs : FS) (top : Path) : List Path :=
  sortPaths ((fs.filter (fun e => isPre top e.1 && decide (top.length < e.1.length))).map (fun e => e.1))

/-- The `(source, target)` pairs `iter_restore_links` (dotman.py, lines
142-167) yields for one top-level entry, evaluated against the current
filesystem (the Python generator walks each top-level directory lazily,
when the loop reaches it). -/
def pairsForTop (fs : FS) (source_root home : Path) (name : Comp) :
    List (Path × Path) :=
  if IGNORE_DIRS.contains name then []
  else
    let top := source_root ++ [name]
    let base_target := home ++ mapTopLevelToHome name
    if isDirAt fs top then
      if ("config__".data : Comp).isPrefixOf name then [(top, base_target)]
      else
        (rglobSorted fs top).filterMap (fun sp =>
          let rel := sp.drop top.length
          if sp.any (fun part => IGNORE_DIRS.contains part) then none
          else if IGNORE_SUFFIXES.contains (suffixOf (lastComp sp)) then none
          else if isDirAt fs sp then none
          else some (sp, base_target ++ rel))
    else
      if IGNORE_SUFFIXES.contains (suffixOf name) then []
      else [(top, base_target)]

/-- The pairs `iter_links` (restore.py, lines 130-151) yields for one
top-level entry: identical to `pairsForTop` except that directories are
always walked recursively — there is no `config__` whole-directory
special case. -/
def pairsForTopR (fs : FS) (source_root home : Path) (name : Comp) :
    List (Path × Path) :=
  if IGNORE_DIRS.contains name then []
  else
    let top := source_root ++ [name]
    let base_target := home ++ mapTopLevelToHome name
    if isDirAt fs top then
      (rglobSorted fs top).filterMap (fun sp =>
        let rel := sp.drop top.length
        if sp.any (fun part => IGNORE_DIRS.contains part) then none
        else if IGNORE_SUFFIXES.contains (suffixOf (lastComp sp)) then none
        else if isDirAt fs sp then none
        else some (sp, base_target ++ rel))
    else
      if IGNORE_SUFFIXES.contains (suffixOf name) then []
      else [(top, base_target)]

/-! ### run_restore -/

/-- The observable outcome of a whole `run_restore` call: final
filesystem, the `LINK`/`SKIP`/`CONFLICT` counters, the backup files
created, and the exception that aborted the run, if any.  (The Python
function returns exit status `0` or `2` from the counters, or lets the
exception escape.) -/
structure RunResult where
  fs : FS
  links : Nat
  skips : Nat
  conflicts : Nat
  backups : List Path
  abort : Option Err
deriving DecidableEq, Repr

/-- One iteration of the `run_restore` loop body: `_mkdirp(dst.parent)`
(whose `ConflictError` is *not* caught and aborts the run), then the
link engine, whose `ConflictError` is counted and whose other errors
abort the run. -/
def stepPair (link : FS → Path → Path → Bool → Bool → List Char → LinkOut)
    (dry_run force : Bool) (stamp : List Char) (acc : RunResult)
    (sd : Path × Path) : RunResult :=
  if acc.abort.isSome then acc
  else
    match mkdirp acc.fs sd.2.dropLast dry_run with
    | (Except.error e, fs1, _) => { acc with fs := fs1, abort := some e }
    | (Except.ok _, fs1, _) =>
      let lo := link fs1 sd.2 sd.1 dry_run force stamp
      match lo.res with
      | Except.ok Action.LINK =>
        { acc with fs := lo.fs, links := acc.links + 1, backups := acc.backups ++ lo.mkBak }
      | Except.ok Action.SKIP =>
        { acc with fs := lo.fs, skips := acc.skips + 1, backups := acc.backups ++ lo.mkBak }
      | Except.error (Err.conflictAt _) =>
        { acc with fs := lo.fs, conflicts := acc.conflicts + 1, backups := acc.backups ++ lo.mkBak }
      | Except.error e =>
        { acc with fs := lo.fs, abort := some e, backups := acc.backups ++ lo.mkBak }

/-- `run_restore(home, source_root, dry_run, force)`, parametrised by the
link engine and by the per-top pair generator so that both source
variants share one definition.  The top-level listing is taken once, up
front (as the Python generator does); each top-level entry's pairs are
computed lazily against the filesystem as it then stands. -/
def runRestoreWith
    (link : FS → Path → Path → Bool → Bool → List Char → LinkOut)
    (pairsFor : FS → Path → Path → Comp → List (Path × Path))
    (fs0 : FS) (home source_root : Path) (dry_run force : Bool)
    (stamp : List Char) : RunResult :=
  match iterdirSorted fs0 source_root with
  | none => ⟨fs0, 0, 0, 0, [], some Err.oserr⟩
  | some tops =>
    tops.foldl
      (fun acc top =>
        if acc.abort.isSome then acc
        else
          (pairsFor acc.fs source_root home (lastComp top)).foldl
            (stepPair link dry_run force stamp) acc)
      ⟨fs0, 0, 0, 0, [], none⟩

/-- `run_restore` of `dotman.py` (lines 170-189). -/
def runRestore (fs0 : FS) (home source_root : Path) (dry_run force : Bool)
    (stamp : List Char) : RunResult :=
  runRestoreWith linkPath pairsForTop fs0 home source_root dry_run force stamp

/-- `run_restore` of `restore.py` (lines 154-173). -/
def runRestoreR (fs0 : FS) (home source_root : Path) (dry_run force : Bool)
    (stamp : List Char) : RunResult :=
  runRestoreWith linkFile pairsForTopR fs0 home source_root dry_run force stamp

/-! ### Stow / unstow (one loop iteration each) -/

/-- Per-path errors (`LOG.error` + `rc = 2` + `continue`). -/
inductive PErr where
  | missing
  | broken
  | notRepoLink
  | outsideHome
  | conflictRepo
  | destExists
  | linkConflict (p : Path)
  | notSymlink
deriving DecidableEq, Repr

/-- The uncaught `ValueError` raised by `repo_dest_for_home_path`. -/
inductive Fatal where
  | valueErr
  | escaped (e : Err)
deriving DecidableEq, Repr

/-- Outcome of one iteration of the `run_stow` / `run_unstow` loop. -/
inductive StowOut where
  | okNoop
  | okDone
  | perr (e : PErr)
  | fatal (e : Fatal)
deriving DecidableEq, Repr

/-- The common tail of a successful stow: `_mkdirp(dst.parent)` (whose
`ConflictError` is uncaught here), then — unless dry-run — move the home
path into the repository and symlink it back. -/
def stowTail (fs : FS) (p dst : Path) (dry_run : Bool) : FS × StowOut :=
  match mkdirp fs dst.dropLast dry_run with
  | (Except.error e, fs1, _) => (fs1, StowOut.fatal (Fatal.escaped e))
  | (Except.ok _, fs1, _) =>
    if dry_run then (fs1, StowOut.okDone)
    else
      match shutilMove fs1 p dst with
      | none => (fs1, StowOut.fatal (Fatal.escaped Err.oserr))
      | some fs2 =>
        match osSymlink fs2 p dst with
        | none => (fs2, StowOut.fatal (Fatal.escaped Err.oserr))
        | some fs3 => (fs3, StowOut.okDone)

/-- One iteration of the `run_stow` loop of `dotman.py` (lines 233-308),
for an already-absolute requested path `p` (`expanduser`/`abspath` are
outside the model). -/
def stowOne (fs : FS) (p : Path) (home dotfiles_root : Path)
    (dry_run force : Bool) (stamp : List Char) : FS × StowOut :=
  if !(pexists fs p) && !(isSymlinkAt fs p) then (fs, StowOut.perr PErr.missing)
  else if isSymlinkAt fs p then
    match resolveStrict fs p with
    | none => (fs, StowOut.perr PErr.broken)
    | some tgt =>
      if isPre dotfiles_root tgt then (fs, StowOut.okNoop)
      else (fs, StowOut.perr PErr.notRepoLink)
  else if !(isPre home p) then (fs, StowOut.perr PErr.outsideHome)
  else
    match repoDestForHomePath p home dotfiles_root with
    | Except.error () => (fs, StowOut.fatal Fatal.valueErr)
    | Except.ok dst =>
      if isSameSymlink fs p dst || isSameFileOrResolvesToSame fs p dst then
        (fs, StowOut.okNoop)
      else if pexists fs dst || isSymlinkAt fs dst then
        if isSameFileOrResolvesToSame fs dst p then
          let lo := linkPath fs p dst dry_run force stamp
          match lo.res with
          | Except.ok _ => (lo.fs, StowOut.okDone)
          | Except.error (Err.conflictAt q) => (lo.fs, StowOut.perr (PErr.linkConflict q))
          | Except.error e => (lo.fs, StowOut.fatal (Fatal.escaped e))
        else if !force then (fs, StowOut.perr PErr.conflictRepo)
        else
          match backupExisting fs dst dry_run stamp with
          | Except.error e => (fs, StowOut.fatal (Fatal.escaped e))
          | Except.ok (_, fs1, _, _) => stowTail fs1 p dst dry_run
      else stowTail fs p dst dry_run

/-- One iteration of the `run_unstow` loop of `dotman.py`
(lines 322-369), for an already-absolute requested path `p`. -/
def unstowOne (fs : FS) (p : Path) (dotfiles_root : Path)
    (dry_run force : Bool) (stamp : List Char) : FS × StowOut :=
  if !(isSymlinkAt fs p) then (fs, StowOut.perr PErr.notSymlink)
  else
    match resolveStrict fs p with
    | none => (fs, StowOut.perr PErr.broken)
    | some target =>
      if !(isPre dotfiles_root target) then (fs, StowOut.perr PErr.notRepoLink)
      else if dry_run then (fs, StowOut.okDone)
      else
        -- Guard from the source ("shouldn't; it's a symlink"): `p` is a
        -- symlink at this point, so the condition is always false.
        let deadGuard : Except (FS × StowOut) FS :=
          if pexists fs p && !(isSymlinkAt fs p) then
            if !force then Except.error (fs, StowOut.perr PErr.destExists)
            else
              match backupExisting fs p false stamp with
              | Except.error e => Except.error (fs, StowOut.fatal (Fatal.escaped e))
              | Except.ok (_, fs1, _, _) => Except.ok fs1
          else Except.ok fs
        match deadGuard with
        | Except.error r => r
        | Except.ok fsA =>
          match osUnlink fsA p with
          | none => (fsA, StowOut.fatal (Fatal.escaped Err.oserr))
          | some fs1 =>
            match mkdirp fs1 p.dropLast false with
            | (Except.error e, fs2, _) => (fs2, StowOut.fatal (Fatal.escaped e))
            | (Except.ok _, fs2, _) =>
              match shutilMove fs2 target p with
              | none => (fs2, StowOut.fatal (Fatal.escaped Err.oserr))
              | some fs3 => (fs3, StowOut.okDone)

end DF






/-! ## Supporting lemmas -/

namespace DF

theorem splitUU_uu (rest : List Char) : splitUU ('_' :: '_' :: rest) = [] :: splitUU rest := rfl

theorem splitUU_config (app : List Char) :
    splitUU ("config__".data ++ app) = "config".data :: splitUU app := by
  show splitUU ('c' :: 'o' :: 'n' :: 'f' :: 'i' :: 'g' :: '_' :: '_' :: app) = _
  simp [splitUU]

/-- `mapTopLevelToHome` on a separator-free name. -/
theorem mapTopLevelToHome_plain (n : Comp) (h1 : splitUU n = [n]) (h0 : n ≠ []) :
    mapTopLevelToHome n = [('.' :: n)] := by
  unfold mapTopLevelToHome
  rw [h1]
  simp only [pathMk, List.filter]
  have : ('.' :: n ≠ ([] : Comp)) := by simp
  have h4 : ('.' :: n ≠ (['.'] : Comp)) := by
    intro hc
    exact h0 (by simpa using hc)
  simp [this, h4]

theorem isPre_append (p q : Path) : isPre p (p ++ q) = true := by
  simp [isPre, List.prefix_append]

end DF

namespace DF

theorem dotString_cons : (".config".data : Comp) = '.' :: "config".data := rfl

/-- The generic (dot-stripping) branch of `repoDestForHomePath`. -/
theorem repoDest_plain (home root : Path) (n : Comp) (h0 : n ≠ [])
    (h2 : n ≠ "config".data) (h3 : n ≠ ['.']) :
    repoDestForHomePath (home ++ [('.' :: n)]) home root = Except.ok (root ++ [n]) := by
  unfold repoDestForHomePath
  rw [isPre_append]
  simp only [Bool.not_true, Bool.false_eq_true, if_false, List.drop_left]
  have hc : ('.' :: n) ≠ (".config".data : Comp) := by
    rw [dotString_cons]
    intro hx
    exact h2 (by simpa using hx)
  have hl : ¬ (([('.' :: n)] : List Comp).take 3
      = ([".local".data, "bin".data, "scripts".data] : List Comp)) := by
    intro hx
    have := congrArg List.length hx
    simp at this
  rw [if_neg hc, if_neg hl]
  simp [pathMk, h0, h3]

end DF

namespace DF

/-- The `~/.config/<app>` branch of `repoDestForHomePath`. -/
theorem repoDest_config (home root : Path) (app : Comp) :
    repoDestForHomePath (home ++ [(".config".data : Comp), app]) home root
      = Except.ok (root ++ [("config__".data ++ app)]) := by
  unfold repoDestForHomePath
  rw [isPre_append]
  simp [pathMk]

/-- The `~/.local/bin/scripts` branch of `repoDestForHomePath`. -/
theorem repoDest_local (home root : Path) :
    repoDestForHomePath
        (home ++ [(".local".data : Comp), ("bin".data : Comp), ("scripts".data : Comp)])
        home root
      = Except.ok (root ++ [("local__bin__scripts".data : Comp)]) := by
  unfold repoDestForHomePath
  rw [isPre_append]
  have hc : ((".local".data : Comp)) ≠ (".config".data : Comp) := by decide
  simp [pathMk, hc]

/-- `mapTopLevelToHome` on `config__<app>` for a separator-free `app`. -/
theorem mapTopLevelToHome_config (app : Comp) (h1 : splitUU app = [app]) (h0 : app ≠ [])
    (h3 : app ≠ ['.']) :
    mapTopLevelToHome ("config__".data ++ app) = [(".config".data : Comp), app] := by
  unfold mapTopLevelToHome
  rw [splitUU_config, h1]
  simp only [pathMk, List.filter]
  have ha : (app ≠ ([] : Comp)) := h0
  have hb : (app ≠ (['.'] : Comp)) := h3
  simp [ha, hb, dotString_cons]

end DF

/-! ## Claim C1 — name-mapping round trip -/

/-- Claim C1, as stated, is false: the repository entry name `a__b`
(path-safe and non-empty) maps to the home path `~/.a/b`, whose inverse
image under `repo_dest_for_home_path` is the repository path `a/b`, not
the entry name `a__b` again. -/
theorem C1_roundtrip_counterexample :
    DF.repoDestForHomePath
        ((["h".data] : DF.Path) ++ DF.mapTopLevelToHome ("a__b".data))
        (["h".data] : DF.Path) (["r".data] : DF.Path)
      = Except.ok (["r".data, "a".data, "b".data] : DF.Path)
    ∧ (["r".data, "a".data, "b".data] : DF.Path)
      ≠ (["r".data] : DF.Path) ++ [("a__b".data : DF.Comp)] := by
  constructor
  · decide
  · decide

/-- Claim C1, amended.  The round trip `N ↦ home path ↦ repository path`
returns exactly `N` when `N` is (i) a separator-free name other than
`config` (and other than the impossible entry names `""` and `"."`),
(ii) `config__<app>` for a separator-free app name, or (iii) the special
name `local__bin__scripts`.  (For other names containing `__`, and for
the bare name `config`, the inverse produces a different repository path
or an error — see the counterexample.) -/
theorem C1_roundtrip_amended :
    (∀ (home root : DF.Path) (n : DF.Comp), n ≠ [] → DF.splitUU n = [n] →
        n ≠ "config".data → n ≠ ['.'] →
        DF.repoDestForHomePath (home ++ DF.mapTopLevelToHome n) home root
          = Except.ok (root ++ [n]))
    ∧ (∀ (home root : DF.Path) (app : DF.Comp), app ≠ [] → DF.splitUU app = [app] →
        app ≠ ['.'] →
        DF.repoDestForHomePath (home ++ DF.mapTopLevelToHome ("config__".data ++ app)) home root
          = Except.ok (root ++ [("config__".data ++ app)]))
    ∧ (∀ (home root : DF.Path),
        DF.repoDestForHomePath
            (home ++ DF.mapTopLevelToHome ("local__bin__scripts".data)) home root
          = Except.ok (root ++ [("local__bin__scripts".data : DF.Comp)])) := by
  refine ⟨?_, ?_, ?_⟩
  · intro home root n h0 h1 h2 h3
    rw [DF.mapTopLevelToHome_plain n h1 h0]
    exact DF.repoDest_plain home root n h0 h2 h3
  · intro home root app h0 h1 h3
    rw [DF.mapTopLevelToHome_config app h1 h0 h3]
    exact DF.repoDest_config home root app
  · intro home root
    have hm : DF.mapTopLevelToHome ("local__bin__scripts".data)
        = [(".local".data : DF.Comp), ("bin".data : DF.Comp), ("scripts".data : DF.Comp)] := by
      decide
    rw [hm]
    exact DF.repoDest_local home root

/-- Witness: the amended round trip evaluated at the concrete names
`bashrc`, `config__qtile` and `local__bin__scripts` of the repository's
own self-test. -/
theorem C1_roundtrip_witness :
    DF.repoDestForHomePath
        ((["h".data] : DF.Path) ++ DF.mapTopLevelToHome ("bashrc".data))
        (["h".data] : DF.Path) (["r".data] : DF.Path)
      = Except.ok ((["r".data] : DF.Path) ++ [("bashrc".data : DF.Comp)])
    ∧ DF.repoDestForHomePath
        ((["h".data] : DF.Path) ++ DF.mapTopLevelToHome ("config__".data ++ "qtile".data))
        (["h".data] : DF.Path) (["r".data] : DF.Path)
      = Except.ok ((["r".data] : DF.Path) ++ [("config__".data ++ "qtile".data : DF.Comp)]) :=
  ⟨C1_roundtrip_amended.1 ["h".data] ["r".data] ("bashrc".data)
      (by decide) (by decide) (by decide) (by decide),
   C1_roundtrip_amended.2.1 ["h".data] ["r".data] ("qtile".data)
      (by decide) (by decide) (by decide)⟩

/-! ## Resolution unfolding lemmas -/

namespace DF

theorem resolveSteps_nil (fs : FS) (f : Nat) (a : Path) :
    resolveSteps fs f a [] = some a := by
  cases f <;> rfl

theorem resolveSteps_cons_nonsym (fs : FS) (f : Nat) (a : Path) (c : Comp) (rest : Path)
    (h : ∀ t, lookupP fs (a ++ [c]) ≠ some (Node.symlink t)) :
    resolveSteps fs f a (c :: rest) = resolveSteps fs f (a ++ [c]) rest := by
  cases f with
  | zero =>
    rw [resolveSteps, walkWith]
    rcases hl : lookupP fs (a ++ [c]) with _ | n
    · simp [resolveSteps]
    · cases n with
      | file _ => simp [resolveSteps]
      | dir => simp [resolveSteps]
      | symlink t => exact absurd hl (h t)
  | succ f =>
    rw [resolveSteps, walkWith]
    rcases hl : lookupP fs (a ++ [c]) with _ | n
    · simp [resolveSteps]
    · cases n with
      | file _ => simp [resolveSteps]
      | dir => simp [resolveSteps]
      | symlink t => exact absurd hl (h t)

theorem resolveSteps_cons_sym (fs : FS) (f : Nat) (a : Path) (c : Comp) (rest : Path)
    (t : Path) (h : lookupP fs (a ++ [c]) = some (Node.symlink t)) :
    resolveSteps fs (f + 1) a (c :: rest)
      = match resolveSteps fs f [] t with
        | none => none
        | some acc2 => resolveSteps fs f acc2 rest := by
  rw [resolveSteps, walkWith]
  simp [h]

theorem resolveSteps_cons_sym_zero (fs : FS) (a : Path) (c : Comp) (rest : Path)
    (t : Path) (h : lookupP fs (a ++ [c]) = some (Node.symlink t)) :
    resolveSteps fs 0 a (c :: rest) = none := by
  rw [resolveSteps, walkWith]
  simp [h]

theorem splitLast_append (q : Path) (c : Comp) : splitLast (q ++ [c]) = some (q, c) := by
  induction q with
  | nil => rfl
  | cons a q ih =>
    rcases q with _ | ⟨b, q'⟩
    · rfl
    · simp only [List.cons_append]
      rw [splitLast]
      rw [List.cons_append] at ih
      rw [ih]
      simp

end DF

namespace DF

/-- No entry of the filesystem has `c` as its final component. -/
def NoKeyEndsWith (fs : FS) (c : Comp) : Prop :=
  ∀ e ∈ fs, ∀ q : Path, e.1 ≠ q ++ [c]

theorem lookupP_notlast (fs : FS) (c : Comp) (h : NoKeyEndsWith fs c) (q : Path) :
    lookupP fs (q ++ [c]) = none := by
  unfold lookupP
  have hne : q ++ [c] ≠ ([] : Path) := by simp
  rw [if_neg hne]
  have : fs.find? (fun e => e.1 = q ++ [c]) = none := by
    rw [List.find?_eq_none]
    intro e he
    simpa using h e he q
  rw [this]

/-- Resolution of a path whose final component matches no key: the final
component rides along unresolved. -/
theorem resolveSteps_notlast (fs : FS) (c : Comp) (h : NoKeyEndsWith fs c) :
    ∀ (f : Nat) (xs a : Path),
      resolveSteps fs f a (xs ++ [c]) = (resolveSteps fs f a xs).map (· ++ [c]) := by
  intro f
  induction f using Nat.strong_induction_on with
  | _ f IHf =>
    intro xs
    induction xs with
    | nil =>
      intro a
      rw [List.nil_append, resolveSteps_nil, resolveSteps_cons_nonsym fs f a c []
        (by intro t ht; rw [lookupP_notlast fs c h a] at ht; exact Option.noConfusion ht)]
      rw [resolveSteps_nil]
      rfl
    | cons x xs' IHxs =>
      intro a
      rcases hl : lookupP fs (a ++ [x]) with _ | n
      · rw [List.cons_append, resolveSteps_cons_nonsym fs f a x (xs' ++ [c])
            (by intro t ht; rw [hl] at ht; exact Option.noConfusion ht),
          resolveSteps_cons_nonsym fs f a x xs'
            (by intro t ht; rw [hl] at ht; exact Option.noConfusion ht)]
        exact IHxs (a ++ [x])
      · cases n with
        | file ct =>
          rw [List.cons_append, resolveSteps_cons_nonsym fs f a x (xs' ++ [c])
              (by intro t ht; rw [hl] at ht; simp at ht),
            resolveSteps_cons_nonsym fs f a x xs'
              (by intro t ht; rw [hl] at ht; simp at ht)]
          exact IHxs (a ++ [x])
        | dir =>
          rw [List.cons_append, resolveSteps_cons_nonsym fs f a x (xs' ++ [c])
              (by intro t ht; rw [hl] at ht; simp at ht),
            resolveSteps_cons_nonsym fs f a x xs'
              (by intro t ht; rw [hl] at ht; simp at ht)]
          exact IHxs (a ++ [x])
        | symlink t =>
          cases f with
          | zero =>
            rw [List.cons_append, resolveSteps_cons_sym_zero fs a x (xs' ++ [c]) t hl,
              resolveSteps_cons_sym_zero fs a x xs' t hl]
            rfl
          | succ f' =>
            rw [List.cons_append, resolveSteps_cons_sym fs f' a x (xs' ++ [c]) t hl,
              resolveSteps_cons_sym fs f' a x xs' t hl]
            rcases hr : resolveSteps fs f' [] t with _ | acc2
            · rfl
            · exact IHf f' (Nat.lt_succ_self f') xs' acc2

end DF

namespace DF

/-- A path whose final component matches no key neither exists nor is a
symlink. -/
theorem freeAt_of_noKeyEndsWith (fs : FS) (par : Path) (c : Comp)
    (h : NoKeyEndsWith fs c) : freeAt fs (par ++ [c]) = true := by
  unfold freeAt pexists statNode resolveNS isSymlinkAt lstatNode lresolve
  rw [splitLast_append, resolveSteps_notlast fs c h (fsFuel fs) par []]
  rcases hr : resolveSteps fs (fsFuel fs) [] par with _ | q
  · simp [hr]
  · simp [hr, lookupP_notlast fs c h q]

theorem lastLen_le_maxLastLen (fs : FS) :
    ∀ e ∈ fs,
      (match splitLast e.1 with | some (_, l) => l.length | none => 0) ≤ maxLastLen fs := by
  induction fs with
  | nil => intro e he; cases he
  | cons x fs ih =>
    intro e he
    have hstep : maxLastLen (x :: fs)
        = max (match splitLast x.1 with | some (_, l) => l.length | none => 0)
            (maxLastLen fs) := rfl
    rcases List.mem_cons.mp he with he | he
    · rw [he, hstep]; exact Nat.le_max_left _ _
    · rw [hstep]; exact Nat.le_trans (ih e he) (Nat.le_max_right _ _)

/-- A component longer than every key's final component ends no key. -/
theorem noKeyEndsWith_of_long (fs : FS) (c : Comp) (h : maxLastLen fs < c.length) :
    NoKeyEndsWith fs c := by
  intro e he q hq
  have h1 := lastLen_le_maxLastLen fs e he
  rw [hq, splitLast_append] at h1
  simp only at h1
  omega

theorem natCharsAux_irrel (f1 : Nat) :
    ∀ f2 n, n < f1 → n < f2 → natCharsAux f1 n = natCharsAux f2 n := by
  induction f1 with
  | zero => intro f2 n h1; omega
  | succ f1 ih =>
    intro f2 n h1 h2
    cases f2 with
    | zero => omega
    | succ f2 =>
      rw [natCharsAux, natCharsAux]
      by_cases hn : n < 10
      · simp [hn]
      · rw [if_neg hn, if_neg hn]
        have hlt : n / 10 < n := Nat.div_lt_self (by omega) (by omega)
        rw [ih f2 (n / 10) (by omega) (by omega)]

theorem natChars_step (n : Nat) (h : ¬ n < 10) :
    natChars n = natChars (n / 10) ++ [digitChar (n % 10)] := by
  unfold natChars
  rw [natCharsAux, if_neg h]
  have hlt : n / 10 < n := Nat.div_lt_self (by omega) (by omega)
  rw [natCharsAux_irrel n (n / 10 + 1) (n / 10) (by omega) (by omega)]

theorem natChars_len_pow (k : Nat) : (natChars (10 ^ (k + 1))).length = k + 2 := by
  induction k with
  | zero =>
    norm_num
    rw [natChars_step 10 (by omega)]
    rfl
  | succ k ih =>
    have h10 : ¬ (10 ^ (k + 1 + 1) < 10) := by
      have : 10 ^ 1 ≤ 10 ^ (k + 1 + 1) := Nat.pow_le_pow_right (by omega) (by omega)
      simpa using this
    rw [natChars_step _ h10]
    have hdiv : 10 ^ (k + 1 + 1) / 10 = 10 ^ (k + 1) := by
      rw [pow_succ]
      exact Nat.mul_div_cancel _ (by omega)
    rw [hdiv]
    simp [ih]

end DF

namespace DF

/-- The candidate sequence of `_unique_backup_path`: index 0 is
`path + ".bak." + stamp`, index `i ≥ 1` is that plus `"." + str(i)`. -/
def candSeq (par : Path) (l stamp : List Char) : Nat → Path
  | 0 => bakCandidate par l stamp none
  | Nat.succ i => bakCandidate par l stamp (some (i + 1))

/-- A numbered candidate whose counter has more digits than any key's
final component is free. -/
theorem bakCandidate_big_free (fs : FS) (par : Path) (l stamp : List Char) :
    freeAt fs (bakCandidate par l stamp (some (10 ^ (maxLastLen fs + 1)))) = true := by
  unfold bakCandidate
  apply freeAt_of_noKeyEndsWith
  apply noKeyEndsWith_of_long
  have h1 : (natChars (10 ^ (maxLastLen fs + 1))).length = maxLastLen fs + 2 :=
    natChars_len_pow (maxLastLen fs)
  simp [h1]
  omega

theorem findFreeIdx_spec (fs : FS) (par : Path) (l stamp : List Char) :
    ∀ (fuel i : Nat),
      (∃ j, j < fuel ∧ freeAt fs (bakCandidate par l stamp (some (i + j))) = true) →
      i ≤ findFreeIdx fs par l stamp fuel i
      ∧ freeAt fs (bakCandidate par l stamp (some (findFreeIdx fs par l stamp fuel i))) = true
      ∧ ∀ j, i ≤ j → j < findFreeIdx fs par l stamp fuel i →
          freeAt fs (bakCandidate par l stamp (some j)) = false := by
  intro fuel
  induction fuel with
  | zero =>
    intro i h
    obtain ⟨j, hj, _⟩ := h
    omega
  | succ fuel ih =>
    intro i h
    by_cases hfree : freeAt fs (bakCandidate par l stamp (some i)) = true
    · rw [findFreeIdx, if_pos hfree]
      exact ⟨Nat.le_refl i, hfree, fun j h1 h2 => absurd (Nat.lt_of_le_of_lt h1 h2) (lt_irrefl i)⟩
    · rw [findFreeIdx, if_neg hfree]
      have hex : ∃ j, j < fuel ∧ freeAt fs (bakCandidate par l stamp (some (i + 1 + j))) = true := by
        obtain ⟨j, hj, hfr⟩ := h
        cases j with
        | zero => exact absurd (by simpa using hfr) hfree
        | succ j' =>
          exact ⟨j', by omega, by
            have heq : i + 1 + j' = i + (j' + 1) := by omega
            rw [heq]
            exact hfr⟩
      obtain ⟨ha, hb, hc⟩ := ih (i + 1) hex
      refine ⟨by omega, hb, ?_⟩
      intro j h1 h2
      rcases Nat.eq_or_lt_of_le h1 with rfl | h1'
      · exact Bool.eq_false_iff.mpr hfree
      · exact hc j h1' h2

/-- The full specification of `_unique_backup_path`: the result is the
first candidate in the sequence that neither exists nor is a symlink. -/
theorem uniqueBackupPath_first_free (fs : FS) (p : Path) (stamp : List Char)
    (par : Path) (l : Comp) (hp : splitLast p = some (par, l)) :
    ∃ k : Nat,
      uniqueBackupPath fs p stamp = candSeq par l stamp k
      ∧ freeAt fs (candSeq par l stamp k) = true
      ∧ ∀ j, j < k → freeAt fs (candSeq par l stamp j) = false := by
  simp only [uniqueBackupPath, hp]
  by_cases hb : freeAt fs (bakCandidate par l stamp none) = true
  · rw [if_pos hb]
    exact ⟨0, rfl, hb, fun j hj => absurd hj (Nat.not_lt_zero j)⟩
  · rw [if_neg hb]
    have hex : ∃ j, j < bakFuel fs
        ∧ freeAt fs (bakCandidate par l stamp (some (1 + j))) = true := by
      refine ⟨10 ^ (maxLastLen fs + 1) - 1, ?_, ?_⟩
      · have : 0 < 10 ^ (maxLastLen fs + 1) := Nat.pos_pow_of_pos _ (by omega)
        unfold bakFuel
        omega
      · have h1 : 1 + (10 ^ (maxLastLen fs + 1) - 1) = 10 ^ (maxLastLen fs + 1) := by
          have : 0 < 10 ^ (maxLastLen fs + 1) := Nat.pos_pow_of_pos _ (by omega)
          omega
        rw [h1]
        exact bakCandidate_big_free fs par l stamp
    obtain ⟨ha, hfr, hmin⟩ := findFreeIdx_spec fs par l stamp (bakFuel fs) 1 hex
    obtain ⟨k1, hk1⟩ : ∃ k1, findFreeIdx fs par l stamp (bakFuel fs) 1 = k1 + 1 :=
      ⟨findFreeIdx fs par l stamp (bakFuel fs) 1 - 1, by omega⟩
    refine ⟨k1 + 1, by rw [hk1]; rfl, by rw [hk1] at hfr; exact hfr, ?_⟩
    intro j hj
    cases j with
    | zero => exact Bool.eq_false_iff.mpr hb
    | succ j' =>
      have : freeAt fs (bakCandidate par l stamp (some (j' + 1))) = false := by
        apply hmin (j' + 1) (by omega)
        omega
      exact this

end DF

/-! ## Claim C4 — backup allocator freshness -/

/-- Claim C4: `_unique_backup_path(P, stamp)` returns the first name in
the sequence `P.bak.stamp`, `P.bak.stamp.1`, `P.bak.stamp.2`, … that
does not exist as a file, directory or symlink at call time; in
particular the returned path never coincides with an existing entry
(it neither exists nor is a symlink), so no prior backup is ever
overwritten. -/
theorem C4_backup_allocator_fresh (fs : DF.FS) (p : DF.Path) (stamp : List Char)
    (par : DF.Path) (l : DF.Comp) (hp : DF.splitLast p = some (par, l)) :
    ∃ k : Nat,
      DF.uniqueBackupPath fs p stamp = DF.candSeq par l stamp k
      ∧ DF.pexists fs (DF.uniqueBackupPath fs p stamp) = false
      ∧ DF.isSymlinkAt fs (DF.uniqueBackupPath fs p stamp) = false
      ∧ ∀ j, j < k → DF.freeAt fs (DF.candSeq par l stamp j) = false := by
  obtain ⟨k, h1, h2, h3⟩ := DF.uniqueBackupPath_first_free fs p stamp par l hp
  rw [← h1] at h2
  unfold DF.freeAt at h2
  rw [Bool.and_eq_true, Bool.not_eq_true', Bool.not_eq_true'] at h2
  exact ⟨k, h1, h2.1, h2.2, h3⟩

/-- Witness: allocating a backup path for `~/.bashrc` at timestamp `T`
in a home directory already holding backups `.bashrc.bak.T` and
`.bashrc.bak.T.1` skips both occupied candidates. -/
theorem C4_backup_allocator_fresh_witness :
    ∃ k : Nat,
      DF.uniqueBackupPath
          [(["home".data], DF.Node.dir),
           (["home".data, ".bashrc".data], DF.Node.file "x".data),
           (["home".data, ".bashrc.bak.T".data], DF.Node.file "old1".data),
           (["home".data, ".bashrc.bak.T.1".data], DF.Node.file "old2".data)]
          [("home".data : DF.Comp), (".bashrc".data : DF.Comp)] ("T".data)
        = DF.candSeq [("home".data : DF.Comp)] (".bashrc".data) ("T".data) k
      ∧ DF.pexists
          [(["home".data], DF.Node.dir),
           (["home".data, ".bashrc".data], DF.Node.file "x".data),
           (["home".data, ".bashrc.bak.T".data], DF.Node.file "old1".data),
           (["home".data, ".bashrc.bak.T.1".data], DF.Node.file "old2".data)]
          (DF.uniqueBackupPath
            [(["home".data], DF.Node.dir),
             (["home".data, ".bashrc".data], DF.Node.file "x".data),
             (["home".data, ".bashrc.bak.T".data], DF.Node.file "old1".data),
             (["home".data, ".bashrc.bak.T.1".data], DF.Node.file "old2".data)]
            [("home".data : DF.Comp), (".bashrc".data : DF.Comp)] ("T".data)) = false
      ∧ DF.isSymlinkAt
          [(["home".data], DF.Node.dir),
           (["home".data, ".bashrc".data], DF.Node.file "x".data),
           (["home".data, ".bashrc.bak.T".data], DF.Node.file "old1".data),
           (["home".data, ".bashrc.bak.T.1".data], DF.Node.file "old2".data)]
          (DF.uniqueBackupPath
            [(["home".data], DF.Node.dir),
             (["home".data, ".bashrc".data], DF.Node.file "x".data),
             (["home".data, ".bashrc.bak.T".data], DF.Node.file "old1".data),
             (["home".data, ".bashrc.bak.T.1".data], DF.Node.file "old2".data)]
            [("home".data : DF.Comp), (".bashrc".data : DF.Comp)] ("T".data)) = false
      ∧ ∀ j, j < k →
          DF.freeAt
            [(["home".data], DF.Node.dir),
             (["home".data, ".bashrc".data], DF.Node.file "x".data),
             (["home".data, ".bashrc.bak.T".data], DF.Node.file "old1".data),
             (["home".data, ".bashrc.bak.T.1".data], DF.Node.file "old2".data)]
            (DF.candSeq [("home".data : DF.Comp)] (".bashrc".data) ("T".data) j) = false :=
  C4_backup_allocator_fresh _ _ _ [("home".data : DF.Comp)] (".bashrc".data) (by decide)

/-! ## Claim C9 — the two link-engine variants agree -/

/-- Claim C9: outside the empty-placeholder-directory special case (the
guard of dotman.py lines 110-116, here hypothesised false), `link_file`
of restore.py and `link_path` of dotman.py return the same outcome
(`LINK`, `SKIP`, or the raised `ConflictError`), produce the same final
filesystem, log the same actions and create the same backups. -/
theorem C9_variant_equivalence (fs : DF.FS) (target source : DF.Path)
    (dry_run force : Bool) (stamp : List Char)
    (h : (DF.isDirAt fs source && DF.pexists fs target && DF.isDirAt fs target
          && !(DF.isSymlinkAt fs target) && !(DF.hasEntry fs target)) = false) :
    DF.linkFile fs target source dry_run force stamp
      = DF.linkPath fs target source dry_run force stamp := by
  unfold DF.linkFile DF.linkPath
  by_cases h1 : DF.isSameSymlink fs target source = true
  · simp [h1]
  · by_cases h2 : DF.isSameFileOrResolvesToSame fs target source = true
    · simp [h1, h2]
    · rw [Bool.not_eq_true] at h1 h2
      simp [h1, h2, h, DF.backupExisting]
      by_cases hocc : DF.pexists fs target = true ∨ DF.isSymlinkAt fs target = true
      · rw [if_pos hocc, if_pos hocc]
        by_cases hf : force = false
        · simp [hf]
        · rw [if_neg hf, if_neg hf]
          by_cases hd : dry_run = true
          · simp [hd]
          · rw [if_neg hd, if_neg hd]
            rcases hr : DF.osRename fs target (DF.uniqueBackupPath fs target stamp) with _ | fs1
            · simp [hr]
            · simp [hr]
      · rw [if_neg hocc, if_neg hocc]

/-- Witness: both engines, applied without force to a target occupied by
a plain file, raise the same `ConflictError` and leave the state
unchanged. -/
theorem C9_variant_equivalence_witness :
    DF.linkFile
        [(["home".data], DF.Node.dir),
         (["home".data, ".bashrc".data], DF.Node.file "user".data),
         (["repo".data], DF.Node.dir),
         (["repo".data, "bashrc".data], DF.Node.file "repo".data)]
        [("home".data : DF.Comp), (".bashrc".data : DF.Comp)]
        [("repo".data : DF.Comp), ("bashrc".data : DF.Comp)] false false ("T".data)
      = DF.linkPath
        [(["home".data], DF.Node.dir),
         (["home".data, ".bashrc".data], DF.Node.file "user".data),
         (["repo".data], DF.Node.dir),
         (["repo".data, "bashrc".data], DF.Node.file "repo".data)]
        [("home".data : DF.Comp), (".bashrc".data : DF.Comp)]
        [("repo".data : DF.Comp), ("bashrc".data : DF.Comp)] false false ("T".data) :=
  C9_variant_equivalence _ _ _ false false _ (by decide)

namespace DF

/-- The placeholder guard of `link_path` (dotman.py lines 110-116). -/
def placeholderCond (fs : FS) (target source : Path) : Bool :=
  isDirAt fs source && pexists fs target && isDirAt fs target
    && !(isSymlinkAt fs target) && !(hasEntry fs target)

/-- The identity check of step 1 of the link engines. -/
def sameCond (fs : FS) (target source : Path) : Bool :=
  isSameSymlink fs target source || isSameFileOrResolvesToSame fs target source

/-- The occupancy check of step 2 of the link engines. -/
def occCond (fs : FS) (target : Path) : Bool :=
  pexists fs target || isSymlinkAt fs target

theorem linkPath_same (fs : FS) (t s : Path) (d f : Bool) (stamp : List Char)
    (h : sameCond fs t s = true) :
    linkPath fs t s d f stamp = ⟨Except.ok Action.SKIP, fs, [], []⟩ := by
  unfold linkPath
  unfold sameCond at h
  simp [h]

theorem linkPath_free (fs : FS) (t s : Path) (d f : Bool) (stamp : List Char)
    (hs : sameCond fs t s = false) (hocc : occCond fs t = false) :
    linkPath fs t s d f stamp
      = if d then ⟨Except.ok Action.LINK, fs, [Event.eLink t s], []⟩
        else
          match osSymlink fs t s with
          | some fs2 => ⟨Except.ok Action.LINK, fs2, [Event.eLink t s], []⟩
          | none => ⟨Except.error Err.oserr, fs, [], []⟩ := by
  unfold linkPath
  unfold sameCond at hs
  unfold occCond at hocc
  rw [Bool.or_eq_false_iff] at hs hocc
  simp [hs.1, hs.2, hocc.1, hocc.2]

theorem linkPath_placeholder (fs : FS) (t s : Path) (d f : Bool) (stamp : List Char)
    (hs : sameCond fs t s = false) (hocc : occCond fs t = true)
    (hph : placeholderCond fs t s = true) :
    linkPath fs t s d f stamp
      = if d then ⟨Except.ok Action.LINK, fs, [Event.eRmdir t, Event.eLink t s], []⟩
        else
          match osRmdir fs t with
          | none => ⟨Except.error Err.oserr, fs, [], []⟩
          | some fs1 =>
            match osSymlink fs1 t s with
            | some fs2 => ⟨Except.ok Action.LINK, fs2, [Event.eRmdir t, Event.eLink t s], []⟩
            | none => ⟨Except.error Err.oserr, fs1, [Event.eRmdir t], []⟩ := by
  unfold linkPath
  unfold sameCond at hs
  unfold occCond at hocc
  unfold placeholderCond at hph
  rw [Bool.or_eq_false_iff] at hs
  simp only [hs.1, hs.2, Bool.false_or, Bool.or_false, Bool.false_eq_true, if_false, hocc, hph,
    if_true]
  by_cases hd : d = true
  · simp [hd, hocc, hph]
  · rw [Bool.not_eq_true] at hd
    simp only [hd, Bool.false_eq_true, if_false, hocc, hph, if_true]
    rcases hr : osRmdir fs t with _ | fs1
    · simp [hocc, hph, hr, hd]
    · rcases hy : osSymlink fs1 t s with _ | fs2 <;> simp [hocc, hph, hr, hy, hd]

theorem linkPath_conflict (fs : FS) (t s : Path) (d : Bool) (stamp : List Char)
    (hs : sameCond fs t s = false) (hocc : occCond fs t = true)
    (hph : placeholderCond fs t s = false) :
    linkPath fs t s d false stamp = ⟨Except.error (Err.conflictAt t), fs, [], []⟩ := by
  unfold linkPath
  unfold sameCond at hs
  unfold occCond at hocc
  unfold placeholderCond at hph
  rw [Bool.or_eq_false_iff] at hs
  simp [hs.1, hs.2, hocc, hph]

theorem linkPath_force (fs : FS) (t s : Path) (d : Bool) (stamp : List Char)
    (hs : sameCond fs t s = false) (hocc : occCond fs t = true)
    (hph : placeholderCond fs t s = false) :
    linkPath fs t s d true stamp
      = if d then
          ⟨Except.ok Action.LINK, fs,
            [Event.eBackup t (uniqueBackupPath fs t stamp), Event.eLink t s], []⟩
        else
          match osRename fs t (uniqueBackupPath fs t stamp) with
          | none => ⟨Except.error Err.oserr, fs, [], []⟩
          | some fs1 =>
            match osSymlink fs1 t s with
            | some fs2 =>
              ⟨Except.ok Action.LINK, fs2,
                [Event.eBackup t (uniqueBackupPath fs t stamp), Event.eLink t s],
                [uniqueBackupPath fs t stamp]⟩
            | none =>
              ⟨Except.error Err.oserr, fs1,
                [Event.eBackup t (uniqueBackupPath fs t stamp)],
                [uniqueBackupPath fs t stamp]⟩ := by
  unfold linkPath backupExisting
  unfold sameCond at hs
  unfold occCond at hocc
  unfold placeholderCond at hph
  rw [Bool.or_eq_false_iff] at hs
  simp only [hs.1, hs.2, Bool.false_or, Bool.or_false, Bool.false_eq_true, if_false, hocc, hph,
    if_true, Bool.not_true]
  by_cases hd : d = true
  · simp [hd, hocc, hph]
  · rw [Bool.not_eq_true] at hd
    simp only [hd, Bool.false_eq_true, if_false, hocc, hph, if_true]
    rcases hr : osRename fs t (uniqueBackupPath fs t stamp) with _ | fs1
    · simp [hocc, hph, hr, hd]
    · rcases hy : osSymlink fs1 t s with _ | fs2 <;> simp [hocc, hph, hr, hy, hd]

end DF

/-! ## Claim C8 — dry-run purity and classification -/

/-- Claim C8: with `dry_run` set, the link engine (`link_path` together
with the `_mkdirp` the caller performs) mutates nothing — the filesystem
is returned unchanged and no backups are created — and it classifies
exactly as the real run from the same state: a real-run `LINK`/`SKIP`
outcome is also the dry-run outcome, and the dry run raises
`ConflictError` exactly when the real run would.  (When the real run
dies with an `OSError` after its first mutation, there is no real-run
classification to compare; the conditional statements below say nothing
in that case.) -/
theorem C8_dry_run_pure_and_classifies
    (fs : DF.FS) (t s : DF.Path) (force : Bool) (stamp : List Char) :
    ((DF.linkPath fs t s true force stamp).fs = fs
      ∧ (DF.linkPath fs t s true force stamp).mkBak = [])
    ∧ (∀ a, (DF.linkPath fs t s false force stamp).res = Except.ok a →
        (DF.linkPath fs t s true force stamp).res = Except.ok a)
    ∧ ((DF.linkPath fs t s true force stamp).res = Except.error (DF.Err.conflictAt t)
        ↔ (DF.linkPath fs t s false force stamp).res = Except.error (DF.Err.conflictAt t))
    ∧ (DF.mkdirp fs t true).2.1 = fs
    ∧ (∀ u, (DF.mkdirp fs t false).1 = Except.ok u → (DF.mkdirp fs t true).1 = Except.ok u)
    ∧ ((DF.mkdirp fs t true).1 = Except.error (DF.Err.conflictAt t)
        ↔ (DF.mkdirp fs t false).1 = Except.error (DF.Err.conflictAt t)) := by
  have hlink :
      ((DF.linkPath fs t s true force stamp).fs = fs
        ∧ (DF.linkPath fs t s true force stamp).mkBak = [])
      ∧ (∀ a, (DF.linkPath fs t s false force stamp).res = Except.ok a →
          (DF.linkPath fs t s true force stamp).res = Except.ok a)
      ∧ ((DF.linkPath fs t s true force stamp).res = Except.error (DF.Err.conflictAt t)
          ↔ (DF.linkPath fs t s false force stamp).res = Except.error (DF.Err.conflictAt t)) := by
    by_cases h1 : DF.sameCond fs t s = true
    · rw [DF.linkPath_same fs t s true force stamp h1, DF.linkPath_same fs t s false force stamp h1]
      simp
    · rw [Bool.not_eq_true] at h1
      by_cases h2 : DF.occCond fs t = true
      · by_cases h3 : DF.placeholderCond fs t s = true
        · rw [DF.linkPath_placeholder fs t s true force stamp h1 h2 h3,
            DF.linkPath_placeholder fs t s false force stamp h1 h2 h3]
          refine ⟨by simp, ?_, ?_⟩
          · intro a
            simp only [if_pos rfl, Bool.false_eq_true, if_false]
            rcases hr : DF.osRmdir fs t with _ | fs1
            · simp [hr]
            · rcases hy : DF.osSymlink fs1 t s with _ | fs2 <;> simp [hr, hy]
          · simp only [if_pos rfl, Bool.false_eq_true, if_false]
            rcases hr : DF.osRmdir fs t with _ | fs1
            · simp [hr]
            · rcases hy : DF.osSymlink fs1 t s with _ | fs2 <;> simp [hr, hy]
        · rw [Bool.not_eq_true] at h3
          cases force with
          | false =>
            rw [DF.linkPath_conflict fs t s true stamp h1 h2 h3,
              DF.linkPath_conflict fs t s false stamp h1 h2 h3]
            simp
          | true =>
            rw [DF.linkPath_force fs t s true stamp h1 h2 h3,
              DF.linkPath_force fs t s false stamp h1 h2 h3]
            refine ⟨by simp, ?_, ?_⟩
            · intro a
              simp only [if_pos rfl, Bool.false_eq_true, if_false]
              rcases hr : DF.osRename fs t (DF.uniqueBackupPath fs t stamp) with _ | fs1
              · simp [hr]
              · rcases hy : DF.osSymlink fs1 t s with _ | fs2 <;> simp [hr, hy]
            · simp only [if_pos rfl, Bool.false_eq_true, if_false]
              rcases hr : DF.osRename fs t (DF.uniqueBackupPath fs t stamp) with _ | fs1
              · simp [hr]
              · rcases hy : DF.osSymlink fs1 t s with _ | fs2 <;> simp [hr, hy]
      · rw [Bool.not_eq_true] at h2
        rw [DF.linkPath_free fs t s true force stamp h1 h2,
          DF.linkPath_free fs t s false force stamp h1 h2]
        refine ⟨by simp, ?_, ?_⟩
        · intro a
          simp only [if_pos rfl, Bool.false_eq_true, if_false]
          rcases hy : DF.osSymlink fs t s with _ | fs2 <;> simp [hy]
        · simp only [if_pos rfl, Bool.false_eq_true, if_false]
          rcases hy : DF.osSymlink fs t s with _ | fs2 <;> simp [hy]
  refine ⟨hlink.1, hlink.2.1, hlink.2.2, ?_, ?_, ?_⟩
  · unfold DF.mkdirp
    by_cases hd : DF.isDirAt fs t = true
    · simp [hd]
    · by_cases he : DF.pexists fs t = true
      · simp [hd, he]
      · simp [hd, he]
  · intro u
    unfold DF.mkdirp
    by_cases hd : DF.isDirAt fs t = true
    · simp [hd]
    · by_cases he : DF.pexists fs t = true
      · simp [hd, he]
      · simp only [hd, he, Bool.false_eq_true, if_false, Bool.not_false, Bool.and_true,
          Bool.and_false, Bool.false_and, Bool.true_and, if_true]
        rcases hm : DF.mkdirSteps fs [] t with _ | fs1 <;> simp [hd, he, hm]
  · unfold DF.mkdirp
    by_cases hd : DF.isDirAt fs t = true
    · simp [hd]
    · by_cases he : DF.pexists fs t = true
      · simp [hd, he]
      · simp only [hd, he, Bool.false_eq_true, if_false, Bool.not_false, Bool.and_true,
          Bool.and_false, Bool.false_and, Bool.true_and, if_true]
        rcases hm : DF.mkdirSteps fs [] t with _ | fs1 <;> simp [hd, he, hm]

/-- Witness: on a state where the real run would create the link
(outcome `LINK`), the dry run returns `LINK` too, does not change the
filesystem, creates no backup, and raises no conflict. -/
theorem C8_dry_run_witness :
    (DF.linkPath
        [(["home".data], DF.Node.dir), (["repo".data], DF.Node.dir),
         (["repo".data, "bashrc".data], DF.Node.file "x".data)]
        [("home".data : DF.Comp), (".bashrc".data : DF.Comp)]
        [("repo".data : DF.Comp), ("bashrc".data : DF.Comp)] true false ("T".data)).fs
      = [(["home".data], DF.Node.dir), (["repo".data], DF.Node.dir),
         (["repo".data, "bashrc".data], DF.Node.file "x".data)]
    ∧ (DF.linkPath
        [(["home".data], DF.Node.dir), (["repo".data], DF.Node.dir),
         (["repo".data, "bashrc".data], DF.Node.file "x".data)]
        [("home".data : DF.Comp), (".bashrc".data : DF.Comp)]
        [("repo".data : DF.Comp), ("bashrc".data : DF.Comp)] true false ("T".data)).res
      = Except.ok DF.Action.LINK :=
  ⟨(C8_dry_run_pure_and_classifies _ _ _ false ("T".data)).1.1,
   (C8_dry_run_pure_and_classifies _
      [("home".data : DF.Comp), (".bashrc".data : DF.Comp)]
      [("repo".data : DF.Comp), ("bashrc".data : DF.Comp)] false ("T".data)).2.1
      DF.Action.LINK (by decide)⟩

/-! ## Well-formed filesystems and lookup frame lemmas -/

namespace DF

/-- A well-formed filesystem: keys are unique and every key's proper
ancestors are real directories (what any filesystem produced by an
actual kernel satisfies). -/
def WF (fs : FS) : Prop :=
  (fs.map (fun e => e.1)).Nodup ∧ ∀ e ∈ fs, realChain fs e.1 = true

theorem realChain_iff (fs : FS) (p : Path) :
    realChain fs p = true ↔ ∀ i, i < p.length → lookupP fs (p.take i) = some Node.dir := by
  unfold realChain
  rw [List.all_eq_true]
  constructor
  · intro h i hi
    have := h i (List.mem_range.mpr hi)
    simpa using this
  · intro h x hx
    simp only [decide_eq_true_eq]
    exact h x (List.mem_range.mp hx)

/-- Walking a chain of real directories resolves to itself. -/
theorem resolveSteps_dirs (fs : FS) (f : Nat) :
    ∀ (todo acc : Path),
      (∀ j, j < todo.length → lookupP fs (acc ++ todo.take (j + 1)) = some Node.dir) →
      resolveSteps fs f acc todo = some (acc ++ todo) := by
  intro todo
  induction todo with
  | nil => intro acc _; rw [resolveSteps_nil]; simp
  | cons c rest ih =>
    intro acc h
    have h0 : lookupP fs (acc ++ [c]) = some Node.dir := by
      have := h 0 (by simp)
      simpa using this
    rw [resolveSteps_cons_nonsym fs f acc c rest (by intro t ht; rw [h0] at ht; simp at ht)]
    have := ih (acc ++ [c]) (by
      intro j hj
      have := h (j + 1) (by simpa using Nat.succ_lt_succ hj)
      simpa [List.append_assoc] using this)
    rw [this]
    simp

/-- `splitLast` recovers the append decomposition. -/
theorem splitLast_eq {p par : Path} {l : Comp} (h : splitLast p = some (par, l)) :
    p = par ++ [l] := by
  induction p using List.reverseRecOn with
  | nil => simp [splitLast] at h
  | append_singleton q c _ =>
    rw [splitLast_append] at h
    simp at h
    rw [h.1, h.2]

/-- Under a real ancestor chain, `lstat` resolves to the literal path. -/
theorem lresolve_real (fs : FS) (p : Path) (par : Path) (l : Comp)
    (hsp : splitLast p = some (par, l)) (hchain : realChain fs p = true) :
    lresolve fs p = some p := by
  have hpl : p = par ++ [l] := splitLast_eq hsp
  have hdirs : ∀ j, j < par.length → lookupP fs (([] : Path) ++ par.take (j + 1)) = some Node.dir := by
    intro j hj
    have := (realChain_iff fs p).mp hchain (j + 1) (by rw [hpl]; simp; omega)
    rw [hpl] at this
    rw [List.nil_append]
    rw [List.take_append_of_le_length (by omega)] at this
    exact this
  simp only [lresolve, hsp]
  rw [resolveSteps_dirs fs (fsFuel fs) par [] hdirs]
  simp [hpl]

end DF

namespace DF

/-- Under a real ancestor chain, `lstat` sees the literal entry. -/
theorem lstatNode_real (fs : FS) (p par : Path) (l : Comp)
    (hsp : splitLast p = some (par, l)) (hchain : realChain fs p = true) :
    lstatNode fs p = lookupP fs p := by
  unfold lstatNode
  rw [lresolve_real fs p par l hsp hchain]

/-- Walking over a chain of real directories just accumulates them. -/
theorem resolveSteps_append_dirs (fs : FS) (f : Nat) :
    ∀ (xs acc ys : Path),
      (∀ j, j < xs.length → lookupP fs (acc ++ xs.take (j + 1)) = some Node.dir) →
      resolveSteps fs f acc (xs ++ ys) = resolveSteps fs f (acc ++ xs) ys := by
  intro xs
  induction xs with
  | nil => intro acc ys _; simp
  | cons c rest ih =>
    intro acc ys h
    have h0 : lookupP fs (acc ++ [c]) = some Node.dir := by
      have := h 0 (by simp)
      simpa using this
    rw [List.cons_append,
      resolveSteps_cons_nonsym fs f acc c (rest ++ ys)
        (by intro t ht; rw [h0] at ht; simp at ht)]
    have := ih (acc ++ [c]) ys (by
      intro j hj
      have := h (j + 1) (by simpa using Nat.succ_lt_succ hj)
      simpa [List.append_assoc] using this)
    rw [this]
    simp

/-- Under a real ancestor chain, `stat` of a non-symlink entry sees the
literal entry. -/
theorem statNode_real_nonsym (fs : FS) (p par : Path) (l : Comp) (n : Node)
    (hsp : splitLast p = some (par, l)) (hchain : realChain fs p = true)
    (hk : lookupP fs p = some n) (hn : ∀ t, n ≠ Node.symlink t) :
    statNode fs p = some n := by
  have hpl : p = par ++ [l] := splitLast_eq hsp
  have hdirs : ∀ j, j < par.length → lookupP fs (([] : Path) ++ par.take (j + 1)) = some Node.dir := by
    intro j hj
    have := (realChain_iff fs p).mp hchain (j + 1) (by rw [hpl]; simp; omega)
    rw [hpl] at this
    rw [List.nil_append]
    rw [List.take_append_of_le_length (by omega)] at this
    exact this
  unfold statNode resolveNS
  rw [hpl, resolveSteps_append_dirs fs (fsFuel fs) par [] [l] hdirs, List.nil_append]
  rw [resolveSteps_cons_nonsym fs (fsFuel fs) par l []
    (by intro t ht; rw [← hpl, hk] at ht; exact hn t (by injection ht))]
  rw [resolveSteps_nil, ← hpl]
  simp [hk]

/-- Under a real ancestor chain, an entry at `p` makes the occupancy
check of the link engines true. -/
theorem occCond_of_key (fs : FS) (p par : Path) (l : Comp) (n : Node)
    (hsp : splitLast p = some (par, l)) (hchain : realChain fs p = true)
    (hk : lookupP fs p = some n) : occCond fs p = true := by
  unfold occCond
  cases n with
  | symlink t =>
    have : isSymlinkAt fs p = true := by
      unfold isSymlinkAt
      rw [lstatNode_real fs p par l hsp hchain, hk]
    simp [this]
  | file ct =>
    have : pexists fs p = true := by
      unfold pexists
      rw [statNode_real_nonsym fs p par l (Node.file ct) hsp hchain hk (by intro t h; simp at h)]
      rfl
    simp [this]
  | dir =>
    have : pexists fs p = true := by
      unfold pexists
      rw [statNode_real_nonsym fs p par l Node.dir hsp hchain hk (by intro t h; simp at h)]
      rfl
    simp [this]

/-- Under a real ancestor chain, a free path has no literal entry. -/
theorem lookupP_none_of_free (fs : FS) (p par : Path) (l : Comp)
    (hsp : splitLast p = some (par, l)) (hchain : realChain fs p = true)
    (hfree : freeAt fs p = true) : lookupP fs p = none := by
  rcases hk : lookupP fs p with _ | n
  · rfl
  · exfalso
    unfold freeAt at hfree
    rw [Bool.and_eq_true, Bool.not_eq_true', Bool.not_eq_true'] at hfree
    cases n with
    | symlink t =>
      have : isSymlinkAt fs p = true := by
        unfold isSymlinkAt
        rw [lstatNode_real fs p par l hsp hchain, hk]
      rw [this] at hfree
      exact Bool.noConfusion hfree.2
    | file ct =>
      have : pexists fs p = true := by
        unfold pexists
        rw [statNode_real_nonsym fs p par l (Node.file ct) hsp hchain hk (by intro t h; simp at h)]
        rfl
      rw [this] at hfree
      exact Bool.noConfusion hfree.1
    | dir =>
      have : pexists fs p = true := by
        unfold pexists
        rw [statNode_real_nonsym fs p par l Node.dir hsp hchain hk (by intro t h; simp at h)]
        rfl
      rw [this] at hfree
      exact Bool.noConfusion hfree.1

end DF

namespace DF

theorem find?_filter_ne (fs : FS) (p q : Path) (hq : q ≠ p) :
    (fs.filter (fun e => decide (e.1 ≠ p))).find? (fun e => decide (e.1 = q))
      = fs.find? (fun e => decide (e.1 = q)) := by
  induction fs with
  | nil => rfl
  | cons e fs ih =>
    by_cases hp : e.1 = p
    · rw [List.filter_cons_of_neg (by simp [hp])]
      rw [List.find?_cons_of_neg _ (by simp [hp, hq.symm])]
      exact ih
    · rw [List.filter_cons_of_pos (by simp [hp])]
      by_cases hk : e.1 = q
      · rw [List.find?_cons_of_pos _ (by simp [hk]), List.find?_cons_of_pos _ (by simp [hk])]
      · rw [List.find?_cons_of_neg _ (by simp [hk]), List.find?_cons_of_neg _ (by simp [hk])]
        exact ih

theorem lookupP_setP_self (fs : FS) (p : Path) (n : Node) (hp : p ≠ []) :
    lookupP (setP fs p n) p = some n := by
  unfold lookupP setP
  rw [if_neg hp]
  rw [List.find?_cons_of_pos _ (by simp)]

theorem lookupP_setP_other (fs : FS) (p q : Path) (n : Node) (hq : q ≠ p) :
    lookupP (setP fs p n) q = lookupP fs q := by
  unfold lookupP setP eraseP
  by_cases h0 : q = []
  · simp [h0]
  · rw [if_neg h0, if_neg h0]
    rw [List.find?_cons_of_neg _ (by simp [hq.symm])]
    rw [find?_filter_ne fs p q hq]

theorem lookupP_eraseP_other (fs : FS) (p q : Path) (hq : q ≠ p) :
    lookupP (eraseP fs p) q = lookupP fs q := by
  unfold lookupP eraseP
  by_cases h0 : q = []
  · simp [h0]
  · rw [if_neg h0, if_neg h0]
    rw [find?_filter_ne fs p q hq]

theorem lookupP_eraseP_self (fs : FS) (p : Path) (hp : p ≠ []) :
    lookupP (eraseP fs p) p = none := by
  unfold lookupP eraseP
  rw [if_neg hp]
  have : (fs.filter (fun e => decide (e.1 ≠ p))).find? (fun e => decide (e.1 = p)) = none := by
    rw [List.find?_eq_none]
    intro e he
    have := (List.mem_filter.mp he).2
    simp at this
    simp [this]
  rw [this]

/-- Keys outside both the source and the destination subtree are
untouched by `renameTree`. -/
theorem lookupP_renameTree_outside (fs : FS) (t b q : Path)
    (h1 : ¬ t <+: q) (h2 : ¬ b <+: q) :
    lookupP (renameTree fs t b) q = lookupP fs q := by
  unfold lookupP renameTree
  by_cases h0 : q = []
  · simp [h0]
  · rw [if_neg h0, if_neg h0]
    induction fs with
    | nil => simp
    | cons e fs ih =>
      rw [List.map_cons]
      by_cases hpre : isPre t e.1 = true
      · rw [if_pos hpre]
        have hne : ((b ++ e.1.drop t.length : Path) = q) = False := by
          simp
          intro h
          exact h2 (h ▸ List.prefix_append b (e.1.drop t.length))
        have hne2 : (e.1 = q) = False := by
          simp
          intro h
          subst h
          exact h1 (by simpa [isPre] using hpre)
        rw [List.find?_cons_of_neg _ (by simp [hne]), List.find?_cons_of_neg _ (by simp [hne2])]
        exact ih
      · rw [if_neg hpre]
        by_cases hk : e.1 = q
        · rw [List.find?_cons_of_pos _ (by simp [hk]), List.find?_cons_of_pos _ (by simp [hk])]
        · rw [List.find?_cons_of_neg _ (by simp [hk]), List.find?_cons_of_neg _ (by simp [hk])]
          exact ih

/-- Every key in the source subtree is gone after `renameTree` (when the
destination subtree does not cover the queried key). -/
theorem lookupP_renameTree_src (fs : FS) (t b q : Path)
    (h1 : t <+: q) (h2 : ¬ b <+: q) (h0 : q ≠ []) :
    lookupP (renameTree fs t b) q = none := by
  unfold lookupP renameTree
  rw [if_neg h0]
  have : ((fs.map (fun e => if isPre t e.1 then (b ++ e.1.drop t.length, e.2) else e)).find?
      (fun e => decide (e.1 = q))) = none := by
    rw [List.find?_eq_none]
    intro e he
    obtain ⟨e0, he0, hmap⟩ := List.mem_map.mp he
    by_cases hpre : isPre t e0.1 = true
    · rw [if_pos hpre] at hmap
      rw [← hmap]
      simp
      intro h
      exact h2 (h ▸ List.prefix_append b (e0.1.drop t.length))
    · rw [if_neg hpre] at hmap
      rw [← hmap]
      simp
      intro h
      subst h
      exact hpre (by simpa [isPre] using h1)
  rw [this]

/-- A key moved by `renameTree`: looking up `b ++ rest` finds what
`t ++ rest` held, provided no entry outside the source subtree already
sat at `b ++ rest`. -/
theorem lookupP_renameTree_moved (fs : FS) (t b : Path) (rest : List Comp)
    (hne : t ≠ []) (hbne : b ≠ [])
    (horph : ∀ e ∈ fs, ¬ t <+: e.1 → e.1 ≠ b ++ rest) :
    lookupP (renameTree fs t b) (b ++ rest) = lookupP fs (t ++ rest) := by
  unfold lookupP renameTree
  have hb0 : (b ++ rest : Path) ≠ [] := fun h => hbne (List.append_eq_nil.mp h).1
  have ht0 : (t ++ rest : Path) ≠ [] := fun h => hne (List.append_eq_nil.mp h).1
  rw [if_neg hb0, if_neg ht0]
  induction fs with
  | nil => simp
  | cons e fs ih =>
    rw [List.map_cons]
    by_cases hpre : isPre t e.1 = true
    · have hpre' : t <+: e.1 := by simpa [isPre] using hpre
      rw [if_pos hpre]
      have hiff : ((b ++ e.1.drop t.length : Path) = b ++ rest) ↔ (e.1 = t ++ rest) := by
        constructor
        · intro h
          have hd : e.1.drop t.length = rest := List.append_cancel_left h
          obtain ⟨u, hu⟩ := hpre'
          have hk : t ++ e.1.drop t.length = e.1 := by
            rw [← hu]
            simp
          rw [← hk, hd]
        · intro h
          rw [h]
          simp
      by_cases hk : e.1 = t ++ rest
      · rw [List.find?_cons_of_pos _ (by simp [hiff.mpr hk]),
          List.find?_cons_of_pos _ (by simp [hk])]
      · rw [List.find?_cons_of_neg _ (by simp; exact fun h => hk (hiff.mp (by rw [h]))),
          List.find?_cons_of_neg _ (by simp [hk])]
        exact ih (fun e2 he2 hn => horph e2 (List.mem_cons_of_mem _ he2) hn)
    · rw [if_neg hpre]
      have hk1 : ¬ (e.1 = b ++ rest) :=
        horph e (List.mem_cons_self _ _) (by simpa [isPre] using hpre)
      have hk2 : ¬ (e.1 = t ++ rest) := by
        intro h
        exact hpre (by simp [isPre, h, List.prefix_append])
      rw [List.find?_cons_of_neg _ (by simp [hk1]), List.find?_cons_of_neg _ (by simp [hk2])]
      exact ih (fun e2 he2 hn => horph e2 (List.mem_cons_of_mem _ he2) hn)

end DF

namespace DF

theorem prefix_length_le {p q : Path} (h : p <+: q) : p.length ≤ q.length := by
  obtain ⟨u, hu⟩ := h
  rw [← hu]
  simp

theorem sibling_not_prefix (par : Path) (x y : Comp) (hxy : x ≠ y) :
    ¬ (par ++ [x] <+: par ++ [y]) := by
  intro h
  obtain ⟨u, hu⟩ := h
  have hlen := congrArg List.length hu
  simp at hlen
  rw [hlen, List.append_nil] at hu
  exact hxy (by simpa using hu)

theorem realChain_sibling (fs : FS) (par : Path) (x y : Comp) :
    realChain fs (par ++ [x]) = realChain fs (par ++ [y]) := by
  have key : ∀ i, i < (par ++ [x] : Path).length →
      (par ++ [x] : Path).take i = (par ++ [y] : Path).take i := by
    intro i hi
    simp at hi
    rw [List.take_append_of_le_length (by omega), List.take_append_of_le_length (by omega)]
  by_cases h : realChain fs (par ++ [x]) = true
  · rw [h]
    symm
    rw [realChain_iff]
    intro i hi
    simp at hi
    rw [← key i (by simp; omega)]
    exact (realChain_iff fs (par ++ [x])).mp h i (by simp; omega)
  · rw [Bool.not_eq_true] at h
    rw [h]
    symm
    rw [← Bool.not_eq_true]
    intro hy
    rw [← Bool.not_eq_true] at h
    apply h
    rw [realChain_iff]
    intro i hi
    simp at hi
    rw [key i (by simp; omega)]
    exact (realChain_iff fs (par ++ [y])).mp hy i (by simp; omega)

/-- The backup path sits beside the original: same parent, strictly
longer final component. -/
theorem uniqueBackupPath_shape (fs : FS) (p par : Path) (l : Comp) (stamp : List Char)
    (hsp : splitLast p = some (par, l)) :
    ∃ bl : Comp, uniqueBackupPath fs p stamp = par ++ [bl] ∧ l.length < bl.length := by
  obtain ⟨k, hk, _, _⟩ := uniqueBackupPath_first_free fs p stamp par l hsp
  cases k with
  | zero =>
    refine ⟨l ++ (".bak.".data ++ stamp), hk, ?_⟩
    simp [String.data]
  | succ i =>
    refine ⟨l ++ (".bak.".data ++ stamp) ++ ('.' :: natChars (i + 1)), hk, ?_⟩
    simp [String.data]

/-- In a well-formed filesystem no entry sits at or below a free path
with a real ancestor chain. -/
theorem no_entry_under_free (fs : FS) (b par : Path) (bl : Comp)
    (hWF : WF fs) (hspb : splitLast b = some (par, bl))
    (hchainb : realChain fs b = true) (hfree : freeAt fs b = true) :
    ∀ e ∈ fs, ∀ rest : List Comp, e.1 ≠ b ++ rest := by
  have hnone : lookupP fs b = none := lookupP_none_of_free fs b par bl hspb hchainb hfree
  have hb0 : b ≠ [] := by
    intro h
    rw [h] at hspb
    simp [splitLast] at hspb
  intro e he rest hrest
  cases rest with
  | nil =>
    rw [List.append_nil] at hrest
    unfold lookupP at hnone
    rw [if_neg hb0] at hnone
    rcases hf : fs.find? (fun e2 => decide (e2.1 = b)) with _ | e2
    · rw [List.find?_eq_none] at hf
      exact absurd (by simp [hrest]) (hf e he)
    · rw [hf] at hnone
      simp at hnone
  | cons c rest' =>
    have hchaine := hWF.2 e he
    have := (realChain_iff fs e.1).mp hchaine b.length (by rw [hrest]; simp)
    rw [hrest, List.take_left] at this
    rw [this] at hnone
    exact Option.noConfusion hnone

end DF

/-! ## Claim C3 — conflict atomicity, then force-backup -/

/-- Claim C3, as stated, is false in one corner: a target occupied by an
*empty real directory* paired with a directory source is not already the
desired link, yet `link_path` with `force=false` replaces it and returns
`LINK` instead of raising `ConflictError` (the placeholder special
case, dotman.py lines 108-121). -/
theorem C3_conflict_counterexample :
    (DF.linkPath
        [(["home".data], DF.Node.dir),
         (["home".data, ".vim".data], DF.Node.dir),
         (["repo".data], DF.Node.dir),
         (["repo".data, "vim".data], DF.Node.dir),
         (["repo".data, "vim".data, "vimrc".data], DF.Node.file "x".data)]
        [("home".data : DF.Comp), (".vim".data : DF.Comp)]
        [("repo".data : DF.Comp), ("vim".data : DF.Comp)] false false ("T".data)).res
      = Except.ok DF.Action.LINK := by
  decide

/-- Claim C3, amended to exclude the empty-placeholder-directory case:
for a target with a real ancestor chain occupied by an entry that is not
already the desired link (identity checks false) and not an empty real
directory paired with a directory source, `link_path` without force
raises `ConflictError` and performs no mutation (same filesystem, no
events, no backups); with force it renames the occupant to the fresh
backup path (whose entire subtree is preserved byte-for-byte) and leaves
the target a symlink to the source. -/
theorem C3_conflict_then_force (fs : DF.FS) (t s : DF.Path) (d : Bool)
    (stamp : List Char) (par : DF.Path) (l : DF.Comp)
    (hsp : DF.splitLast t = some (par, l))
    (hWF : DF.WF fs)
    (hchain : DF.realChain fs t = true)
    (n0 : DF.Node) (hkey : DF.lookupP fs t = some n0)
    (hsame : DF.sameCond fs t s = false)
    (hph : DF.placeholderCond fs t s = false) :
    DF.linkPath fs t s d false stamp
      = ⟨Except.error (DF.Err.conflictAt t), fs, [], []⟩
    ∧ ((DF.linkPath fs t s false true stamp).res = Except.ok DF.Action.LINK
      ∧ (DF.linkPath fs t s false true stamp).mkBak = [DF.uniqueBackupPath fs t stamp]
      ∧ DF.freeAt fs (DF.uniqueBackupPath fs t stamp) = true
      ∧ DF.lookupP (DF.linkPath fs t s false true stamp).fs t = some (DF.Node.symlink s)
      ∧ ∀ (rest : List DF.Comp) (n : DF.Node),
          DF.lookupP fs (t ++ rest) = some n →
          DF.lookupP (DF.linkPath fs t s false true stamp).fs
            (DF.uniqueBackupPath fs t stamp ++ rest) = some n) := by
  have hocc : DF.occCond fs t = true := DF.occCond_of_key fs t par l n0 hsp hchain hkey
  have htl : t = par ++ [l] := DF.splitLast_eq hsp
  obtain ⟨bl, hbl, hlen⟩ := DF.uniqueBackupPath_shape fs t par l stamp hsp
  obtain ⟨k, hck, hfree, _⟩ := DF.uniqueBackupPath_first_free fs t stamp par l hsp
  rw [← hck] at hfree
  have hlne : l ≠ bl := fun h => by rw [h] at hlen; omega
  have hchainb : DF.realChain fs (DF.uniqueBackupPath fs t stamp) = true := by
    rw [hbl, DF.realChain_sibling fs par bl l, ← htl]
    exact hchain
  have hspb : DF.splitLast (DF.uniqueBackupPath fs t stamp) = some (par, bl) := by
    rw [hbl]
    exact DF.splitLast_append par bl
  have hbnone : DF.lookupP fs (DF.uniqueBackupPath fs t stamp) = none :=
    DF.lookupP_none_of_free fs _ par bl hspb hchainb hfree
  have htb : ¬ (t <+: DF.uniqueBackupPath fs t stamp) := by
    rw [hbl, htl]
    exact DF.sibling_not_prefix par l bl hlne
  have hbt : ¬ (DF.uniqueBackupPath fs t stamp <+: t) := by
    rw [hbl, htl]
    exact DF.sibling_not_prefix par bl l (fun h => hlne h.symm)
  have ht0 : t ≠ [] := by rw [htl]; simp
  have hb0 : DF.uniqueBackupPath fs t stamp ≠ [] := by rw [hbl]; simp
  have horph : ∀ e ∈ fs, ∀ rest : List DF.Comp, e.1 ≠ DF.uniqueBackupPath fs t stamp ++ rest :=
    DF.no_entry_under_free fs _ par bl hWF hspb hchainb hfree
  constructor
  · exact DF.linkPath_conflict fs t s d stamp hsame hocc hph
  · rw [DF.linkPath_force fs t s false stamp hsame hocc hph]
    have hren : DF.osRename fs t (DF.uniqueBackupPath fs t stamp)
        = some (DF.renameTree fs t (DF.uniqueBackupPath fs t stamp)) := by
      unfold DF.osRename
      rw [if_pos]
      simp only [Bool.and_eq_true, decide_eq_true_eq, Bool.not_eq_true', Option.isSome]
      refine ⟨⟨⟨⟨⟨⟨⟨hchain, hchainb⟩, by rw [hkey]⟩, ?_⟩, ?_⟩, ?_⟩, ?_⟩, ?_⟩
      · simp [hbnone]
      · simp [DF.isPre, htb]
      · simp [DF.isPre, hbt]
      · simp [List.isEmpty_eq_true, ht0]
      · simp [List.isEmpty_eq_true, hb0]
    simp only [Bool.false_eq_true, if_false, hren]
    have hchain1 : DF.realChain (DF.renameTree fs t (DF.uniqueBackupPath fs t stamp)) t = true := by
      rw [DF.realChain_iff]
      intro i hi
      rw [DF.lookupP_renameTree_outside]
      · exact (DF.realChain_iff fs t).mp hchain i hi
      · intro hpre
        have := DF.prefix_length_le hpre
        simp at this
        omega
      · intro hpre
        have := DF.prefix_length_le hpre
        rw [hbl] at this
        rw [htl] at hi
        simp at this hi
        omega
    have hnone1 : DF.lookupP (DF.renameTree fs t (DF.uniqueBackupPath fs t stamp)) t = none :=
      DF.lookupP_renameTree_src fs t _ t (List.prefix_refl t) hbt ht0
    have hsym : DF.osSymlink (DF.renameTree fs t (DF.uniqueBackupPath fs t stamp)) t s
        = some (DF.setP (DF.renameTree fs t (DF.uniqueBackupPath fs t stamp)) t (DF.Node.symlink s)) := by
      unfold DF.osSymlink
      rw [if_pos]
      simp only [Bool.and_eq_true, decide_eq_true_eq, Bool.not_eq_true']
      exact ⟨⟨hchain1, hnone1⟩, by simp [List.isEmpty_eq_true, ht0]⟩
    simp only [Bool.false_eq_true, if_false, hsym]
    refine ⟨trivial, trivial, hfree, ?_, ?_⟩
    · exact DF.lookupP_setP_self _ t (DF.Node.symlink s) ht0
    · intro rest n hn
      have hbrt : DF.uniqueBackupPath fs t stamp ++ rest ≠ t := by
        intro h
        apply hbt
        have hpx : DF.uniqueBackupPath fs t stamp
            <+: DF.uniqueBackupPath fs t stamp ++ rest := List.prefix_append _ rest
        rw [h] at hpx
        exact hpx
      rw [DF.lookupP_setP_other _ t _ (DF.Node.symlink s) hbrt]
      rw [DF.lookupP_renameTree_moved fs t _ rest ht0 hb0
        (fun e he _ => horph e he rest)]
      exact hn

/-- Witness: a home file `.bashrc` differing from the repository copy:
no force yields `ConflictError` with the state unchanged; force renames
it to `.bashrc.bak.T` (content preserved) and links the target. -/
theorem C3_conflict_then_force_witness :
    DF.linkPath
        [(["home".data], DF.Node.dir),
         (["home".data, ".bashrc".data], DF.Node.file "user".data),
         (["repo".data], DF.Node.dir),
         (["repo".data, "bashrc".data], DF.Node.file "repo".data)]
        [("home".data : DF.Comp), (".bashrc".data : DF.Comp)]
        [("repo".data : DF.Comp), ("bashrc".data : DF.Comp)] false false ("T".data)
      = ⟨Except.error (DF.Err.conflictAt [("home".data : DF.Comp), (".bashrc".data : DF.Comp)]),
         [(["home".data], DF.Node.dir),
          (["home".data, ".bashrc".data], DF.Node.file "user".data),
          (["repo".data], DF.Node.dir),
          (["repo".data, "bashrc".data], DF.Node.file "repo".data)], [], []⟩
    ∧ DF.lookupP
        (DF.linkPath
          [(["home".data], DF.Node.dir),
           (["home".data, ".bashrc".data], DF.Node.file "user".data),
           (["repo".data], DF.Node.dir),
           (["repo".data, "bashrc".data], DF.Node.file "repo".data)]
          [("home".data : DF.Comp), (".bashrc".data : DF.Comp)]
          [("repo".data : DF.Comp), ("bashrc".data : DF.Comp)] false true ("T".data)).fs
        [("home".data : DF.Comp), (".bashrc".data : DF.Comp)]
      = some (DF.Node.symlink [("repo".data : DF.Comp), ("bashrc".data : DF.Comp)]) :=
  ⟨(C3_conflict_then_force _ _ _ false ("T".data) [("home".data : DF.Comp)] (".bashrc".data)
      (by decide) (by exact ⟨by decide, by decide⟩) (by decide) (DF.Node.file "user".data)
      (by decide) (by decide) (by decide)).1,
   ((C3_conflict_then_force _
      [("home".data : DF.Comp), (".bashrc".data : DF.Comp)]
      [("repo".data : DF.Comp), ("bashrc".data : DF.Comp)] false ("T".data)
      [("home".data : DF.Comp)] (".bashrc".data)
      (by decide) (by exact ⟨by decide, by decide⟩) (by decide) (DF.Node.file "user".data)
      (by decide) (by decide) (by decide)).2.2.2.2.1)⟩

/-! ## Claim C5 — empty-directory placeholder -/

/-- Claim C5: when the source is a directory and the target holds an
empty real directory (and is not already the desired link), `link_path`
removes the placeholder and creates the symlink, returning `LINK`, with
no force and no backup; when the target directory is non-empty and not
identical to the source, `link_path` without force raises
`ConflictError` and performs no mutation. -/
theorem C5_placeholder_directory (fs : DF.FS) (t s : DF.Path) (d f : Bool)
    (stamp : List Char) (par : DF.Path) (l : DF.Comp)
    (hsp : DF.splitLast t = some (par, l))
    (hchain : DF.realChain fs t = true)
    (hkey : DF.lookupP fs t = some DF.Node.dir)
    (hsame : DF.sameCond fs t s = false) :
    (DF.isDirAt fs s = true → DF.hasEntry fs t = false →
      DF.linkPath fs t s false f stamp
        = ⟨Except.ok DF.Action.LINK,
           DF.setP (DF.eraseP fs t) t (DF.Node.symlink s),
           [DF.Event.eRmdir t, DF.Event.eLink t s], []⟩)
    ∧ (DF.hasEntry fs t = true →
      DF.linkPath fs t s d false stamp
        = ⟨Except.error (DF.Err.conflictAt t), fs, [], []⟩) := by
  have ht0 : t ≠ [] := by
    intro h
    rw [h] at hsp
    simp [DF.splitLast] at hsp
  have hocc : DF.occCond fs t = true :=
    DF.occCond_of_key fs t par l DF.Node.dir hsp hchain hkey
  have hdir : DF.isDirAt fs t = true := by
    unfold DF.isDirAt
    rw [DF.statNode_real_nonsym fs t par l DF.Node.dir hsp hchain hkey (by intro u h; simp at h)]
    simp
  have hpx : DF.pexists fs t = true := by
    unfold DF.pexists
    rw [DF.statNode_real_nonsym fs t par l DF.Node.dir hsp hchain hkey (by intro u h; simp at h)]
    rfl
  have hnsym : DF.isSymlinkAt fs t = false := by
    unfold DF.isSymlinkAt
    rw [DF.lstatNode_real fs t par l hsp hchain, hkey]
  constructor
  · intro hsdir hempty
    have hph : DF.placeholderCond fs t s = true := by
      unfold DF.placeholderCond
      rw [hsdir, hpx, hdir, hnsym, hempty]
      rfl
    rw [DF.linkPath_placeholder fs t s false f stamp hsame hocc hph]
    have hrm : DF.osRmdir fs t = some (DF.eraseP fs t) := by
      unfold DF.osRmdir
      rw [if_pos]
      simp only [Bool.and_eq_true, decide_eq_true_eq, Bool.not_eq_true']
      exact ⟨⟨⟨hchain, hkey⟩, hempty⟩, by simp [List.isEmpty_eq_true, ht0]⟩
    have hchain1 : DF.realChain (DF.eraseP fs t) t = true := by
      rw [DF.realChain_iff]
      intro i hi
      rw [DF.lookupP_eraseP_other fs t (t.take i) (by
        intro h
        have := congrArg List.length h
        simp at this
        omega)]
      exact (DF.realChain_iff fs t).mp hchain i hi
    have hsym : DF.osSymlink (DF.eraseP fs t) t s
        = some (DF.setP (DF.eraseP fs t) t (DF.Node.symlink s)) := by
      unfold DF.osSymlink
      rw [if_pos]
      simp only [Bool.and_eq_true, decide_eq_true_eq, Bool.not_eq_true']
      exact ⟨⟨hchain1, DF.lookupP_eraseP_self fs t ht0⟩, by simp [List.isEmpty_eq_true, ht0]⟩
    simp only [Bool.false_eq_true, if_false, hrm, hsym]
  · intro hnempty
    have hph : DF.placeholderCond fs t s = false := by
      unfold DF.placeholderCond
      rw [hnempty]
      simp
    exact DF.linkPath_conflict fs t s d stamp hsame hocc hph

/-- Witness: an empty `~/.vim` placeholder directory is replaced by a
link to the repository directory without force; a non-empty `~/.vim`
raises `ConflictError` instead. -/
theorem C5_placeholder_directory_witness :
    DF.linkPath
        [(["home".data], DF.Node.dir),
         (["home".data, ".vim".data], DF.Node.dir),
         (["repo".data], DF.Node.dir),
         (["repo".data, "vim".data], DF.Node.dir),
         (["repo".data, "vim".data, "vimrc".data], DF.Node.file "x".data)]
        [("home".data : DF.Comp), (".vim".data : DF.Comp)]
        [("repo".data : DF.Comp), ("vim".data : DF.Comp)] false false ("T".data)
      = ⟨Except.ok DF.Action.LINK,
         DF.setP
           (DF.eraseP
             [(["home".data], DF.Node.dir),
              (["home".data, ".vim".data], DF.Node.dir),
              (["repo".data], DF.Node.dir),
              (["repo".data, "vim".data], DF.Node.dir),
              (["repo".data, "vim".data, "vimrc".data], DF.Node.file "x".data)]
             [("home".data : DF.Comp), (".vim".data : DF.Comp)])
           [("home".data : DF.Comp), (".vim".data : DF.Comp)]
           (DF.Node.symlink [("repo".data : DF.Comp), ("vim".data : DF.Comp)]),
         [DF.Event.eRmdir [("home".data : DF.Comp), (".vim".data : DF.Comp)],
          DF.Event.eLink [("home".data : DF.Comp), (".vim".data : DF.Comp)]
            [("repo".data : DF.Comp), ("vim".data : DF.Comp)]], []⟩
    ∧ DF.linkPath
        [(["home".data], DF.Node.dir),
         (["home".data, ".vim".data], DF.Node.dir),
         (["home".data, ".vim".data, "mine".data], DF.Node.file "y".data),
         (["repo".data], DF.Node.dir),
         (["repo".data, "vim".data], DF.Node.dir),
         (["repo".data, "vim".data, "vimrc".data], DF.Node.file "x".data)]
        [("home".data : DF.Comp), (".vim".data : DF.Comp)]
        [("repo".data : DF.Comp), ("vim".data : DF.Comp)] false false ("T".data)
      = ⟨Except.error (DF.Err.conflictAt [("home".data : DF.Comp), (".vim".data : DF.Comp)]),
         [(["home".data], DF.Node.dir),
          (["home".data, ".vim".data], DF.Node.dir),
          (["home".data, ".vim".data, "mine".data], DF.Node.file "y".data),
          (["repo".data], DF.Node.dir),
          (["repo".data, "vim".data], DF.Node.dir),
          (["repo".data, "vim".data, "vimrc".data], DF.Node.file "x".data)], [], []⟩ :=
  ⟨(C5_placeholder_directory _ _ _ false false ("T".data) [("home".data : DF.Comp)]
      (".vim".data) (by decide) (by decide) (by decide) (by decide)).1 (by decide) (by decide),
   (C5_placeholder_directory _
      [("home".data : DF.Comp), (".vim".data : DF.Comp)]
      [("repo".data : DF.Comp), ("vim".data : DF.Comp)] false false ("T".data)
      [("home".data : DF.Comp)] (".vim".data)
      (by decide) (by decide) (by decide) (by decide)).2 (by decide)⟩

namespace DF

/-- For a non-empty name not beginning with the separator, the first
piece of the split is non-empty. -/
theorem splitUU_head (s : List Char) (h0 : s ≠ []) (h1 : ¬ (['_', '_'] <+: s)) :
    ∃ hd tl, splitUU s = hd :: tl ∧ hd ≠ [] := by
  match s with
  | [] => exact absurd rfl h0
  | [c] => exact ⟨[c], [], rfl, by simp⟩
  | c1 :: c2 :: rest =>
    have hne : ¬ (c1 = '_' ∧ c2 = '_') := by
      intro ⟨ha, hb⟩
      exact h1 (by rw [ha, hb]; exact ⟨rest, rfl⟩)
    rw [splitUU, if_neg hne]
    rcases hs : splitUU (c2 :: rest) with _ | ⟨h, t⟩
    · exact ⟨[c1], [], rfl, by simp⟩
    · exact ⟨c1 :: h, t, rfl, by simp⟩

/-- For a non-empty name not beginning with `__`, the mapped home path
starts with a dot-prefixed non-empty component. -/
theorem mapTopLevelToHome_head (name : Comp) (h0 : name ≠ [])
    (h1 : ¬ (['_', '_'] <+: name)) :
    ∃ (hd : List Char) (tl : Path), mapTopLevelToHome name = ('.' :: hd) :: tl ∧ hd ≠ [] := by
  obtain ⟨hd, tl, hs, hne⟩ := splitUU_head name h0 h1
  unfold mapTopLevelToHome
  rw [hs]
  refine ⟨hd, pathMk tl, ?_, hne⟩
  unfold pathMk
  rw [List.filter_cons_of_pos]
  simp only [decide_eq_true_eq, Bool.and_eq_true, Bool.not_eq_true', decide_eq_false_iff_not]
  constructor
  · simp
  · intro h
    injection h with h2 h3
    exact hne h3

end DF

/-! ## Claim C10 — restore targets are hidden top-level entries -/

/-- Claim C10: when a top-level repository entry name is non-empty and
does not begin with `__`, every `(source, target)` pair the restore
traversal yields for it — in either variant — has its target strictly
below the home root, with the first component after `home` beginning
with `.` (so restore never touches a non-hidden top-level entry of the
home directory). -/
theorem C10_hidden_targets (fs : DF.FS) (source_root home : DF.Path) (name : DF.Comp)
    (h0 : name ≠ []) (h1 : ¬ (['_', '_'] <+: name)) :
    (∀ sd ∈ DF.pairsForTop fs source_root home name,
      ∃ (c : List Char) (rest : List DF.Comp), sd.2 = home ++ ('.' :: c) :: rest)
    ∧ (∀ sd ∈ DF.pairsForTopR fs source_root home name,
      ∃ (c : List Char) (rest : List DF.Comp), sd.2 = home ++ ('.' :: c) :: rest) := by
  obtain ⟨hd, tl, hmap, _⟩ := DF.mapTopLevelToHome_head name h0 h1
  constructor
  · intro sd hsd
    unfold DF.pairsForTop at hsd
    by_cases hig : DF.IGNORE_DIRS.contains name = true
    · rw [if_pos hig] at hsd
      simp at hsd
    · rw [if_neg hig] at hsd
      by_cases hdir : DF.isDirAt fs (source_root ++ [name]) = true
      · rw [if_pos hdir] at hsd
        by_cases hcfg : ("config__".data : DF.Comp).isPrefixOf name = true
        · rw [if_pos hcfg] at hsd
          simp at hsd
          refine ⟨hd, tl, ?_⟩
          rw [hsd]
          simp [hmap]
        · rw [if_neg hcfg] at hsd
          obtain ⟨sp, _, hmem⟩ := List.mem_filterMap.mp hsd
          by_cases hpi : sp.any (fun part => DF.IGNORE_DIRS.contains part) = true
          · rw [if_pos hpi] at hmem; exact Option.noConfusion hmem
          · rw [if_neg hpi] at hmem
            by_cases hsf : DF.IGNORE_SUFFIXES.contains (DF.suffixOf (DF.lastComp sp)) = true
            · rw [if_pos hsf] at hmem; exact Option.noConfusion hmem
            · rw [if_neg hsf] at hmem
              by_cases hsd2 : DF.isDirAt fs sp = true
              · rw [if_pos hsd2] at hmem; exact Option.noConfusion hmem
              · rw [if_neg hsd2] at hmem
                injection hmem with hmem
                refine ⟨hd, tl ++ sp.drop (source_root ++ [name]).length, ?_⟩
                rw [← hmem]
                simp [hmap]
      · rw [if_neg hdir] at hsd
        by_cases hsf : DF.IGNORE_SUFFIXES.contains (DF.suffixOf name) = true
        · rw [if_pos hsf] at hsd; simp at hsd
        · rw [if_neg hsf] at hsd
          simp at hsd
          refine ⟨hd, tl, ?_⟩
          rw [hsd]
          simp [hmap]
  · intro sd hsd
    unfold DF.pairsForTopR at hsd
    by_cases hig : DF.IGNORE_DIRS.contains name = true
    · rw [if_pos hig] at hsd
      simp at hsd
    · rw [if_neg hig] at hsd
      by_cases hdir : DF.isDirAt fs (source_root ++ [name]) = true
      · rw [if_pos hdir] at hsd
        obtain ⟨sp, _, hmem⟩ := List.mem_filterMap.mp hsd
        by_cases hpi : sp.any (fun part => DF.IGNORE_DIRS.contains part) = true
        · rw [if_pos hpi] at hmem; exact Option.noConfusion hmem
        · rw [if_neg hpi] at hmem
          by_cases hsf : DF.IGNORE_SUFFIXES.contains (DF.suffixOf (DF.lastComp sp)) = true
          · rw [if_pos hsf] at hmem; exact Option.noConfusion hmem
          · rw [if_neg hsf] at hmem
            by_cases hsd2 : DF.isDirAt fs sp = true
            · rw [if_pos hsd2] at hmem; exact Option.noConfusion hmem
            · rw [if_neg hsd2] at hmem
              injection hmem with hmem
              refine ⟨hd, tl ++ sp.drop (source_root ++ [name]).length, ?_⟩
              rw [← hmem]
              simp [hmap]
      · rw [if_neg hdir] at hsd
        by_cases hsf : DF.IGNORE_SUFFIXES.contains (DF.suffixOf name) = true
        · rw [if_pos hsf] at hsd; simp at hsd
        · rw [if_neg hsf] at hsd
          simp at hsd
          refine ⟨hd, tl, ?_⟩
          rw [hsd]
          simp [hmap]

/-- Witness: the pair generated for the plain file entry `bashrc`
targets `home/.bashrc`, a hidden top-level entry. -/
theorem C10_hidden_targets_witness :
    ∃ (c : List Char) (rest : List DF.Comp),
      ([("home".data : DF.Comp), (".bashrc".data : DF.Comp)] : DF.Path)
        = (["home".data] : DF.Path) ++ ('.' :: c) :: rest :=
  (C10_hidden_targets
      [(["repo".data], DF.Node.dir),
       (["repo".data, "bashrc".data], DF.Node.file "x".data)]
      ["repo".data] ["home".data] ("bashrc".data) (by decide) (by decide)).1
    ([("repo".data : DF.Comp), ("bashrc".data : DF.Comp)],
      [("home".data : DF.Comp), (".bashrc".data : DF.Comp)])
    (by decide)

/-! ## Claim C6 — stow scope enforcement -/

/-- Claim C6, as stated, is false in one corner: a requested path
*outside the home root* that is a symlink resolving inside the
repository is not rejected — `run_stow` treats it as already stowed and
silently skips it with no error (dotman.py lines 245-264 run before the
home-membership check). -/
theorem C6_scope_counterexample :
    DF.stowOne
        [(["tmp".data], DF.Node.dir),
         (["tmp".data, "link".data],
           DF.Node.symlink [("repo".data : DF.Comp), ("x".data : DF.Comp)]),
         (["home".data], DF.Node.dir),
         (["repo".data], DF.Node.dir),
         (["repo".data, "x".data], DF.Node.file "x".data)]
        [("tmp".data : DF.Comp), ("link".data : DF.Comp)]
        ["home".data] ["repo".data] false false ("T".data)
      = ([(["tmp".data], DF.Node.dir),
          (["tmp".data, "link".data],
            DF.Node.symlink [("repo".data : DF.Comp), ("x".data : DF.Comp)]),
          (["home".data], DF.Node.dir),
          (["repo".data], DF.Node.dir),
          (["repo".data, "x".data], DF.Node.file "x".data)], DF.StowOut.okNoop) := by
  decide

/-- Claim C6, amended: `run_stow` rejects with a per-path error and no
mutation (i) every non-symlink requested path lying outside the home
root (as missing, or as out-of-scope), and (ii) every symlink whose
strict resolution fails or lands outside the repository root;
(iii) a symlink resolving inside the repository is a silent no-op with
no mutation regardless of its location; and (iv) a non-symlink path
under home whose top-level component is not dot-prefixed is refused by
the uncaught `ValueError` of `repo_dest_for_home_path`, aborting the
run with no mutation. -/
theorem C6_scope_enforcement (fs : DF.FS) (p home root : DF.Path)
    (d f : Bool) (stamp : List Char) :
    (DF.isSymlinkAt fs p = false → ¬ (home <+: p) →
      DF.stowOne fs p home root d f stamp = (fs, DF.StowOut.perr DF.PErr.missing)
      ∨ DF.stowOne fs p home root d f stamp = (fs, DF.StowOut.perr DF.PErr.outsideHome))
    ∧ (DF.isSymlinkAt fs p = true →
        (∀ q, DF.resolveStrict fs p = some q → ¬ (root <+: q)) →
      DF.stowOne fs p home root d f stamp = (fs, DF.StowOut.perr DF.PErr.broken)
      ∨ DF.stowOne fs p home root d f stamp = (fs, DF.StowOut.perr DF.PErr.notRepoLink))
    ∧ (∀ q, DF.isSymlinkAt fs p = true → DF.resolveStrict fs p = some q → root <+: q →
      DF.stowOne fs p home root d f stamp = (fs, DF.StowOut.okNoop))
    ∧ (∀ top restp, DF.isSymlinkAt fs p = false → DF.pexists fs p = true →
        home <+: p → p.drop home.length = top :: restp → (∀ cs, top ≠ '.' :: cs) →
      DF.stowOne fs p home root d f stamp = (fs, DF.StowOut.fatal DF.Fatal.valueErr)) := by
  refine ⟨?_, ?_, ?_, ?_⟩
  · intro hsym hout
    unfold DF.stowOne
    by_cases hpe : DF.pexists fs p = true
    · right
      rw [if_neg (by simp [hpe, hsym])]
      rw [if_neg (by simp [hsym])]
      rw [if_pos (by simp [DF.isPre, hout])]
    · left
      rw [if_pos (by simp [DF.pexists] at hpe ⊢; simp [hpe, hsym])]
  · intro hsym hres
    unfold DF.stowOne
    rw [if_neg (by simp [hsym])]
    rw [if_pos (by simp [hsym])]
    rcases hq : DF.resolveStrict fs p with _ | q
    · left; rfl
    · right
      have hf : DF.isPre root q = false := by
        simp [DF.isPre]
        exact hres q hq
      simp [hq, hf]
  · intro q hsym hq hin
    unfold DF.stowOne
    rw [if_neg (by simp [hsym])]
    rw [if_pos (by simp [hsym])]
    simp [hq, DF.isPre, hin]
  · intro top restp hsym hpe hin hdrop htop
    unfold DF.stowOne
    rw [if_neg (by simp [hpe])]
    rw [if_neg (by simp [hsym])]
    rw [if_neg (by simp [DF.isPre, hin])]
    have hdst : DF.repoDestForHomePath p home root = Except.error () := by
      unfold DF.repoDestForHomePath
      rw [if_neg (by simp [DF.isPre, hin])]
      rw [hdrop]
      cases top with
      | nil => rfl
      | cons c cs =>
        have hc : c ≠ '.' := by
          intro h
          exact htop cs (by rw [h])
        simp [hc]
    rw [hdst]

/-- Witness: stowing the plain file `/tmp/f`, which lies outside the
home root, is rejected with a per-path error and no mutation. -/
theorem C6_scope_enforcement_witness :
    DF.stowOne
        [(["tmp".data], DF.Node.dir),
         (["tmp".data, "f".data], DF.Node.file "x".data),
         (["home".data], DF.Node.dir),
         (["repo".data], DF.Node.dir)]
        [("tmp".data : DF.Comp), ("f".data : DF.Comp)]
        ["home".data] ["repo".data] false false ("T".data)
      = ([(["tmp".data], DF.Node.dir),
          (["tmp".data, "f".data], DF.Node.file "x".data),
          (["home".data], DF.Node.dir),
          (["repo".data], DF.Node.dir)], DF.StowOut.perr DF.PErr.missing)
    ∨ DF.stowOne
        [(["tmp".data], DF.Node.dir),
         (["tmp".data, "f".data], DF.Node.file "x".data),
         (["home".data], DF.Node.dir),
         (["repo".data], DF.Node.dir)]
        [("tmp".data : DF.Comp), ("f".data : DF.Comp)]
        ["home".data] ["repo".data] false false ("T".data)
      = ([(["tmp".data], DF.Node.dir),
          (["tmp".data, "f".data], DF.Node.file "x".data),
          (["home".data], DF.Node.dir),
          (["repo".data], DF.Node.dir)], DF.StowOut.perr DF.PErr.outsideHome) :=
  (C6_scope_enforcement _
      [("tmp".data : DF.Comp), ("f".data : DF.Comp)]
      ["home".data] ["repo".data] false false ("T".data)).1
    (by decide) (by decide)

/-! ## Claim C7 — unstow precondition -/

/-- Claim C7, as stated, is false in one corner: `run_unstow` never
checks that the requested path lies inside the home root, so a symlink
*outside* home whose target resolves into the repository is happily
unstowed — a mutation the claim says must be rejected. -/
theorem C7_unstow_counterexample :
    (DF.unstowOne
        [(["tmp".data], DF.Node.dir),
         (["tmp".data, "link".data],
           DF.Node.symlink [("repo".data : DF.Comp), ("x".data : DF.Comp)]),
         (["home".data], DF.Node.dir),
         (["repo".data], DF.Node.dir),
         (["repo".data, "x".data], DF.Node.file "x".data)]
        [("tmp".data : DF.Comp), ("link".data : DF.Comp)]
        ["repo".data] false false ("T".data)).2
      = DF.StowOut.okDone
    ∧ (DF.unstowOne
        [(["tmp".data], DF.Node.dir),
         (["tmp".data, "link".data],
           DF.Node.symlink [("repo".data : DF.Comp), ("x".data : DF.Comp)]),
         (["home".data], DF.Node.dir),
         (["repo".data], DF.Node.dir),
         (["repo".data, "x".data], DF.Node.file "x".data)]
        [("tmp".data : DF.Comp), ("link".data : DF.Comp)]
        ["repo".data] false false ("T".data)).1
      ≠ [(["tmp".data], DF.Node.dir),
         (["tmp".data, "link".data],
           DF.Node.symlink [("repo".data : DF.Comp), ("x".data : DF.Comp)]),
         (["home".data], DF.Node.dir),
         (["repo".data], DF.Node.dir),
         (["repo".data, "x".data], DF.Node.file "x".data)] := by
  constructor
  · decide
  · decide

/-- Claim C7, amended (the home-root condition dropped — the code never
checks it): `run_unstow` rejects with a per-path error and no mutation
every path that is not a symlink, every broken symlink, and every
symlink whose resolved target lies outside the repository root; for a
symlink (wherever it lives) resolving to a target inside the
repository, the real run removes the symlink and moves the whole
repository-side content back to the requested path (its parent
directory already being in place). -/
theorem C7_unstow_precondition (fs : DF.FS) (p root : DF.Path)
    (d f : Bool) (stamp : List Char) :
    (DF.isSymlinkAt fs p = false →
      DF.unstowOne fs p root d f stamp = (fs, DF.StowOut.perr DF.PErr.notSymlink))
    ∧ (DF.isSymlinkAt fs p = true → DF.resolveStrict fs p = none →
      DF.unstowOne fs p root d f stamp = (fs, DF.StowOut.perr DF.PErr.broken))
    ∧ (∀ q, DF.isSymlinkAt fs p = true → DF.resolveStrict fs p = some q → ¬ (root <+: q) →
      DF.unstowOne fs p root d f stamp = (fs, DF.StowOut.perr DF.PErr.notRepoLink))
    ∧ (∀ q (par : DF.Path) (l : DF.Comp) (u : DF.Path),
        DF.splitLast p = some (par, l) →
        DF.lookupP fs p = some (DF.Node.symlink u) →
        DF.realChain fs p = true →
        DF.resolveStrict fs p = some q → root <+: q →
        DF.realChain fs q = true → ¬ (p <+: q) → ¬ (q <+: p) →
      DF.unstowOne fs p root false f stamp
        = (DF.renameTree (DF.eraseP fs p) q p, DF.StowOut.okDone)
      ∧ DF.lookupP (DF.renameTree (DF.eraseP fs p) q p) p = DF.lookupP fs q) := by
  refine ⟨?_, ?_, ?_, ?_⟩
  · intro hsym
    unfold DF.unstowOne
    rw [if_pos (by simp [hsym])]
  · intro hsym hres
    unfold DF.unstowOne
    rw [if_neg (by simp [hsym])]
    rw [hres]
  · intro q hsym hres hout
    unfold DF.unstowOne
    rw [if_neg (by simp [hsym])]
    have hf : DF.isPre root q = false := by
      simp [DF.isPre]
      exact hout
    simp [hres, hf]
  · intro q par l u hsp hkey hchain hres hin hchq hpq hqp
    have hpl : p = par ++ [l] := DF.splitLast_eq hsp
    have ht0 : p ≠ [] := by rw [hpl]; simp
    have hq0 : q ≠ [] := by
      intro h
      rw [h] at hqp
      exact hqp List.nil_prefix
    have hqnp : q ≠ p := fun h => hpq (h ▸ List.prefix_refl p)
    have hsym : DF.isSymlinkAt fs p = true := by
      unfold DF.isSymlinkAt
      rw [DF.lstatNode_real fs p par l hsp hchain, hkey]
    have hpx : (DF.pexists fs p && !(DF.isSymlinkAt fs p)) = false := by
      rw [hsym]
      simp
    have hqsome : (DF.lookupP fs q).isSome := by
      unfold DF.resolveStrict at hres
      rcases hr : DF.resolveNS fs p with _ | q2 <;> simp only [hr] at hres
      · exact Option.noConfusion hres
      · by_cases hq2 : (DF.lookupP fs q2).isSome
        · rw [if_pos hq2] at hres
          injection hres with hres
          rw [← hres]
          exact hq2
        · rw [if_neg hq2] at hres
          exact Option.noConfusion hres
    have hinb : DF.isPre root q = true := by simp [DF.isPre, hin]
    have hunl : DF.osUnlink fs p = some (DF.eraseP fs p) := by
      unfold DF.osUnlink
      rw [hkey, if_pos hchain]
    -- the parent directory of `p` survives the unlink, so `_mkdirp` is a no-op
    have hchain_elems : ∀ i, i + 1 ≤ par.length →
        DF.lookupP (DF.eraseP fs p) (([] : DF.Path) ++ par.take (i + 1)) = some DF.Node.dir := by
      intro i hi
      rw [List.nil_append]
      rw [DF.lookupP_eraseP_other fs p (par.take (i + 1)) (by
        intro h
        have := congrArg List.length h
        rw [hpl] at this
        simp at this
        omega)]
      have := (DF.realChain_iff fs p).mp hchain (i + 1) (by rw [hpl]; simp; omega)
      rw [hpl, List.take_append_of_le_length (by omega)] at this
      exact this
    have hpardirs : DF.resolveSteps (DF.eraseP fs p) (DF.fsFuel (DF.eraseP fs p)) [] par
        = some par := by
      have := DF.resolveSteps_dirs (DF.eraseP fs p) (DF.fsFuel (DF.eraseP fs p)) par []
        (fun j hj => hchain_elems j hj)
      simpa using this
    have hpardir : DF.isDirAt (DF.eraseP fs p) p.dropLast = true := by
      have hdl : p.dropLast = par := by rw [hpl]; simp
      rw [hdl]
      unfold DF.isDirAt DF.statNode DF.resolveNS
      simp only [hpardirs]
      rcases par with _ | ⟨c0, par'⟩
      · simp [DF.lookupP]
      · rw [DF.lookupP_eraseP_other fs p (c0 :: par') (by
          intro h
          have := congrArg List.length h
          rw [hpl] at this
          simp at this)]
        have := (DF.realChain_iff fs p).mp hchain (c0 :: par').length (by rw [hpl]; simp)
        rw [hpl, List.take_left] at this
        rw [this]
        simp
    have hmk : DF.mkdirp (DF.eraseP fs p) p.dropLast false
        = (Except.ok (), DF.eraseP fs p, []) := by
      unfold DF.mkdirp
      rw [if_pos hpardir]
    -- the destination of the move does not exist any more
    have hlast : DF.resolveSteps (DF.eraseP fs p) (DF.fsFuel (DF.eraseP fs p)) [] p
        = some p := by
      have h1 : DF.resolveSteps (DF.eraseP fs p) (DF.fsFuel (DF.eraseP fs p)) [] (par ++ [l])
          = DF.resolveSteps (DF.eraseP fs p) (DF.fsFuel (DF.eraseP fs p)) ([] ++ par) [l] :=
        DF.resolveSteps_append_dirs (DF.eraseP fs p) _ par [] [l]
          (fun j hj => hchain_elems j hj)
      rw [List.nil_append] at h1
      have h2 : DF.resolveSteps (DF.eraseP fs p) (DF.fsFuel (DF.eraseP fs p)) par [l]
          = DF.resolveSteps (DF.eraseP fs p) (DF.fsFuel (DF.eraseP fs p)) (par ++ [l]) [] :=
        DF.resolveSteps_cons_nonsym _ _ par l [] (by
          intro t ht
          rw [← hpl, DF.lookupP_eraseP_self fs p ht0] at ht
          exact Option.noConfusion ht)
      calc DF.resolveSteps (DF.eraseP fs p) (DF.fsFuel (DF.eraseP fs p)) [] p
          = DF.resolveSteps (DF.eraseP fs p) (DF.fsFuel (DF.eraseP fs p)) [] (par ++ [l]) := by
            rw [← hpl]
        _ = some p := by rw [h1, h2, DF.resolveSteps_nil, ← hpl]
    have hglue : DF.isDirAt (DF.eraseP fs p) p = false := by
      unfold DF.isDirAt DF.statNode DF.resolveNS
      simp only [hlast]
      rw [DF.lookupP_eraseP_self fs p ht0]
      simp
    have hchq1 : DF.realChain (DF.eraseP fs p) q = true := by
      rw [DF.realChain_iff]
      intro i hi
      rw [DF.lookupP_eraseP_other fs p (q.take i) (by
        intro h
        apply hpq
        rw [← h]
        exact List.take_prefix i q)]
      exact (DF.realChain_iff fs q).mp hchq i hi
    have hchp1 : DF.realChain (DF.eraseP fs p) p = true := by
      rw [DF.realChain_iff]
      intro i hi
      rw [DF.lookupP_eraseP_other fs p (p.take i) (by
        intro h
        have := congrArg List.length h
        simp at this
        omega)]
      exact (DF.realChain_iff fs p).mp hchain i hi
    have hqk1 : (DF.lookupP (DF.eraseP fs p) q).isSome := by
      rw [DF.lookupP_eraseP_other fs p q hqnp]
      exact hqsome
    have hmv : DF.shutilMove (DF.eraseP fs p) q p
        = some (DF.renameTree (DF.eraseP fs p) q p) := by
      unfold DF.shutilMove
      rw [hglue]
      simp only [Bool.false_eq_true, if_false]
      unfold DF.osRename
      rw [if_pos]
      simp only [Bool.and_eq_true, decide_eq_true_eq, Bool.not_eq_true']
      refine ⟨⟨⟨⟨⟨⟨⟨hchq1, hchp1⟩, hqk1⟩, ?_⟩, ?_⟩, ?_⟩, ?_⟩, ?_⟩
      · simp [DF.lookupP_eraseP_self fs p ht0]
      · simp [DF.isPre, hqp]
      · simp [DF.isPre, hpq]
      · simp [List.isEmpty_eq_true, hq0]
      · simp [List.isEmpty_eq_true, ht0]
    refine ⟨?_, ?_⟩
    · unfold DF.unstowOne
      rw [if_neg (by simp [hsym])]
      simp [hres, hinb, hpx, hunl, hmk, hmv]
    have := DF.lookupP_renameTree_moved (DF.eraseP fs p) q p [] hq0 ht0 (by
      intro e he _
      have := (List.mem_filter.mp he).2
      simp at this
      simpa using this)
    rw [List.append_nil, List.append_nil] at this
    rw [this, DF.lookupP_eraseP_other fs p q hqnp]

/-- Witness: unstowing the symlink `home/.bashrc` pointing at the
repository file moves the file back and removes the link. -/
theorem C7_unstow_precondition_witness :
    DF.unstowOne
        [(["home".data], DF.Node.dir),
         (["home".data, ".bashrc".data],
           DF.Node.symlink [("repo".data : DF.Comp), ("bashrc".data : DF.Comp)]),
         (["repo".data], DF.Node.dir),
         (["repo".data, "bashrc".data], DF.Node.file "x".data)]
        [("home".data : DF.Comp), (".bashrc".data : DF.Comp)]
        ["repo".data] false false ("T".data)
      = (DF.renameTree
          (DF.eraseP
            [(["home".data], DF.Node.dir),
             (["home".data, ".bashrc".data],
               DF.Node.symlink [("repo".data : DF.Comp), ("bashrc".data : DF.Comp)]),
             (["repo".data], DF.Node.dir),
             (["repo".data, "bashrc".data], DF.Node.file "x".data)]
            [("home".data : DF.Comp), (".bashrc".data : DF.Comp)])
          [("repo".data : DF.Comp), ("bashrc".data : DF.Comp)]
          [("home".data : DF.Comp), (".bashrc".data : DF.Comp)], DF.StowOut.okDone) :=
  ((C7_unstow_precondition _
      [("home".data : DF.Comp), (".bashrc".data : DF.Comp)]
      ["repo".data] false false ("T".data)).2.2.2
    [("repo".data : DF.Comp), ("bashrc".data : DF.Comp)]
    [("home".data : DF.Comp)] (".bashrc".data)
    [("repo".data : DF.Comp), ("bashrc".data : DF.Comp)]
    (by decide) (by decide) (by decide) (by decide) (by decide) (by decide)
    (by decide) (by decide)).1

/-! ## Restore-run idempotence: regions and invariants -/

namespace DF

/-- Whether a node is a symbolic link. -/
def isLinkNode : Node → Bool
  | Node.symlink _ => true
  | _ => false

/-- `k` lies strictly below the home root. -/
def underHome (home k : Path) : Bool := isPre home k && decide (k ≠ home)

/-- Two filesystems agree, entry for entry and in order, outside the
region strictly below `home`. -/
def regionEq (home : Path) (fsA fsB : FS) : Prop :=
  fsA.filter (fun e => !(underHome home e.1)) = fsB.filter (fun e => !(underHome home e.1))

/-- Every occupied path has a real ancestor chain. -/
def KeysReal (fs : FS) : Prop :=
  ∀ q n, lookupP fs q = some n → realChain fs q = true

theorem underHome_iff (home k : Path) :
    underHome home k = true ↔ home <+: k ∧ k ≠ home := by
  simp [underHome, isPre]

theorem underHome_extend (home t q : Path) (h : underHome home t = true)
    (hq : t <+: q) : underHome home q = true := by
  rw [underHome_iff] at h ⊢
  refine ⟨h.1.trans hq, ?_⟩
  intro hk
  subst hk
  exact h.2 (hq.eq_of_length (Nat.le_antisymm (prefix_length_le hq) (prefix_length_le h.1)))

theorem underHome_false_of_repo (home source_root x q : Path)
    (h1 : isPre home source_root = false) (h2 : isPre source_root home = false)
    (hx : isPre source_root x = true) (hq : q <+: x) : underHome home q = false := by
  rw [← Bool.not_eq_true]
  intro hu
  rw [underHome_iff] at hu
  have hhx : home <+: x := hu.1.trans hq
  have hsx : source_root <+: x := by simpa [isPre] using hx
  rcases List.prefix_or_prefix_of_prefix hhx hsx with h | h
  · rw [isPre] at h1
    simp at h1
    exact h1 h
  · rw [isPre] at h2
    simp at h2
    exact h2 h

theorem underHome_take_home (home : Path) (i : Nat) (hi : i < home.length) :
    underHome home (home.take i) = false := by
  rw [← Bool.not_eq_true]
  intro hu
  rw [underHome_iff] at hu
  have := prefix_length_le hu.1
  simp at this
  omega

theorem find?_region (home : Path) (q : Path) (hq : underHome home q = false)
    (l : FS) :
    l.find? (fun e => decide (e.1 = q))
      = (l.filter (fun e => !(underHome home e.1))).find? (fun e => decide (e.1 = q)) := by
  induction l with
  | nil => rfl
  | cons e l ih =>
    by_cases hk : e.1 = q
    · rw [List.filter_cons_of_pos (by rw [hk]; simp [hq]),
        List.find?_cons_of_pos _ (by simp [hk]), List.find?_cons_of_pos _ (by simp [hk])]
    · by_cases hu : underHome home e.1 = true
      · rw [List.filter_cons_of_neg (by simp [hu]),
          List.find?_cons_of_neg _ (by simp [hk])]
        exact ih
      · rw [Bool.not_eq_true] at hu
        rw [List.filter_cons_of_pos (by simp [hu]),
          List.find?_cons_of_neg _ (by simp [hk]), List.find?_cons_of_neg _ (by simp [hk])]
        exact ih

theorem lookupP_regionEq (home : Path) (fsA fsB : FS) (h : regionEq home fsA fsB)
    (q : Path) (hq : underHome home q = false) : lookupP fsA q = lookupP fsB q := by
  unfold lookupP
  by_cases h0 : q = []
  · simp [h0]
  · rw [if_neg h0, if_neg h0, find?_region home q hq fsA, find?_region home q hq fsB, h]

theorem filter_subpred (l : FS) (P Q : Path × Node → Bool)
    (h : ∀ e, P e = true → Q e = true) :
    (l.filter Q).filter P = l.filter P := by
  induction l with
  | nil => rfl
  | cons e l ih =>
    by_cases hp : P e = true
    · rw [List.filter_cons_of_pos (h e hp), List.filter_cons_of_pos hp,
        List.filter_cons_of_pos hp, ih]
    · by_cases hq2 : Q e = true
      · rw [List.filter_cons_of_pos hq2, List.filter_cons_of_neg hp,
          List.filter_cons_of_neg hp, ih]
      · rw [List.filter_cons_of_neg hq2, List.filter_cons_of_neg hp, ih]

theorem regionEq_setP (home : Path) (fs : FS) (p : Path) (n : Node)
    (hp : underHome home p = true) : regionEq home (setP fs p n) fs := by
  unfold regionEq setP eraseP
  rw [List.filter_cons_of_neg (by simp [hp])]
  exact filter_subpred fs _ _ (fun e he => by
    simp only [decide_eq_true_eq]
    intro hk
    rw [hk] at he
    rw [hp] at he
    simp at he)

theorem regionEq_eraseP (home : Path) (fs : FS) (p : Path)
    (hp : underHome home p = true) : regionEq home (eraseP fs p) fs := by
  unfold regionEq eraseP
  exact filter_subpred fs _ _ (fun e he => by
    simp only [decide_eq_true_eq]
    intro hk
    rw [hk] at he
    rw [hp] at he
    simp at he)

theorem lookupP_mem (fs : FS) (q : Path) (n : Node) (h0 : q ≠ [])
    (h : lookupP fs q = some n) : (q, n) ∈ fs := by
  unfold lookupP at h
  rw [if_neg h0] at h
  rcases hf : fs.find? (fun e => decide (e.1 = q)) with _ | e
  · rw [hf] at h; exact Option.noConfusion h
  · rw [hf] at h
    have hm := List.find?_some hf
    have hmem := List.mem_of_find?_eq_some hf
    have h1 : e.1 = q := by simpa using hm
    injection h with h2
    have he : e = (q, n) := by
      rcases e with ⟨a, b⟩
      simp at h1 h2
      rw [h1, h2]
    rw [← he]
    exact hmem

theorem keysReal_of_entries (fs : FS) (h : ∀ e ∈ fs, realChain fs e.1 = true) :
    KeysReal fs := by
  intro q n hq
  by_cases h0 : q = []
  · subst h0
    exact (realChain_iff fs []).mpr (by intro i hi; simp at hi)
  · exact h (q, n) (lookupP_mem fs q n h0 hq)

theorem resolveSteps_nosym (fs : FS) (f : Nat) :
    ∀ (todo acc : Path),
      (∀ j, j < todo.length → ∀ u,
        lookupP fs (acc ++ todo.take (j + 1)) ≠ some (Node.symlink u)) →
      resolveSteps fs f acc todo = some (acc ++ todo) := by
  intro todo
  induction todo with
  | nil => intro acc _; rw [resolveSteps_nil]; simp
  | cons c rest ih =>
    intro acc h
    rw [resolveSteps_cons_nonsym fs f acc c rest (by
      intro u hu
      exact h 0 (by simp) u (by simpa using hu))]
    have := ih (acc ++ [c]) (by
      intro j hj u
      have := h (j + 1) (by simpa using Nat.succ_lt_succ hj) u
      simpa [List.append_assoc] using this)
    rw [this]
    simp

theorem statNode_nosym (fs : FS) (p : Path)
    (h : ∀ j, j < p.length → ∀ u, lookupP fs (p.take (j + 1)) ≠ some (Node.symlink u)) :
    statNode fs p = lookupP fs p := by
  unfold statNode resolveNS
  rw [resolveSteps_nosym fs (fsFuel fs) p [] (by intro j hj u; simpa using h j hj u)]
  simp

theorem lstatNode_nosym (fs : FS) (p par : Path) (l : Comp)
    (hsp : splitLast p = some (par, l))
    (h : ∀ j, j < par.length → ∀ u, lookupP fs (par.take (j + 1)) ≠ some (Node.symlink u)) :
    lstatNode fs p = lookupP fs p := by
  have hpl : p = par ++ [l] := splitLast_eq hsp
  unfold lstatNode lresolve
  simp only [hsp]
  rw [resolveSteps_nosym fs (fsFuel fs) par [] (by intro j hj u; simpa using h j hj u)]
  simp [hpl]

end DF

namespace DF

theorem keysReal_setP (fs : FS) (p : Path) (n : Node) (hKR : KeysReal fs)
    (hchain : realChain fs p = true) (hp : p ≠ [])
    (hcase : n = Node.dir ∨ lookupP fs p = none) :
    KeysReal (setP fs p n) := by
  intro q m hq
  rw [realChain_iff]
  intro i hi
  by_cases hqp : q = p
  · subst hqp
    rw [lookupP_setP_other fs q (q.take i) n (by
      intro h
      have := congrArg List.length h
      simp at this
      omega)]
    exact (realChain_iff fs q).mp hchain i hi
  · rw [lookupP_setP_other fs p q n hqp] at hq
    have hch := hKR q m hq
    by_cases hip : q.take i = p
    · rcases hcase with hdirn | hnone
      · rw [hip, lookupP_setP_self fs p n hp, hdirn]
      · exfalso
        have := (realChain_iff fs q).mp hch i hi
        rw [hip, hnone] at this
        exact Option.noConfusion this
    · rw [lookupP_setP_other fs p (q.take i) n hip]
      exact (realChain_iff fs q).mp hch i hi

theorem keysReal_eraseP (fs : FS) (p : Path) (hKR : KeysReal fs)
    (hunder : ∀ q, p <+: q → p ≠ q → lookupP fs q = none) :
    KeysReal (eraseP fs p) := by
  intro q m hq
  by_cases hqp : q = p
  · subst hqp
    by_cases h0 : q = []
    · subst h0
      exact (realChain_iff _ []).mpr (by intro i hi; simp at hi)
    · rw [lookupP_eraseP_self fs q h0] at hq
      exact Option.noConfusion hq
  · rw [lookupP_eraseP_other fs p q hqp] at hq
    have hnp : ¬ p <+: q := by
      intro hpq
      rw [hunder q hpq (fun h => hqp h.symm)] at hq
      exact Option.noConfusion hq
    rw [realChain_iff]
    intro i hi
    rw [lookupP_eraseP_other fs p (q.take i) (by
      intro h
      exact hnp (h ▸ List.take_prefix i q))]
    exact (realChain_iff fs q).mp (hKR q m hq) i hi

theorem hasEntry_iff_lookup (fs : FS) (p : Path) :
    hasEntry fs p = true
      ↔ ∃ q, isPre p q = true ∧ q.length = p.length + 1 ∧ (lookupP fs q).isSome = true := by
  unfold hasEntry
  rw [List.any_eq_true]
  constructor
  · rintro ⟨e, he, hpred⟩
    rw [Bool.and_eq_true] at hpred
    refine ⟨e.1, hpred.1, by simpa using hpred.2, ?_⟩
    have h0 : e.1 ≠ [] := by
      intro h
      have := hpred.2
      rw [h] at this
      simp at this
    unfold lookupP
    rw [if_neg h0]
    rcases hf : fs.find? (fun e2 => decide (e2.1 = e.1)) with _ | e2
    · rw [List.find?_eq_none] at hf
      exact absurd (by simp) (hf e he)
    · rw [hf]
      rfl
  · rintro ⟨q, hpre, hlen, hsome⟩
    have h0 : q ≠ [] := by intro h; rw [h] at hlen; simp at hlen
    rcases ho : lookupP fs q with _ | n
    · rw [ho] at hsome; simp at hsome
    · exact ⟨(q, n), lookupP_mem fs q n h0 ho, by simp [hpre, hlen]⟩

theorem no_lookup_under_empty_dir (fs : FS) (p : Path) (hKR : KeysReal fs)
    (hne : hasEntry fs p = false) :
    ∀ q, p <+: q → p ≠ q → lookupP fs q = none := by
  intro q hpq hne2
  rcases hl : lookupP fs q with _ | n
  · rfl
  · exfalso
    have hlen : p.length < q.length := by
      rcases hpq with ⟨u, hu⟩
      rcases u with _ | ⟨c, u'⟩
      · rw [List.append_nil] at hu
        exact absurd hu hne2
      · rw [← hu]; simp
    have hch := hKR q n hl
    have hq1 : (lookupP fs (q.take (p.length + 1))).isSome = true := by
      by_cases hc : p.length + 1 < q.length
      · rw [(realChain_iff fs q).mp hch (p.length + 1) hc]; rfl
      · have : q.take (p.length + 1) = q := List.take_of_length_le (by omega)
        rw [this, hl]; rfl
    have htl : (q.take (p.length + 1)).length = p.length + 1 := by
      simp
      omega
    have hpre : isPre p (q.take (p.length + 1)) = true := by
      rcases hpq with ⟨u, hu⟩
      rw [← hu, List.take_append_eq_append_take, List.take_of_length_le (by omega)]
      simp [isPre]
    rw [(hasEntry_iff_lookup fs p).mpr ⟨q.take (p.length + 1), hpre, htl, hq1⟩] at hne
    exact Bool.noConfusion hne

theorem mkdirSteps_frame (fs' : FS) (rest : Path) :
    ∀ (acc : Path) (fs : FS), mkdirSteps fs acc rest = some fs' →
      ∀ q, lookupP fs' q = lookupP fs q
        ∨ (lookupP fs q = none ∧ lookupP fs' q = some Node.dir
            ∧ ∃ i, 1 ≤ i ∧ i ≤ rest.length ∧ q = acc ++ rest.take i) := by
  induction rest with
  | nil =>
    intro acc fs h q
    unfold mkdirSteps at h
    injection h with h
    left; rw [h]
  | cons c rest ih =>
    intro acc fs h q
    unfold mkdirSteps at h
    rcases hl : lookupP fs (acc ++ [c]) with _ | n
    · simp only [hl] at h
      have := ih (acc ++ [c]) (setP fs (acc ++ [c]) Node.dir) h q
      rcases this with heq | ⟨hnone, hdir, i, hi1, hi2, hqe⟩
      · by_cases hq : q = acc ++ [c]
        · right
          refine ⟨by rw [hq]; exact hl, ?_, 1, le_refl 1, by simp, by simp [hq]⟩
          rw [heq, hq]
          exact lookupP_setP_self fs (acc ++ [c]) Node.dir (by simp)
        · left
          rw [heq, lookupP_setP_other fs (acc ++ [c]) q Node.dir hq]
      · right
        by_cases hq : q = acc ++ [c]
        · refine ⟨by rw [hq]; exact hl, hdir, 1, le_refl 1, by simp, by simp [hq]⟩
        · rw [lookupP_setP_other fs (acc ++ [c]) q Node.dir hq] at hnone
          refine ⟨hnone, hdir, i + 1, by omega, by simp; omega, ?_⟩
          rw [hqe]
          simp [List.append_assoc]
    · cases n with
      | dir =>
        simp only [hl] at h
        have := ih (acc ++ [c]) fs h q
        rcases this with heq | ⟨hnone, hdir, i, hi1, hi2, hqe⟩
        · left; exact heq
        · right
          exact ⟨hnone, hdir, i + 1, by omega, by simp; omega,
            by rw [hqe]; simp [List.append_assoc]⟩
      | file ct => simp only [hl] at h; exact Option.noConfusion h
      | symlink t => simp only [hl] at h; exact Option.noConfusion h

theorem mkdirSteps_dirs (fs' : FS) (rest : Path) :
    ∀ (acc : Path) (fs : FS), mkdirSteps fs acc rest = some fs' →
      lookupP fs acc = some Node.dir →
      ∀ i, i ≤ rest.length → lookupP fs' (acc ++ rest.take i) = some Node.dir := by
  induction rest with
  | nil =>
    intro acc fs h hacc i hi
    unfold mkdirSteps at h
    injection h with h
    simp at hi
    subst hi
    rw [← h]
    simpa using hacc
  | cons c rest ih =>
    intro acc fs h hacc i hi
    unfold mkdirSteps at h
    rcases hl : lookupP fs (acc ++ [c]) with _ | n
    · simp only [hl] at h
      cases i with
      | zero =>
        simp only [List.take_zero, List.append_nil]
        rcases mkdirSteps_frame fs' rest (acc ++ [c]) (setP fs (acc ++ [c]) Node.dir) h acc
          with heq | ⟨hnone, _, i, hi1, _, hqe⟩
        · rw [heq, lookupP_setP_other fs (acc ++ [c]) acc Node.dir (by
            intro hcontra
            have := congrArg List.length hcontra
            simp at this)]
          exact hacc
        · exfalso
          have := congrArg List.length hqe
          simp at this
      | succ j =>
        have := ih (acc ++ [c]) (setP fs (acc ++ [c]) Node.dir) h
          (lookupP_setP_self fs (acc ++ [c]) Node.dir (by simp)) j (by simpa using hi)
        simpa [List.append_assoc] using this
    · cases n with
      | dir =>
        simp only [hl] at h
        cases i with
        | zero =>
          simp only [List.take_zero, List.append_nil]
          rcases mkdirSteps_frame fs' rest (acc ++ [c]) fs h acc
            with heq | ⟨hnone, _, i, hi1, _, hqe⟩
          · rw [heq]; exact hacc
          · exfalso
            have := congrArg List.length hqe
            simp at this
        | succ j =>
          have := ih (acc ++ [c]) fs h hl j (by simpa using hi)
          simpa [List.append_assoc] using this
      | file ct => simp only [hl] at h; exact Option.noConfusion h
      | symlink t => simp only [hl] at h; exact Option.noConfusion h

theorem mkdirSteps_region (home : Path) (fs' : FS) (rest : Path) :
    ∀ (acc : Path) (fs : FS), mkdirSteps fs acc rest = some fs' →
      (∀ i, 1 ≤ i → i ≤ rest.length →
        underHome home (acc ++ rest.take i) = true
          ∨ lookupP fs (acc ++ rest.take i) = some Node.dir) →
      regionEq home fs' fs := by
  induction rest with
  | nil =>
    intro acc fs h _
    unfold mkdirSteps at h
    injection h with h
    rw [h]
    rfl
  | cons c rest ih =>
    intro acc fs h hh
    unfold mkdirSteps at h
    rcases hl : lookupP fs (acc ++ [c]) with _ | n
    · simp only [hl] at h
      have hu : underHome home (acc ++ [c]) = true := by
        rcases hh 1 (le_refl 1) (by simp) with hu | hd
        · simpa using hu
        · exfalso
          rw [show (acc ++ (c :: rest).take 1 : Path) = acc ++ [c] by simp, hl] at hd
          exact Option.noConfusion hd
      have h2 := ih (acc ++ [c]) (setP fs (acc ++ [c]) Node.dir) h (by
        intro i hi1 hi2
        rcases hh (i + 1) (by omega) (by simp; omega) with hu2 | hd2
        · left
          have : (acc ++ (c :: rest).take (i + 1) : Path) = (acc ++ [c]) ++ rest.take i := by
            simp [List.append_assoc]
          rw [this] at hu2
          exact hu2
        · right
          have : (acc ++ (c :: rest).take (i + 1) : Path) = (acc ++ [c]) ++ rest.take i := by
            simp [List.append_assoc]
          rw [this] at hd2
          rw [lookupP_setP_other fs (acc ++ [c]) _ Node.dir (by
            intro hcontra
            have := congrArg List.length hcontra
            simp at this
            rcases this with h0 | h0
            · omega
            · subst h0
              simp at hi2
              omega)]
          exact hd2)
      exact h2.trans (regionEq_setP home fs (acc ++ [c]) Node.dir hu)
    · cases n with
      | dir =>
        simp only [hl] at h
        refine ih (acc ++ [c]) fs h (by
          intro i hi1 hi2
          rcases hh (i + 1) (by omega) (by simp; omega) with hu2 | hd2
          · left
            have : (acc ++ (c :: rest).take (i + 1) : Path) = (acc ++ [c]) ++ rest.take i := by
              simp [List.append_assoc]
            rw [this] at hu2
            exact hu2
          · right
            have : (acc ++ (c :: rest).take (i + 1) : Path) = (acc ++ [c]) ++ rest.take i := by
              simp [List.append_assoc]
            rw [this] at hd2
            exact hd2)
      | file ct => simp only [hl] at h; exact Option.noConfusion h
      | symlink t => simp only [hl] at h; exact Option.noConfusion h

end DF

namespace DF

theorem realChain_of_parent (fs : FS) (p : Path) (hp : p ≠ [])
    (h1 : realChain fs p.dropLast = true) (h2 : lookupP fs p.dropLast = some Node.dir) :
    realChain fs p = true := by
  have hlen : 0 < p.length := List.length_pos.mpr hp
  rw [realChain_iff]
  intro i hi
  rw [List.dropLast_eq_take] at h1 h2
  by_cases hilt : i < p.length - 1
  · have := (realChain_iff fs (p.take (p.length - 1))).mp h1 i (by simp; omega)
    rw [List.take_take, Nat.min_eq_left (by omega)] at this
    exact this
  · have hieq : i = p.length - 1 := by omega
    rw [hieq]
    exact h2

theorem lookupP_dropLast_dir (fs : FS) (p : Path) (hp : p ≠ [])
    (h : realChain fs p = true) : lookupP fs p.dropLast = some Node.dir := by
  have hlen : 0 < p.length := List.length_pos.mpr hp
  rw [List.dropLast_eq_take]
  exact (realChain_iff fs p).mp h (p.length - 1) (by omega)

theorem realChain_dropLast (fs : FS) (p : Path) (h : realChain fs p = true) :
    realChain fs p.dropLast = true := by
  rw [realChain_iff]
  intro i hi
  rw [List.dropLast_eq_take] at hi ⊢
  simp at hi
  rw [List.take_take, Nat.min_eq_left (by omega)]
  exact (realChain_iff fs p).mp h i (by omega)

theorem isDirAt_of_chain_dir (fs : FS) (p : Path)
    (hch : realChain fs p = true) (hdir : lookupP fs p = some Node.dir) :
    isDirAt fs p = true := by
  unfold isDirAt
  rw [statNode_nosym fs p (by
    intro j hj u hu
    by_cases hc : j + 1 < p.length
    · rw [(realChain_iff fs p).mp hch (j + 1) hc] at hu
      simp at hu
    · have heq : p.take (j + 1) = p := List.take_of_length_le (by omega)
      rw [heq, hdir] at hu
      simp at hu), hdir]
  simp

theorem lookup_dir_of_isDirAt_nosym (fs : FS) (p : Path)
    (hnos : ∀ j, j < p.length → ∀ u, lookupP fs (p.take (j + 1)) ≠ some (Node.symlink u))
    (h : isDirAt fs p = true) : lookupP fs p = some Node.dir := by
  unfold isDirAt at h
  rw [statNode_nosym fs p hnos] at h
  simpa using h

theorem mkdirSteps_entries (fs' : FS) (rest : Path) :
    ∀ (acc : Path) (fs : FS), mkdirSteps fs acc rest = some fs' →
      ∀ e ∈ fs', e ∈ fs ∨ e.2 = Node.dir := by
  induction rest with
  | nil =>
    intro acc fs h e he
    unfold mkdirSteps at h
    injection h with h
    left; rw [h]; exact he
  | cons c rest ih =>
    intro acc fs h e he
    unfold mkdirSteps at h
    rcases hl : lookupP fs (acc ++ [c]) with _ | n
    · simp only [hl] at h
      rcases ih (acc ++ [c]) _ h e he with hin | hdir
      · simp only [setP, eraseP] at hin
        rcases List.mem_cons.mp hin with hhead | htail
        · right; rw [hhead]
        · left; exact List.mem_of_mem_filter htail
      · right; exact hdir
    · cases n with
      | dir => simp only [hl] at h; exact ih (acc ++ [c]) fs h e he
      | file ct => simp only [hl] at h; exact Option.noConfusion h
      | symlink t => simp only [hl] at h; exact Option.noConfusion h

theorem mkdirSteps_keysReal (fs' : FS) (rest : Path) :
    ∀ (acc : Path) (fs : FS), mkdirSteps fs acc rest = some fs' →
      KeysReal fs → realChain fs acc = true → lookupP fs acc = some Node.dir →
      KeysReal fs' := by
  induction rest with
  | nil =>
    intro acc fs h hk _ _
    unfold mkdirSteps at h
    injection h with h
    rw [← h]; exact hk
  | cons c rest ih =>
    intro acc fs h hk hch hacc
    unfold mkdirSteps at h
    rcases hl : lookupP fs (acc ++ [c]) with _ | n
    · simp only [hl] at h
      have hch2 : realChain fs (acc ++ [c]) = true := by
        apply realChain_of_parent fs (acc ++ [c]) (by simp)
        · rw [List.dropLast_concat]; exact hch
        · rw [List.dropLast_concat]; exact hacc
      have hk2 := keysReal_setP fs (acc ++ [c]) Node.dir hk hch2 (by simp) (Or.inl rfl)
      refine ih (acc ++ [c]) _ h hk2 ?_ (lookupP_setP_self fs (acc ++ [c]) Node.dir (by simp))
      rw [realChain_iff]
      intro i hi
      have hi2 : i < acc.length + 1 := by simpa using hi
      rw [lookupP_setP_other fs (acc ++ [c]) _ Node.dir (by
        intro hcontra
        have := congrArg List.length hcontra
        rw [List.length_take] at this
        simp at this
        omega)]
      exact (realChain_iff fs (acc ++ [c])).mp hch2 i hi
    · cases n with
      | dir =>
        simp only [hl] at h
        have hch2 : realChain fs (acc ++ [c]) = true := by
          apply realChain_of_parent fs (acc ++ [c]) (by simp)
          · rw [List.dropLast_concat]; exact hch
          · rw [List.dropLast_concat]; exact hacc
        exact ih (acc ++ [c]) fs h hk hch2 hl
      | file ct => simp only [hl] at h; exact Option.noConfusion h
      | symlink t => simp only [hl] at h; exact Option.noConfusion h

end DF

namespace DF

/-- The static classification of a restore pair against the initial
state: the target is occupied and not by the empty-placeholder special
case, so the engine (with `force=false`) raises `ConflictError`. -/
def conflictPair (fs0 : FS) (pr : Path × Path) : Bool :=
  (lookupP fs0 pr.2).isSome && !(placeholderCond fs0 pr.2 pr.1)

/-- All `(source, target)` pairs of one whole `run_restore` over `fs0`,
in traversal order. -/
def pairList (fs0 : FS) (home source_root : Path) : List (Path × Path) :=
  match iterdirSorted fs0 source_root with
  | none => []
  | some tops => tops.flatMap (fun top => pairsForTop fs0 source_root home (lastComp top))

/-- The clean-state hypotheses of the amended idempotence claim: a
filesystem whose keys have real ancestor chains, holding no symlinks,
with the home root an existing real directory, home and repository
roots not nested in one another, every pair target strictly below home
and every pair source inside the repository, and the targets forming a
duplicate-free antichain. -/
def CleanRun (fs0 : FS) (home source_root : Path) : Prop :=
  (∀ e ∈ fs0, realChain fs0 e.1 = true)
  ∧ (∀ e ∈ fs0, isLinkNode e.2 = false)
  ∧ lookupP fs0 home = some Node.dir
  ∧ realChain fs0 home = true
  ∧ isPre home source_root = false
  ∧ isPre source_root home = false
  ∧ (∀ pr ∈ pairList fs0 home source_root, underHome home pr.2 = true)
  ∧ (∀ pr ∈ pairList fs0 home source_root, isPre source_root pr.1 = true)
  ∧ (∀ pr ∈ pairList fs0 home source_root, ∀ pr2 ∈ pairList fs0 home source_root,
      isPre pr.2 pr2.2 = true → pr.2 = pr2.2)
  ∧ ((pairList fs0 home source_root).map (fun pr => pr.2)).Nodup

/-- The run invariant of the first restore pass: with the pairs of
`done` already processed and those of `rest` still to come, the
filesystem agrees with `fs0` outside the home region, every occupied
path has a real chain, every symlink entry records a processed pair,
each processed pair either left its whole target subtree untouched (a
conflict) or holds exactly the fresh link, and the subtrees of
unprocessed targets are untouched. -/
def Inv (fs0 : FS) (home : Path) (done rest : List (Path × Path)) (fs : FS) : Prop :=
  regionEq home fs fs0
  ∧ KeysReal fs
  ∧ (∀ e ∈ fs, ∀ u, e.2 = Node.symlink u → (u, e.1) ∈ done)
  ∧ (∀ pr ∈ done, conflictPair fs0 pr = true →
      ∀ q, pr.2 <+: q → lookupP fs q = lookupP fs0 q)
  ∧ (∀ pr ∈ done, conflictPair fs0 pr = false →
      lookupP fs pr.2 = some (Node.symlink pr.1))
  ∧ (∀ pr ∈ rest, ∀ q, pr.2 <+: q → lookupP fs q = lookupP fs0 q)

theorem underHome_length (home t : Path) (hu : underHome home t = true) :
    home.length < t.length := by
  rw [underHome_iff] at hu
  have h1 := prefix_length_le hu.1
  rcases Nat.lt_or_ge home.length t.length with h | h
  · exact h
  · exact absurd (hu.1.eq_of_length (Nat.le_antisymm h1 h)).symm hu.2

theorem prefix_dropLast_of_under (home t : Path) (hu : underHome home t = true) :
    home <+: t.dropLast := by
  have hlen := underHome_length home t hu
  rw [underHome_iff] at hu
  have htake : home = t.take home.length := List.prefix_iff_eq_take.mp hu.1
  rw [List.dropLast_eq_take, htake]
  have h2 : t.take home.length = (t.take (t.length - 1)).take home.length := by
    rw [List.take_take, Nat.min_eq_left (by omega)]
  rw [h2]
  exact List.take_prefix _ _

theorem splitLast_of_ne_nil (p : Path) (hp : p ≠ []) :
    splitLast p = some (p.dropLast, p.getLast hp) := by
  have h := List.dropLast_append_getLast hp
  calc splitLast p = splitLast (p.dropLast ++ [p.getLast hp]) := by rw [h]
    _ = some (p.dropLast, p.getLast hp) := splitLast_append _ _

theorem sameSym_false_of_not_symlink (fs : FS) (t s : Path)
    (h : isSymlinkAt fs t = false) : isSameSymlink fs t s = false := by
  unfold isSameSymlink
  rw [h]
  simp

theorem sameFR_false (fs : FS) (t s : Path) (ht : resolveNS fs t = some t)
    (hs : resolveNS fs s = some s) (hne : t ≠ s) :
    isSameFileOrResolvesToSame fs t s = false := by
  unfold isSameFileOrResolvesToSame
  by_cases h1 : (!(pexists fs t) || !(pexists fs s)) = true
  · rw [if_pos h1]
  · rw [if_neg h1, ht, hs]
    simp [hne]

theorem repo_nosym (fs0 fs : FS) (home source_root : Path)
    (hsl : ∀ e ∈ fs0, isLinkNode e.2 = false)
    (hhs : isPre home source_root = false) (hsh : isPre source_root home = false)
    (hreg : regionEq home fs fs0) (x : Path) (hx : isPre source_root x = true) :
    ∀ j, j < x.length → ∀ u, lookupP fs (x.take (j + 1)) ≠ some (Node.symlink u) := by
  intro j hj u hu
  have hq0 : x.take (j + 1) ≠ [] := by
    intro h
    rw [List.take_eq_nil_iff] at h
    rcases h with h | h
    · exact Nat.succ_ne_zero j h
    · rw [h] at hj; simp at hj
  have hun : underHome home (x.take (j + 1)) = false :=
    underHome_false_of_repo home source_root x _ hhs hsh hx (List.take_prefix _ _)
  rw [lookupP_regionEq home fs fs0 hreg _ hun] at hu
  have := hsl _ (lookupP_mem fs0 _ _ hq0 hu)
  simp [isLinkNode] at this

theorem repo_resolve (fs0 fs : FS) (home source_root : Path)
    (hsl : ∀ e ∈ fs0, isLinkNode e.2 = false)
    (hhs : isPre home source_root = false) (hsh : isPre source_root home = false)
    (hreg : regionEq home fs fs0) (x : Path) (hx : isPre source_root x = true) :
    ∀ f acc, resolveSteps fs f acc x = some (acc ++ x) ∨ acc ≠ [] := by
  intro f acc
  by_cases h : acc = []
  · left
    subst h
    exact resolveSteps_nosym fs f x [] (by
      intro j hj u
      have := repo_nosym fs0 fs home source_root hsl hhs hsh hreg x hx j hj u
      simpa using this)
  · right; exact h

end DF

namespace DF

theorem underHome_ne_nil (home t : Path) (hu : underHome home t = true) : t ≠ [] := by
  intro h
  rw [underHome_iff] at hu
  rcases hu with ⟨h1, h2⟩
  rw [h] at h1 h2
  rw [List.prefix_nil] at h1
  exact h2 h1.symm

theorem target_strict_nosym (fs0 fs : FS) (home source_root : Path)
    (done rest1 : List (Path × Path)) (pr : Path × Path)
    (hdec : pairList fs0 home source_root = done ++ rest1)
    (hprP : pr ∈ pairList fs0 home source_root)
    (hanti : ∀ a ∈ pairList fs0 home source_root, ∀ b ∈ pairList fs0 home source_root,
      isPre a.2 b.2 = true → a.2 = b.2)
    (hS : ∀ e ∈ fs, ∀ u2, e.2 = Node.symlink u2 → (u2, e.1) ∈ done) :
    ∀ q, q <+: pr.2 → q ≠ pr.2 → ∀ u2, lookupP fs q ≠ some (Node.symlink u2) := by
  intro q hq hqne u2 hu2
  by_cases hq0 : q = []
  · subst hq0
    simp [lookupP] at hu2
  · have hmem := lookupP_mem fs q _ hq0 hu2
    have hdone := hS _ hmem u2 rfl
    have hqP : (u2, q) ∈ pairList fs0 home source_root := by
      rw [hdec]
      exact List.mem_append_left _ hdone
    exact hqne (hanti _ hqP _ hprP (by simpa [isPre] using hq))

theorem target_full_nosym (fs0 fs : FS) (home source_root : Path)
    (done rest1 : List (Path × Path)) (pr : Path × Path)
    (hdec : pairList fs0 home source_root = done ++ rest1)
    (hprP : pr ∈ pairList fs0 home source_root)
    (hanti : ∀ a ∈ pairList fs0 home source_root, ∀ b ∈ pairList fs0 home source_root,
      isPre a.2 b.2 = true → a.2 = b.2)
    (hS : ∀ e ∈ fs, ∀ u2, e.2 = Node.symlink u2 → (u2, e.1) ∈ done)
    (htne : ∀ u2, lookupP fs pr.2 ≠ some (Node.symlink u2)) :
    ∀ j, j < pr.2.length → ∀ u2, lookupP fs (pr.2.take (j + 1)) ≠ some (Node.symlink u2) := by
  intro j hj u2
  by_cases hc : j + 1 < pr.2.length
  · refine target_strict_nosym fs0 fs home source_root done rest1 pr hdec hprP hanti hS
      (pr.2.take (j + 1)) (List.take_prefix _ _) ?_ u2
    intro h
    have := congrArg List.length h
    rw [List.length_take] at this
    omega
  · have heq : pr.2.take (j + 1) = pr.2 := List.take_of_length_le (by omega)
    rw [heq]
    exact htne u2

theorem target_par_nosym (fs0 fs : FS) (home source_root : Path)
    (done rest1 : List (Path × Path)) (pr : Path × Path)
    (hdec : pairList fs0 home source_root = done ++ rest1)
    (hprP : pr ∈ pairList fs0 home source_root)
    (hanti : ∀ a ∈ pairList fs0 home source_root, ∀ b ∈ pairList fs0 home source_root,
      isPre a.2 b.2 = true → a.2 = b.2)
    (hS : ∀ e ∈ fs, ∀ u2, e.2 = Node.symlink u2 → (u2, e.1) ∈ done) :
    ∀ j, j < pr.2.dropLast.length → ∀ u2,
      lookupP fs (pr.2.dropLast.take (j + 1)) ≠ some (Node.symlink u2) := by
  intro j hj u2
  rw [List.length_dropLast] at hj
  have heq : pr.2.dropLast.take (j + 1) = pr.2.take (j + 1) := by
    rw [List.dropLast_eq_take, List.take_take, Nat.min_eq_left (by omega)]
  rw [heq]
  refine target_strict_nosym fs0 fs home source_root done rest1 pr hdec hprP hanti hS
    (pr.2.take (j + 1)) (List.take_prefix _ _) ?_ u2
  intro h
  have := congrArg List.length h
  rw [List.length_take] at this
  omega

theorem target_resolve (fs0 fs : FS) (home source_root : Path)
    (done rest1 : List (Path × Path)) (pr : Path × Path)
    (hdec : pairList fs0 home source_root = done ++ rest1)
    (hprP : pr ∈ pairList fs0 home source_root)
    (hanti : ∀ a ∈ pairList fs0 home source_root, ∀ b ∈ pairList fs0 home source_root,
      isPre a.2 b.2 = true → a.2 = b.2)
    (hS : ∀ e ∈ fs, ∀ u2, e.2 = Node.symlink u2 → (u2, e.1) ∈ done)
    (htne : ∀ u2, lookupP fs pr.2 ≠ some (Node.symlink u2)) :
    resolveNS fs pr.2 = some pr.2 := by
  unfold resolveNS
  have := resolveSteps_nosym fs (fsFuel fs) pr.2 [] (by
    intro j hj u2
    have := target_full_nosym fs0 fs home source_root done rest1 pr hdec hprP hanti hS htne j hj u2
    simpa using this)
  simpa using this

theorem source_resolve (fs0 fs : FS) (home source_root : Path)
    (hsl : ∀ e ∈ fs0, isLinkNode e.2 = false)
    (hhs : isPre home source_root = false) (hsh : isPre source_root home = false)
    (hreg : regionEq home fs fs0) (x : Path) (hx : isPre source_root x = true) :
    resolveNS fs x = some x := by
  unfold resolveNS
  have := resolveSteps_nosym fs (fsFuel fs) x [] (by
    intro j hj u2
    have := repo_nosym fs0 fs home source_root hsl hhs hsh hreg x hx j hj u2
    simpa using this)
  simpa using this

theorem target_ne_source (home source_root : Path) (pr : Path × Path)
    (hhs : isPre home source_root = false) (hsh : isPre source_root home = false)
    (hu : underHome home pr.2 = true) (hsrc : isPre source_root pr.1 = true) :
    pr.2 ≠ pr.1 := by
  intro h
  have := underHome_false_of_repo home source_root pr.1 pr.1 hhs hsh hsrc (List.prefix_refl _)
  rw [← h, hu] at this
  exact Bool.noConfusion this

theorem free_target_conds (fs0 fs : FS) (home source_root : Path)
    (done rest1 : List (Path × Path)) (pr : Path × Path)
    (hsl : ∀ e ∈ fs0, isLinkNode e.2 = false)
    (hhs : isPre home source_root = false) (hsh : isPre source_root home = false)
    (hu : underHome home pr.2 = true) (hsrc : isPre source_root pr.1 = true)
    (hdec : pairList fs0 home source_root = done ++ rest1)
    (hprP : pr ∈ pairList fs0 home source_root)
    (hanti : ∀ a ∈ pairList fs0 home source_root, ∀ b ∈ pairList fs0 home source_root,
      isPre a.2 b.2 = true → a.2 = b.2)
    (hS : ∀ e ∈ fs, ∀ u2, e.2 = Node.symlink u2 → (u2, e.1) ∈ done)
    (hreg : regionEq home fs fs0)
    (hn0 : lookupP fs pr.2 = none) :
    sameCond fs pr.2 pr.1 = false ∧ occCond fs pr.2 = false := by
  have htne : ∀ u2, lookupP fs pr.2 ≠ some (Node.symlink u2) := by
    intro u2 hc
    rw [hn0] at hc
    exact Option.noConfusion hc
  have hfull := target_full_nosym fs0 fs home source_root done rest1 pr hdec hprP hanti hS htne
  have ht0 := underHome_ne_nil home pr.2 hu
  have hsp := splitLast_of_ne_nil pr.2 ht0
  have hstat : statNode fs pr.2 = none := by
    rw [statNode_nosym fs pr.2 hfull, hn0]
  have hlst : lstatNode fs pr.2 = none := by
    rw [lstatNode_nosym fs pr.2 pr.2.dropLast _ hsp
      (target_par_nosym fs0 fs home source_root done rest1 pr hdec hprP hanti hS), hn0]
  have hsym : isSymlinkAt fs pr.2 = false := by
    unfold isSymlinkAt
    rw [hlst]
  have hpe : pexists fs pr.2 = false := by
    unfold pexists
    rw [hstat]
    rfl
  refine ⟨?_, ?_⟩
  · unfold sameCond
    rw [sameSym_false_of_not_symlink fs pr.2 pr.1 hsym,
      sameFR_false fs pr.2 pr.1
        (target_resolve fs0 fs home source_root done rest1 pr hdec hprP hanti hS htne)
        (source_resolve fs0 fs home source_root hsl hhs hsh hreg pr.1 hsrc)
        (target_ne_source home source_root pr hhs hsh hu hsrc)]
    rfl
  · unfold occCond
    rw [hpe, hsym]
    rfl

theorem occupied_target_conds (fs0 fs : FS) (home source_root : Path)
    (done rest1 : List (Path × Path)) (pr : Path × Path) (n : Node)
    (hch0 : ∀ e ∈ fs0, realChain fs0 e.1 = true)
    (hsl : ∀ e ∈ fs0, isLinkNode e.2 = false)
    (hhs : isPre home source_root = false) (hsh : isPre source_root home = false)
    (hu : underHome home pr.2 = true) (hsrc : isPre source_root pr.1 = true)
    (hdec : pairList fs0 home source_root = done ++ rest1)
    (hprP : pr ∈ pairList fs0 home source_root)
    (hanti : ∀ a ∈ pairList fs0 home source_root, ∀ b ∈ pairList fs0 home source_root,
      isPre a.2 b.2 = true → a.2 = b.2)
    (hS : ∀ e ∈ fs, ∀ u2, e.2 = Node.symlink u2 → (u2, e.1) ∈ done)
    (hKR : KeysReal fs) (hreg : regionEq home fs fs0)
    (hU : ∀ q, pr.2 <+: q → lookupP fs q = lookupP fs0 q)
    (hn : lookupP fs0 pr.2 = some n) :
    lookupP fs pr.2 = some n
    ∧ realChain fs pr.2 = true
    ∧ sameCond fs pr.2 pr.1 = false
    ∧ occCond fs pr.2 = true
    ∧ placeholderCond fs pr.2 pr.1 = placeholderCond fs0 pr.2 pr.1
    ∧ isDirAt fs pr.2.dropLast = true := by
  have ht0 := underHome_ne_nil home pr.2 hu
  have hft : lookupP fs pr.2 = some n := by
    rw [hU pr.2 (List.prefix_refl _)]
    exact hn
  have hchain : realChain fs pr.2 = true := hKR pr.2 n hft
  have hnsym : ∀ u2, n ≠ Node.symlink u2 := by
    intro u2 hc
    have := hsl _ (lookupP_mem fs0 pr.2 n ht0 hn)
    rw [hc] at this
    simp [isLinkNode] at this
  have hKR0 : KeysReal fs0 := keysReal_of_entries fs0 hch0
  have hch0t : realChain fs0 pr.2 = true := hKR0 pr.2 n hn
  have hsp := splitLast_of_ne_nil pr.2 ht0
  have hstat : statNode fs pr.2 = some n :=
    statNode_real_nonsym fs pr.2 pr.2.dropLast _ n hsp hchain hft hnsym
  have hstat0 : statNode fs0 pr.2 = some n :=
    statNode_real_nonsym fs0 pr.2 pr.2.dropLast _ n hsp hch0t hn hnsym
  have hlst : lstatNode fs pr.2 = some n := by
    rw [lstatNode_real fs pr.2 pr.2.dropLast _ hsp hchain, hft]
  have hlst0 : lstatNode fs0 pr.2 = some n := by
    rw [lstatNode_real fs0 pr.2 pr.2.dropLast _ hsp hch0t, hn]
  have htne : ∀ u2, lookupP fs pr.2 ≠ some (Node.symlink u2) := by
    intro u2 hc
    rw [hft] at hc
    exact hnsym u2 (Option.some.inj hc)
  have hsymf : isSymlinkAt fs pr.2 = false := by
    unfold isSymlinkAt
    rw [hlst]
    cases n with
    | symlink u2 => exact absurd rfl (hnsym u2)
    | file ct => rfl
    | dir => rfl
  have e1 : isDirAt fs pr.1 = isDirAt fs0 pr.1 := by
    unfold isDirAt
    rw [statNode_nosym fs pr.1 (repo_nosym fs0 fs home source_root hsl hhs hsh hreg pr.1 hsrc),
      statNode_nosym fs0 pr.1
        (repo_nosym fs0 fs0 home source_root hsl hhs hsh rfl pr.1 hsrc),
      lookupP_regionEq home fs fs0 hreg pr.1
        (underHome_false_of_repo home source_root pr.1 pr.1 hhs hsh hsrc (List.prefix_refl _))]
  have e2 : pexists fs pr.2 = pexists fs0 pr.2 := by
    unfold pexists
    rw [hstat, hstat0]
  have e3 : isDirAt fs pr.2 = isDirAt fs0 pr.2 := by
    unfold isDirAt
    rw [hstat, hstat0]
  have e4 : isSymlinkAt fs pr.2 = isSymlinkAt fs0 pr.2 := by
    unfold isSymlinkAt
    rw [hlst, hlst0]
  have e5 : hasEntry fs pr.2 = hasEntry fs0 pr.2 := by
    by_cases hB : hasEntry fs0 pr.2 = true
    · rw [hB]
      obtain ⟨q, hq1, hq2, hq3⟩ := (hasEntry_iff_lookup fs0 pr.2).mp hB
      refine (hasEntry_iff_lookup fs pr.2).mpr ⟨q, hq1, hq2, ?_⟩
      rw [hU q (by simpa [isPre] using hq1)]
      exact hq3
    · rw [Bool.not_eq_true] at hB
      rw [hB, ← Bool.not_eq_true]
      intro hcon
      obtain ⟨q, hq1, hq2, hq3⟩ := (hasEntry_iff_lookup fs pr.2).mp hcon
      rw [hU q (by simpa [isPre] using hq1)] at hq3
      have := (hasEntry_iff_lookup fs0 pr.2).mpr ⟨q, hq1, hq2, hq3⟩
      rw [hB] at this
      exact Bool.noConfusion this
  refine ⟨hft, hchain, ?_, ?_, ?_, ?_⟩
  · unfold sameCond
    rw [sameSym_false_of_not_symlink fs pr.2 pr.1 hsymf,
      sameFR_false fs pr.2 pr.1
        (target_resolve fs0 fs home source_root done rest1 pr hdec hprP hanti hS htne)
        (source_resolve fs0 fs home source_root hsl hhs hsh hreg pr.1 hsrc)
        (target_ne_source home source_root pr hhs hsh hu hsrc)]
    rfl
  · exact occCond_of_key fs pr.2 pr.2.dropLast _ n hsp hchain hft
  · unfold placeholderCond
    rw [e1, e2, e3, e4, e5]
  · exact isDirAt_of_chain_dir fs pr.2.dropLast (realChain_dropLast fs pr.2 hchain)
      (lookupP_dropLast_dir fs pr.2 ht0 hchain)

end DF

namespace DF

theorem mkdirp_noop (fs : FS) (p : Path) (d : Bool)
    (hdir : isDirAt fs p = true) : mkdirp fs p d = (Except.ok (), fs, []) := by
  unfold mkdirp
  rw [if_pos hdir]

theorem lookupP_nil (fs : FS) : lookupP fs [] = some Node.dir := by
  unfold lookupP
  rw [if_pos rfl]

theorem realChain_nil (fs : FS) : realChain fs [] = true :=
  (realChain_iff fs []).mpr (by intro i hi; simp at hi)

theorem linkPath_skip_of_linked (fs : FS) (t s : Path) (d f : Bool) (stamp : List Char)
    (ht0 : t ≠ []) (hchain : realChain fs t = true)
    (hk : lookupP fs t = some (Node.symlink s))
    (hres : ∀ f2, resolveSteps fs f2 [] s = some s) :
    linkPath fs t s d f stamp = ⟨Except.ok Action.SKIP, fs, [], []⟩ := by
  have hsp := splitLast_of_ne_nil t ht0
  have hdl := List.dropLast_append_getLast ht0
  have hsym : isSymlinkAt fs t = true := by
    unfold isSymlinkAt
    rw [lstatNode_real fs t t.dropLast _ hsp hchain, hk]
  have hdirs : ∀ j, j < t.dropLast.length →
      lookupP fs (([] : Path) ++ t.dropLast.take (j + 1)) = some Node.dir := by
    intro j hj
    rw [List.nil_append]
    rw [List.length_dropLast] at hj
    have h2 : t.dropLast.take (j + 1) = t.take (j + 1) := by
      rw [List.dropLast_eq_take, List.take_take, Nat.min_eq_left (by omega)]
    rw [h2]
    exact (realChain_iff fs t).mp hchain (j + 1) (by omega)
  have hrt : resolveNS fs t = some s := by
    unfold resolveNS
    calc resolveSteps fs (fsFuel fs) [] t
        = resolveSteps fs (fsFuel fs) [] (t.dropLast ++ [t.getLast ht0]) := by rw [hdl]
      _ = resolveSteps fs (fsFuel fs) t.dropLast [t.getLast ht0] := by
          rw [resolveSteps_append_dirs fs (fsFuel fs) t.dropLast [] [t.getLast ht0] hdirs]
          rw [List.nil_append]
      _ = some s := by
          rw [show fsFuel fs = fs.length + 1 from rfl,
            resolveSteps_cons_sym fs fs.length t.dropLast (t.getLast ht0) [] s
              (by rw [hdl]; exact hk)]
          simp only [hres fs.length]
          rw [resolveSteps_nil]
  have hrs : resolveNS fs s = some s := hres (fsFuel fs)
  have h1 : isSameSymlink fs t s = true := by
    unfold isSameSymlink
    rw [hsym]
    simp only [Bool.not_true, Bool.false_eq_true, if_false, hrt, hrs]
    simp
  exact linkPath_same fs t s d f stamp (by unfold sameCond; rw [h1, Bool.true_or])

theorem mkdirp_free_facts (fs0 fs fs1 : FS) (home source_root : Path)
    (done rest1 : List (Path × Path)) (pr : Path × Path) (u0 : Unit) (ev : List Event)
    (hdir0 : lookupP fs0 home = some Node.dir)
    (hch0h : realChain fs0 home = true)
    (hu : underHome home pr.2 = true)
    (hdec : pairList fs0 home source_root = done ++ rest1)
    (hprP : pr ∈ pairList fs0 home source_root)
    (hanti : ∀ a ∈ pairList fs0 home source_root, ∀ b ∈ pairList fs0 home source_root,
      isPre a.2 b.2 = true → a.2 = b.2)
    (hS : ∀ e ∈ fs, ∀ u2, e.2 = Node.symlink u2 → (u2, e.1) ∈ done)
    (hKR : KeysReal fs) (hreg : regionEq home fs fs0)
    (hm : mkdirp fs pr.2.dropLast false = (Except.ok u0, fs1, ev)) :
    regionEq home fs1 fs
    ∧ KeysReal fs1
    ∧ realChain fs1 pr.2 = true
    ∧ (∀ q, lookupP fs1 q = lookupP fs q
        ∨ (lookupP fs q = none ∧ lookupP fs1 q = some Node.dir
            ∧ q <+: pr.2.dropLast ∧ q ≠ []))
    ∧ (∀ e ∈ fs1, e ∈ fs ∨ e.2 = Node.dir) := by
  have ht0 := underHome_ne_nil home pr.2 hu
  have hpre : home <+: pr.2.dropLast := prefix_dropLast_of_under home pr.2 hu
  have hlen : home.length < pr.2.length := underHome_length home pr.2 hu
  have hhome_i : ∀ i, i ≤ home.length → lookupP fs (home.take i) = some Node.dir := by
    intro i hi
    rcases Nat.lt_or_ge i home.length with h | h
    · rw [lookupP_regionEq home fs fs0 hreg _ (underHome_take_home home i h)]
      exact (realChain_iff fs0 home).mp hch0h i h
    · have hieq : i = home.length := by omega
      rw [hieq, List.take_length]
      rw [lookupP_regionEq home fs fs0 hreg home (by
        rw [← Bool.not_eq_true]
        intro hcon
        rw [underHome_iff] at hcon
        exact hcon.2 rfl)]
      exact hdir0
  have hhtake : home = pr.2.dropLast.take home.length := List.prefix_iff_eq_take.mp hpre
  unfold mkdirp at hm
  by_cases hdir : isDirAt fs pr.2.dropLast = true
  · rw [if_pos hdir] at hm
    simp at hm
    obtain ⟨hfs1, _⟩ := hm
    subst hfs1
    have hpdir : lookupP fs pr.2.dropLast = some Node.dir :=
      lookup_dir_of_isDirAt_nosym fs pr.2.dropLast
        (target_par_nosym fs0 fs home source_root done rest1 pr hdec hprP hanti hS) hdir
    have hchpar : realChain fs pr.2.dropLast = true := by
      by_cases hdl0 : pr.2.dropLast = []
      · rw [hdl0]; exact realChain_nil fs
      · exact hKR pr.2.dropLast Node.dir hpdir
    refine ⟨rfl, hKR, realChain_of_parent fs pr.2 ht0 hchpar hpdir,
      fun q => Or.inl rfl, fun e he => Or.inl he⟩
  · rw [if_neg hdir] at hm
    by_cases hpe2 : (pexists fs pr.2.dropLast && !(isDirAt fs pr.2.dropLast)) = true
    · rw [if_pos hpe2] at hm
      simp at hm
    · rw [if_neg hpe2] at hm
      rw [if_neg (by simp)] at hm
      rcases hms : mkdirSteps fs [] pr.2.dropLast with _ | fs1'
      · rw [hms] at hm
        simp at hm
      · rw [hms] at hm
        simp at hm
        obtain ⟨hfs1, _⟩ := hm
        subst hfs1
        have hdrs := mkdirSteps_dirs fs1' pr.2.dropLast [] fs hms (lookupP_nil fs)
        have hfr := mkdirSteps_frame fs1' pr.2.dropLast [] fs hms
        refine ⟨?_, ?_, ?_, ?_, ?_⟩
        · refine mkdirSteps_region home fs1' pr.2.dropLast [] fs hms ?_
          intro i hi1 hi2
          rw [List.nil_append]
          rcases Nat.lt_or_ge home.length i with h | h
          · left
            rw [underHome_iff]
            constructor
            · have : home = (pr.2.dropLast.take i).take home.length := by
                rw [List.take_take, Nat.min_eq_left (by omega)]
                exact hhtake
              rw [this]
              exact List.take_prefix _ _
            · intro hcon
              have := congrArg List.length hcon
              rw [List.length_take] at this
              omega
          · right
            have : pr.2.dropLast.take i = home.take i := by
              rw [hhtake, List.take_take, Nat.min_eq_left h]
            rw [this]
            exact hhome_i i h
        · exact mkdirSteps_keysReal fs1' pr.2.dropLast [] fs hms hKR (realChain_nil fs)
            (lookupP_nil fs)
        · rw [realChain_iff]
          intro i hi
          have h2 : pr.2.take i = pr.2.dropLast.take i := by
            rw [List.dropLast_eq_take, List.take_take, Nat.min_eq_left (by omega)]
          rw [h2]
          have := hdrs i (by rw [List.length_dropLast]; omega)
          rw [List.nil_append] at this
          exact this
        · intro q
          rcases hfr q with heq | ⟨hnone, hdirq, i, hi1, hi2, hqe⟩
          · left; exact heq
          · right
            rw [List.nil_append] at hqe
            refine ⟨hnone, hdirq, by rw [hqe]; exact List.take_prefix _ _, ?_⟩
            rw [hqe]
            intro hcon
            rw [List.take_eq_nil_iff] at hcon
            rcases hcon with h | h
            · omega
            · rw [h] at hi2
              simp at hi2
              omega
        · exact mkdirSteps_entries fs1' pr.2.dropLast [] fs hms

end DF

namespace DF

theorem regionEq_trans (home : Path) (a b c : FS)
    (h1 : regionEq home a b) (h2 : regionEq home b c) : regionEq home a c := by
  unfold regionEq at h1 h2 ⊢
  rw [h1, h2]

theorem target_not_done_rest (fs0 : FS) (home source_root : Path)
    (done rest : List (Path × Path)) (pr : Path × Path)
    (hdec : pairList fs0 home source_root = done ++ pr :: rest)
    (hnod : ((pairList fs0 home source_root).map (fun x => x.2)).Nodup) :
    pr.2 ∉ done.map (fun x => x.2) ∧ pr.2 ∉ rest.map (fun x => x.2) := by
  rw [hdec, List.map_append, List.map_cons] at hnod
  constructor
  · intro hmem
    exact (List.disjoint_of_nodup_append hnod) hmem (List.mem_cons_self _ _)
  · intro hmem
    have h2 := (List.nodup_append.mp hnod).2.1
    rw [List.nodup_cons] at h2
    exact h2.1 hmem

theorem inv_rebuild_link (fs0 : FS) (home source_root : Path)
    (done rest : List (Path × Path)) (pr : Path × Path) (fs fs1 : FS)
    (hcr : CleanRun fs0 home source_root)
    (hdec : pairList fs0 home source_root = done ++ pr :: rest)
    (hcpf : conflictPair fs0 pr = false)
    (hInv : Inv fs0 home done (pr :: rest) fs)
    (hreg1 : regionEq home fs1 fs0) (hKR1 : KeysReal fs1)
    (hch1 : realChain fs1 pr.2 = true)
    (hn1 : lookupP fs1 pr.2 = none)
    (hfr : ∀ q, q ≠ pr.2 → lookupP fs1 q = lookupP fs q
        ∨ (lookupP fs q = none ∧ lookupP fs1 q = some Node.dir
            ∧ q <+: pr.2.dropLast ∧ q ≠ []))
    (hent : ∀ e ∈ fs1, e ∈ fs ∨ e.2 = Node.dir) :
    Inv fs0 home (done ++ [pr]) rest (setP fs1 pr.2 (Node.symlink pr.1)) := by
  obtain ⟨hch0, hsl, hdir0, hch0h, hhs, hsh, hUH, hSRC, hanti, hnod⟩ := hcr
  obtain ⟨hreg, hKR, hS, hDc, hDl, hU⟩ := hInv
  have hprP : pr ∈ pairList fs0 home source_root := by
    rw [hdec]
    exact List.mem_append_right _ (List.mem_cons_self _ _)
  have hu := hUH pr hprP
  have ht0 := underHome_ne_nil home pr.2 hu
  obtain ⟨hnotd, hnotr⟩ := target_not_done_rest fs0 home source_root done rest pr hdec hnod
  have hdone_nopre : ∀ pr2 ∈ done, ¬ (pr2.2 <+: pr.2) := by
    intro pr2 hmem hpre2
    have hprim : pr2 ∈ pairList fs0 home source_root := by
      rw [hdec]
      exact List.mem_append_left _ hmem
    have := hanti pr2 hprim pr hprP (by simpa [isPre] using hpre2)
    exact hnotd (this ▸ List.mem_map_of_mem _ hmem)
  have hrest_nopre : ∀ pr2 ∈ rest, ¬ (pr2.2 <+: pr.2) := by
    intro pr2 hmem hpre2
    have hprim : pr2 ∈ pairList fs0 home source_root := by
      rw [hdec]
      exact List.mem_append_right _ (List.mem_cons_of_mem _ hmem)
    have := hanti pr2 hprim pr hprP (by simpa [isPre] using hpre2)
    exact hnotr (this ▸ List.mem_map_of_mem _ hmem)
  refine ⟨?_, ?_, ?_, ?_, ?_, ?_⟩
  · exact regionEq_trans home _ _ _ (regionEq_setP home fs1 pr.2 _ hu) hreg1
  · exact keysReal_setP fs1 pr.2 _ hKR1 hch1 ht0 (Or.inr hn1)
  · intro e he u2 h2
    simp only [setP, eraseP] at he
    rcases List.mem_cons.mp he with hhead | htail
    · rw [hhead] at h2 ⊢
      simp only at h2
      injection h2 with h3
      rw [← h3]
      exact List.mem_append_right _ (by simp)
    · have he1 := List.mem_of_mem_filter htail
      rcases hent e he1 with hin | hdir2
      · exact List.mem_append_left _ (hS e hin u2 h2)
      · rw [hdir2] at h2
        exact Node.noConfusion h2
  · intro pr2 hmem hcp2 q hq
    rcases List.mem_append.mp hmem with hmd | hmp
    · have hqne : q ≠ pr.2 := by
        intro h
        exact hdone_nopre pr2 hmd (h ▸ hq)
      rw [lookupP_setP_other fs1 pr.2 q _ hqne]
      rcases hfr q hqne with heq | ⟨hnone, _, hqpre, _⟩
      · rw [heq]
        exact hDc pr2 hmd hcp2 q hq
      · exfalso
        exact hdone_nopre pr2 hmd (hq.trans (hqpre.trans (List.dropLast_prefix _)))
    · rw [List.mem_singleton.mp hmp] at hcp2
      rw [hcp2] at hcpf
      exact Bool.noConfusion hcpf
  · intro pr2 hmem hcp2
    rcases List.mem_append.mp hmem with hmd | hmp
    · have hqne : pr2.2 ≠ pr.2 := by
        intro h
        exact hnotd (h ▸ List.mem_map_of_mem _ hmd)
      rw [lookupP_setP_other fs1 pr.2 pr2.2 _ hqne]
      rcases hfr pr2.2 hqne with heq | ⟨hnone, _, _, _⟩
      · rw [heq]
        exact hDl pr2 hmd hcp2
      · exfalso
        rw [hDl pr2 hmd hcp2] at hnone
        exact Option.noConfusion hnone
    · rw [List.mem_singleton.mp hmp]
      exact lookupP_setP_self fs1 pr.2 _ ht0
  · intro pr2 hmem q hq
    have hqne : q ≠ pr.2 := by
      intro h
      exact hrest_nopre pr2 hmem (h ▸ hq)
    rw [lookupP_setP_other fs1 pr.2 q _ hqne]
    rcases hfr q hqne with heq | ⟨hnone, _, hqpre, _⟩
    · rw [heq]
      exact hU pr2 (List.mem_cons_of_mem _ hmem) q hq
    · exfalso
      exact hrest_nopre pr2 hmem (hq.trans (hqpre.trans (List.dropLast_prefix _)))

end DF

namespace DF

theorem step_run1 (fs0 : FS) (home source_root : Path) (stamp : List Char)
    (done rest : List (Path × Path)) (pr : Path × Path) (fs : FS)
    (L S C : Nat) (B : List Path)
    (hcr : CleanRun fs0 home source_root)
    (hdec : pairList fs0 home source_root = done ++ pr :: rest)
    (hInv : Inv fs0 home done (pr :: rest) fs)
    (hno : (stepPair linkPath false false stamp ⟨fs, L, S, C, B, none⟩ pr).abort = none) :
    Inv fs0 home (done ++ [pr]) rest
      (stepPair linkPath false false stamp ⟨fs, L, S, C, B, none⟩ pr).fs
    ∧ stepPair linkPath false false stamp ⟨fs, L, S, C, B, none⟩ pr
        = ⟨(stepPair linkPath false false stamp ⟨fs, L, S, C, B, none⟩ pr).fs,
           (if conflictPair fs0 pr = true then L else L + 1), S,
           (if conflictPair fs0 pr = true then C + 1 else C), B, none⟩ := by
  obtain ⟨hch0, hsl, hdir0, hch0h, hhs, hsh, hUH, hSRC, hanti, hnod⟩ := hcr
  obtain ⟨hreg, hKR, hS, hDc, hDl, hU⟩ := hInv
  have hprP : pr ∈ pairList fs0 home source_root := by
    rw [hdec]; exact List.mem_append_right _ (List.mem_cons_self _ _)
  have hu := hUH pr hprP
  have hsrc := hSRC pr hprP
  have ht0 := underHome_ne_nil home pr.2 hu
  have hUpr : ∀ q, pr.2 <+: q → lookupP fs q = lookupP fs0 q :=
    hU pr (List.mem_cons_self _ _)
  by_cases hcp : conflictPair fs0 pr = true
  · have hcp' := hcp
    unfold conflictPair at hcp'
    rw [Bool.and_eq_true] at hcp'
    obtain ⟨hcs, hcph⟩ := hcp'
    rcases hsome : lookupP fs0 pr.2 with _ | n
    · rw [hsome] at hcs; simp at hcs
    · obtain ⟨hft, hchain, hsame, hocc, hpheq, hpdir⟩ :=
        occupied_target_conds fs0 fs home source_root done (pr :: rest) pr n
          hch0 hsl hhs hsh hu hsrc hdec hprP hanti hS hKR hreg hUpr hsome
      have hph : placeholderCond fs pr.2 pr.1 = false := by
        rw [hpheq]
        rw [Bool.not_eq_true'] at hcph
        exact hcph
      have hmk := mkdirp_noop fs pr.2.dropLast false hpdir
      have hlp := linkPath_conflict fs pr.2 pr.1 false stamp hsame hocc hph
      have hstep : stepPair linkPath false false stamp ⟨fs, L, S, C, B, none⟩ pr
          = ⟨fs, L, S, C + 1, B, none⟩ := by
        unfold stepPair
        simp [hmk, hlp]
      rw [hstep]
      refine ⟨⟨hreg, hKR, ?_, ?_, ?_, ?_⟩, by simp [hcp]⟩
      · intro e he u2 h2
        exact List.mem_append_left _ (hS e he u2 h2)
      · intro pr2 hmem hcp2 q hq
        rcases List.mem_append.mp hmem with hmd | hmp
        · exact hDc pr2 hmd hcp2 q hq
        · rw [List.mem_singleton.mp hmp] at hq
          exact hUpr q hq
      · intro pr2 hmem hcp2
        rcases List.mem_append.mp hmem with hmd | hmp
        · exact hDl pr2 hmd hcp2
        · rw [List.mem_singleton.mp hmp] at hcp2
          rw [hcp2] at hcp
          exact Bool.noConfusion hcp
      · intro pr2 hmem q hq
        exact hU pr2 (List.mem_cons_of_mem _ hmem) q hq
  · rw [Bool.not_eq_true] at hcp
    rcases hsome : lookupP fs0 pr.2 with _ | n
    · have hflookup : lookupP fs pr.2 = none := by
        rw [hUpr pr.2 (List.prefix_refl _)]
        exact hsome
      rcases hm : mkdirp fs pr.2.dropLast false with ⟨r, fs1, ev⟩
      cases r with
      | error e =>
        exfalso
        unfold stepPair at hno
        simp [hm] at hno
      | ok u0 =>
        obtain ⟨hreg1, hKR1, hch1, hfr0, hent⟩ :=
          mkdirp_free_facts fs0 fs fs1 home source_root done (pr :: rest) pr u0 ev
            hdir0 hch0h hu hdec hprP hanti hS hKR hreg hm
        have hreg1' : regionEq home fs1 fs0 := regionEq_trans home _ _ _ hreg1 hreg
        have hn1 : lookupP fs1 pr.2 = none := by
          rcases hfr0 pr.2 with heq | ⟨_, _, hpre2, _⟩
          · rw [heq]; exact hflookup
          · exfalso
            have h1 := prefix_length_le hpre2
            rw [List.length_dropLast] at h1
            have h2 : 0 < pr.2.length := List.length_pos.mpr ht0
            omega
        have hS1 : ∀ e ∈ fs1, ∀ u2, e.2 = Node.symlink u2 → (u2, e.1) ∈ done := by
          intro e he u2 h2
          rcases hent e he with hin | hdir2
          · exact hS e hin u2 h2
          · rw [hdir2] at h2; exact Node.noConfusion h2
        obtain ⟨hsame1, hocc1⟩ :=
          free_target_conds fs0 fs1 home source_root done (pr :: rest) pr
            hsl hhs hsh hu hsrc hdec hprP hanti hS1 hreg1' hn1
        have hos : osSymlink fs1 pr.2 pr.1 = some (setP fs1 pr.2 (Node.symlink pr.1)) := by
          unfold osSymlink
          rw [if_pos (by
            rw [Bool.and_eq_true, Bool.and_eq_true]
            refine ⟨⟨hch1, by simp [hn1]⟩, by simp [ht0]⟩)]
        have hlp2 : linkPath fs1 pr.2 pr.1 false false stamp
            = ⟨Except.ok Action.LINK, setP fs1 pr.2 (Node.symlink pr.1),
               [Event.eLink pr.2 pr.1], []⟩ := by
          rw [linkPath_free fs1 pr.2 pr.1 false false stamp hsame1 hocc1]
          simp only [Bool.false_eq_true, if_false, hos]
        have hstep : stepPair linkPath false false stamp ⟨fs, L, S, C, B, none⟩ pr
            = ⟨setP fs1 pr.2 (Node.symlink pr.1), L + 1, S, C, B, none⟩ := by
          unfold stepPair
          simp [hm, hlp2]
        rw [hstep]
        refine ⟨?_, by simp [hcp]⟩
        exact inv_rebuild_link fs0 home source_root done rest pr fs fs1
          ⟨hch0, hsl, hdir0, hch0h, hhs, hsh, hUH, hSRC, hanti, hnod⟩ hdec hcp
          ⟨hreg, hKR, hS, hDc, hDl, hU⟩ hreg1' hKR1 hch1 hn1
          (fun q _ => hfr0 q) hent
    · have hph0 : placeholderCond fs0 pr.2 pr.1 = true := by
        unfold conflictPair at hcp
        rw [hsome] at hcp
        simp at hcp
        exact hcp
      obtain ⟨hft, hchain, hsame, hocc, hpheq, hpdir⟩ :=
        occupied_target_conds fs0 fs home source_root done (pr :: rest) pr n
          hch0 hsl hhs hsh hu hsrc hdec hprP hanti hS hKR hreg hUpr hsome
      have hph : placeholderCond fs pr.2 pr.1 = true := by rw [hpheq]; exact hph0
      have hKR0 : KeysReal fs0 := keysReal_of_entries fs0 hch0
      have hch0t : realChain fs0 pr.2 = true := hKR0 pr.2 n hsome
      have hnsym : ∀ u2, n ≠ Node.symlink u2 := by
        intro u2 hc
        have := hsl _ (lookupP_mem fs0 pr.2 n ht0 hsome)
        rw [hc] at this
        simp [isLinkNode] at this
      have hsp := splitLast_of_ne_nil pr.2 ht0
      have hstat0 : statNode fs0 pr.2 = some n :=
        statNode_real_nonsym fs0 pr.2 pr.2.dropLast _ n hsp hch0t hsome hnsym
      have hndir : n = Node.dir := by
        have hph0' := hph0
        unfold placeholderCond at hph0'
        simp only [Bool.and_eq_true] at hph0'
        obtain ⟨⟨⟨⟨_, _⟩, h3⟩, _⟩, _⟩ := hph0'
        unfold isDirAt at h3
        rw [hstat0] at h3
        simpa using h3
      have hph' := hph
      unfold placeholderCond at hph'
      simp only [Bool.and_eq_true] at hph'
      obtain ⟨⟨⟨⟨_, _⟩, _⟩, _⟩, hne5⟩ := hph'
      rw [Bool.not_eq_true'] at hne5
      have hftd : lookupP fs pr.2 = some Node.dir := by rw [hft, hndir]
      have hrm : osRmdir fs pr.2 = some (eraseP fs pr.2) := by
        unfold osRmdir
        rw [if_pos (by
          rw [Bool.and_eq_true, Bool.and_eq_true, Bool.and_eq_true]
          exact ⟨⟨⟨hchain, by simp [hftd]⟩, by simp [hne5]⟩, by simp [ht0]⟩)]
      have hch1 : realChain (eraseP fs pr.2) pr.2 = true := by
        rw [realChain_iff]
        intro i hi
        rw [lookupP_eraseP_other fs pr.2 _ (by
          intro h
          have := congrArg List.length h
          rw [List.length_take] at this
          omega)]
        exact (realChain_iff fs pr.2).mp hchain i hi
      have hn1 : lookupP (eraseP fs pr.2) pr.2 = none := lookupP_eraseP_self fs pr.2 ht0
      have hos : osSymlink (eraseP fs pr.2) pr.2 pr.1
          = some (setP (eraseP fs pr.2) pr.2 (Node.symlink pr.1)) := by
        unfold osSymlink
        rw [if_pos (by
          rw [Bool.and_eq_true, Bool.and_eq_true]
          exact ⟨⟨hch1, by simp [hn1]⟩, by simp [ht0]⟩)]
      have hlp2 : linkPath fs pr.2 pr.1 false false stamp
          = ⟨Except.ok Action.LINK, setP (eraseP fs pr.2) pr.2 (Node.symlink pr.1),
             [Event.eRmdir pr.2, Event.eLink pr.2 pr.1], []⟩ := by
        rw [linkPath_placeholder fs pr.2 pr.1 false false stamp hsame hocc hph]
        simp only [Bool.false_eq_true, if_false, hrm, hos]
      have hmk := mkdirp_noop fs pr.2.dropLast false hpdir
      have hstep : stepPair linkPath false false stamp ⟨fs, L, S, C, B, none⟩ pr
          = ⟨setP (eraseP fs pr.2) pr.2 (Node.symlink pr.1), L + 1, S, C, B, none⟩ := by
        unfold stepPair
        simp [hmk, hlp2]
      rw [hstep]
      refine ⟨?_, by simp [hcp]⟩
      refine inv_rebuild_link fs0 home source_root done rest pr fs (eraseP fs pr.2)
        ⟨hch0, hsl, hdir0, hch0h, hhs, hsh, hUH, hSRC, hanti, hnod⟩ hdec hcp
        ⟨hreg, hKR, hS, hDc, hDl, hU⟩ ?_ ?_ hch1 hn1 ?_ ?_
      · exact regionEq_trans home _ _ _ (regionEq_eraseP home fs pr.2 hu) hreg
      · exact keysReal_eraseP fs pr.2 hKR (no_lookup_under_empty_dir fs pr.2 hKR hne5)
      · intro q hq
        left
        exact lookupP_eraseP_other fs pr.2 q hq
      · intro e he
        left
        have he2 : e ∈ fs.filter (fun e2 => decide (e2.1 ≠ pr.2)) := he
        exact List.mem_of_mem_filter he2

end DF

namespace DF

theorem step_run2 (fs0 : FS) (home source_root : Path) (stamp : List Char)
    (pr : Path × Path) (g : FS) (L S C : Nat) (B : List Path)
    (hcr : CleanRun fs0 home source_root)
    (hprP : pr ∈ pairList fs0 home source_root)
    (hInv : Inv fs0 home (pairList fs0 home source_root) [] g) :
    stepPair linkPath false false stamp ⟨g, L, S, C, B, none⟩ pr
      = ⟨g, L, (if conflictPair fs0 pr = true then S else S + 1),
         (if conflictPair fs0 pr = true then C + 1 else C), B, none⟩ := by
  obtain ⟨hch0, hsl, hdir0, hch0h, hhs, hsh, hUH, hSRC, hanti, hnod⟩ := hcr
  obtain ⟨hreg, hKR, hS, hDc, hDl, _⟩ := hInv
  have hu := hUH pr hprP
  have hsrc := hSRC pr hprP
  have ht0 := underHome_ne_nil home pr.2 hu
  have hdec0 : pairList fs0 home source_root = pairList fs0 home source_root ++ [] := by simp
  by_cases hcp : conflictPair fs0 pr = true
  · have hcp' := hcp
    unfold conflictPair at hcp'
    rw [Bool.and_eq_true] at hcp'
    obtain ⟨hcs, hcph⟩ := hcp'
    rcases hsome : lookupP fs0 pr.2 with _ | n
    · rw [hsome] at hcs; simp at hcs
    · have hUpr : ∀ q, pr.2 <+: q → lookupP g q = lookupP fs0 q :=
        hDc pr hprP hcp
      obtain ⟨hft, hchain, hsame, hocc, hpheq, hpdir⟩ :=
        occupied_target_conds fs0 g home source_root (pairList fs0 home source_root) [] pr n
          hch0 hsl hhs hsh hu hsrc hdec0 hprP hanti hS hKR hreg hUpr hsome
      have hph : placeholderCond g pr.2 pr.1 = false := by
        rw [hpheq]
        rw [Bool.not_eq_true'] at hcph
        exact hcph
      have hmk := mkdirp_noop g pr.2.dropLast false hpdir
      have hlp := linkPath_conflict g pr.2 pr.1 false stamp hsame hocc hph
      rw [if_pos hcp, if_pos hcp]
      unfold stepPair
      simp [hmk, hlp]
  · rw [Bool.not_eq_true] at hcp
    have hk : lookupP g pr.2 = some (Node.symlink pr.1) := hDl pr hprP hcp
    have hchain : realChain g pr.2 = true := hKR pr.2 _ hk
    have hpdir : isDirAt g pr.2.dropLast = true :=
      isDirAt_of_chain_dir g pr.2.dropLast (realChain_dropLast g pr.2 hchain)
        (lookupP_dropLast_dir g pr.2 ht0 hchain)
    have hmk := mkdirp_noop g pr.2.dropLast false hpdir
    have hres : ∀ f2, resolveSteps g f2 [] pr.1 = some pr.1 := by
      intro f2
      have := resolveSteps_nosym g f2 pr.1 [] (by
        intro j hj u2
        have := repo_nosym fs0 g home source_root hsl hhs hsh hreg pr.1 hsrc j hj u2
        simpa using this)
      simpa using this
    have hskip := linkPath_skip_of_linked g pr.2 pr.1 false false stamp ht0 hchain hk hres
    rw [if_neg (by rw [hcp]; simp), if_neg (by rw [hcp]; simp)]
    unfold stepPair
    simp [hmk, hskip]

theorem filter_repo_eq (fs0 fs : FS) (home : Path) (P2 : Path × Node → Bool)
    (hP : ∀ e, P2 e = true → underHome home e.1 = false)
    (hreg : regionEq home fs fs0) :
    fs.filter P2 = fs0.filter P2 := by
  have h1 : fs.filter P2 = (fs.filter (fun e => !(underHome home e.1))).filter P2 :=
    (filter_subpred fs P2 _ (fun e he => by rw [hP e he]; rfl)).symm
  rw [h1, hreg, filter_subpred fs0 P2 _ (fun e he => by rw [hP e he]; rfl)]

theorem isDirAt_repo_eq (fs0 fs : FS) (home source_root : Path)
    (hsl : ∀ e ∈ fs0, isLinkNode e.2 = false)
    (hhs : isPre home source_root = false) (hsh : isPre source_root home = false)
    (hreg : regionEq home fs fs0) (x : Path) (hx : isPre source_root x = true) :
    isDirAt fs x = isDirAt fs0 x := by
  unfold isDirAt
  rw [statNode_nosym fs x (repo_nosym fs0 fs home source_root hsl hhs hsh hreg x hx),
    statNode_nosym fs0 x (repo_nosym fs0 fs0 home source_root hsl hhs hsh rfl x hx),
    lookupP_regionEq home fs fs0 hreg x
      (underHome_false_of_repo home source_root x x hhs hsh hx (List.prefix_refl _))]

theorem rglob_repo_eq (fs0 fs : FS) (home source_root : Path)
    (hhs : isPre home source_root = false) (hsh : isPre source_root home = false)
    (hreg : regionEq home fs fs0) (top : Path) (htop : isPre source_root top = true) :
    rglobSorted fs top = rglobSorted fs0 top := by
  unfold rglobSorted
  rw [filter_repo_eq fs0 fs home _ (by
    intro e he
    rw [Bool.and_eq_true] at he
    have h1 : isPre source_root e.1 = true := by
      simp only [isPre, decide_eq_true_eq] at htop he ⊢
      exact htop.trans he.1
    exact underHome_false_of_repo home source_root e.1 e.1 hhs hsh h1 (List.prefix_refl _))
    hreg]

theorem mem_rglob (fs : FS) (top sp : Path) (hsp : sp ∈ rglobSorted fs top) :
    isPre top sp = true := by
  unfold rglobSorted sortPaths at hsp
  have hperm := List.perm_insertionSort
    (fun a b => lexLe (joinSlash a) (joinSlash b) = true)
    ((fs.filter (fun e => isPre top e.1 && decide (top.length < e.1.length))).map
      (fun e => e.1))
  have hmem := hperm.mem_iff.mp hsp
  obtain ⟨e, he, hee⟩ := List.mem_map.mp hmem
  have := List.of_mem_filter he
  rw [Bool.and_eq_true] at this
  rw [← hee]
  exact this.1

theorem pairsForTop_region_eq (fs0 fs : FS) (home source_root : Path)
    (hsl : ∀ e ∈ fs0, isLinkNode e.2 = false)
    (hhs : isPre home source_root = false) (hsh : isPre source_root home = false)
    (hreg : regionEq home fs fs0) (name : Comp) :
    pairsForTop fs source_root home name = pairsForTop fs0 source_root home name := by
  unfold pairsForTop
  by_cases hig : IGNORE_DIRS.contains name = true
  · rw [if_pos hig, if_pos hig]
  · rw [if_neg hig, if_neg hig]
    dsimp only
    have htop : isPre source_root (source_root ++ [name]) = true := isPre_append _ _
    rw [isDirAt_repo_eq fs0 fs home source_root hsl hhs hsh hreg _ htop]
    by_cases hdir : isDirAt fs0 (source_root ++ [name]) = true
    · rw [if_pos hdir, if_pos hdir]
      by_cases hcfg : (("config__".data : Comp).isPrefixOf name) = true
      · rw [if_pos hcfg, if_pos hcfg]
      · rw [if_neg hcfg, if_neg hcfg]
        rw [rglob_repo_eq fs0 fs home source_root hhs hsh hreg _ htop]
        refine List.filterMap_congr ?_
        intro sp hsp
        have hsp2 : isPre source_root sp = true := by
          have h1 := mem_rglob fs0 (source_root ++ [name]) sp hsp
          simp only [isPre, decide_eq_true_eq] at htop h1 ⊢
          exact htop.trans h1
        rw [isDirAt_repo_eq fs0 fs home source_root hsl hhs hsh hreg sp hsp2]
    · rw [if_neg hdir, if_neg hdir]

theorem iterdir_region_eq (fs0 fs : FS) (home source_root : Path)
    (hhs : isPre home source_root = false) (hsh : isPre source_root home = false)
    (hreg : regionEq home fs fs0) :
    iterdirSorted fs source_root = iterdirSorted fs0 source_root := by
  unfold iterdirSorted
  have hun : underHome home source_root = false := by
    rw [← Bool.not_eq_true]
    intro hcon
    rw [underHome_iff] at hcon
    rw [isPre] at hhs
    simp at hhs
    exact hhs hcon.1
  rw [lookupP_regionEq home fs fs0 hreg source_root hun]
  by_cases hd : lookupP fs0 source_root = some Node.dir
  · rw [if_pos hd, if_pos hd]
    rw [filter_repo_eq fs0 fs home _ (by
      intro e he
      rw [Bool.and_eq_true] at he
      exact underHome_false_of_repo home source_root e.1 e.1 hhs hsh he.1
        (List.prefix_refl _)) hreg]
  · rw [if_neg hd, if_neg hd]

end DF

namespace DF

theorem stepPair_abort_some (link : FS → Path → Path → Bool → Bool → List Char → LinkOut)
    (d f : Bool) (stamp : List Char) (acc : RunResult) (pr : Path × Path)
    (h : acc.abort.isSome = true) :
    stepPair link d f stamp acc pr = acc := by
  unfold stepPair
  rw [if_pos h]

theorem foldl_abort_some (link : FS → Path → Path → Bool → Bool → List Char → LinkOut)
    (d f : Bool) (stamp : List Char) (l : List (Path × Path)) :
    ∀ acc : RunResult, acc.abort.isSome = true →
      l.foldl (stepPair link d f stamp) acc = acc := by
  induction l with
  | nil => intro acc _; rfl
  | cons pr l ih =>
    intro acc h
    rw [List.foldl_cons, stepPair_abort_some link d f stamp acc pr h]
    exact ih acc h

theorem fold_run1 (fs0 : FS) (home source_root : Path) (stamp : List Char)
    (hcr : CleanRun fs0 home source_root) :
    ∀ (chunk done after : List (Path × Path)) (fs : FS) (L S C : Nat) (B : List Path),
      pairList fs0 home source_root = done ++ (chunk ++ after) →
      Inv fs0 home done (chunk ++ after) fs →
      (chunk.foldl (stepPair linkPath false false stamp) ⟨fs, L, S, C, B, none⟩).abort = none →
      ∃ g, chunk.foldl (stepPair linkPath false false stamp) ⟨fs, L, S, C, B, none⟩
          = ⟨g, L + (chunk.length - chunk.countP (conflictPair fs0)), S,
             C + chunk.countP (conflictPair fs0), B, none⟩
        ∧ Inv fs0 home (done ++ chunk) after g := by
  intro chunk
  induction chunk with
  | nil =>
    intro done after fs L S C B hdec hInv _
    exact ⟨fs, by simp, by simpa using hInv⟩
  | cons pr chunk ih =>
    intro done after fs L S C B hdec hInv hno
    have hdec1 : pairList fs0 home source_root = done ++ pr :: (chunk ++ after) := by
      rw [hdec]
      simp
    have hInv1 : Inv fs0 home done (pr :: (chunk ++ after)) fs := hInv
    have hno1 : (stepPair linkPath false false stamp ⟨fs, L, S, C, B, none⟩ pr).abort
        = none := by
      rcases hab : (stepPair linkPath false false stamp ⟨fs, L, S, C, B, none⟩ pr).abort
        with _ | e
      · rfl
      · exfalso
        rw [List.foldl_cons,
          foldl_abort_some linkPath false false stamp chunk _ (by rw [hab]; rfl),
          hab] at hno
        exact Option.noConfusion hno
    obtain ⟨hInv2, hstep⟩ := step_run1 fs0 home source_root stamp done (chunk ++ after) pr fs
      L S C B hcr hdec1 hInv1 hno1
    rw [List.foldl_cons] at hno ⊢
    rw [hstep] at hno ⊢
    by_cases hcp : conflictPair fs0 pr = true
    · rw [if_pos hcp, if_pos hcp] at hno ⊢
      obtain ⟨g, hfold, hInvg⟩ := ih (done ++ [pr]) after _ L S (C + 1) B
        (by rw [hdec1]; simp) hInv2 hno
      refine ⟨g, ?_, ?_⟩
      · rw [hfold]
        have hle : chunk.countP (conflictPair fs0) ≤ chunk.length := List.countP_le_length _
        simp only [RunResult.mk.injEq, List.countP_cons, List.length_cons, hcp, if_true,
          eq_self_iff_true, true_and, and_true]
        omega
      · rw [List.append_assoc, List.singleton_append] at hInvg
        exact hInvg
    · rw [Bool.not_eq_true] at hcp
      rw [if_neg (by rw [hcp]; simp), if_neg (by rw [hcp]; simp)] at hno ⊢
      obtain ⟨g, hfold, hInvg⟩ := ih (done ++ [pr]) after _ (L + 1) S C B
        (by rw [hdec1]; simp) hInv2 hno
      refine ⟨g, ?_, ?_⟩
      · rw [hfold]
        have hle : chunk.countP (conflictPair fs0) ≤ chunk.length := List.countP_le_length _
        simp only [RunResult.mk.injEq, List.countP_cons, List.length_cons, hcp,
          Bool.false_eq_true, if_false, eq_self_iff_true, true_and, and_true]
        omega
      · rw [List.append_assoc, List.singleton_append] at hInvg
        exact hInvg

theorem fold_run2 (fs0 : FS) (home source_root : Path) (stamp : List Char)
    (hcr : CleanRun fs0 home source_root) (g : FS)
    (hInv : Inv fs0 home (pairList fs0 home source_root) [] g) :
    ∀ (chunk : List (Path × Path)) (L S C : Nat) (B : List Path),
      (∀ pr ∈ chunk, pr ∈ pairList fs0 home source_root) →
      chunk.foldl (stepPair linkPath false false stamp) ⟨g, L, S, C, B, none⟩
        = ⟨g, L, S + (chunk.length - chunk.countP (conflictPair fs0)),
           C + chunk.countP (conflictPair fs0), B, none⟩ := by
  intro chunk
  induction chunk with
  | nil => intro L S C B _; simp
  | cons pr chunk ih =>
    intro L S C B hsub
    rw [List.foldl_cons,
      step_run2 fs0 home source_root stamp pr g L S C B hcr
        (hsub pr (List.mem_cons_self _ _)) hInv]
    have hle : chunk.countP (conflictPair fs0) ≤ chunk.length := List.countP_le_length _
    by_cases hcp : conflictPair fs0 pr = true
    · rw [if_pos hcp, if_pos hcp]
      rw [ih L S (C + 1) B (fun x hx => hsub x (List.mem_cons_of_mem _ hx))]
      simp only [RunResult.mk.injEq, List.countP_cons, List.length_cons, hcp, if_true,
        eq_self_iff_true, true_and, and_true]
      omega
    · rw [Bool.not_eq_true] at hcp
      rw [if_neg (by rw [hcp]; simp), if_neg (by rw [hcp]; simp)]
      rw [ih L (S + 1) C B (fun x hx => hsub x (List.mem_cons_of_mem _ hx))]
      simp only [RunResult.mk.injEq, List.countP_cons, List.length_cons, hcp,
        Bool.false_eq_true, if_false, eq_self_iff_true, true_and, and_true]
      omega

end DF

namespace DF

theorem nestBody_abort_some (home source_root : Path) (stamp : List Char) (ts : List Path) :
    ∀ acc : RunResult, acc.abort.isSome = true →
      ts.foldl (fun (acc : RunResult) top =>
        if acc.abort.isSome then acc
        else (pairsForTop acc.fs source_root home (lastComp top)).foldl
          (stepPair linkPath false false stamp) acc) acc = acc := by
  induction ts with
  | nil => intro acc _; rfl
  | cons t ts ih =>
    intro acc h
    simp only [List.foldl_cons, h, if_true]
    exact ih acc h

theorem nest_run1 (fs0 : FS) (home source_root : Path) (stamp : List Char)
    (hcr : CleanRun fs0 home source_root) :
    ∀ (ts : List Path) (done : List (Path × Path)) (fs : FS) (L S C : Nat) (B : List Path),
      pairList fs0 home source_root
        = done ++ ts.flatMap (fun top => pairsForTop fs0 source_root home (lastComp top)) →
      Inv fs0 home done
        (ts.flatMap (fun top => pairsForTop fs0 source_root home (lastComp top))) fs →
      (ts.foldl (fun (acc : RunResult) top =>
          if acc.abort.isSome then acc
          else (pairsForTop acc.fs source_root home (lastComp top)).foldl
            (stepPair linkPath false false stamp) acc) ⟨fs, L, S, C, B, none⟩).abort = none →
      ∃ g, ts.foldl (fun (acc : RunResult) top =>
          if acc.abort.isSome then acc
          else (pairsForTop acc.fs source_root home (lastComp top)).foldl
            (stepPair linkPath false false stamp) acc) ⟨fs, L, S, C, B, none⟩
          = ⟨g,
             L + ((ts.flatMap (fun top => pairsForTop fs0 source_root home (lastComp top))).length
               - (ts.flatMap (fun top => pairsForTop fs0 source_root home (lastComp top))).countP
                   (conflictPair fs0)),
             S,
             C + (ts.flatMap (fun top => pairsForTop fs0 source_root home (lastComp top))).countP
                   (conflictPair fs0),
             B, none⟩
        ∧ Inv fs0 home
            (done ++ ts.flatMap (fun top => pairsForTop fs0 source_root home (lastComp top)))
            [] g := by
  intro ts
  induction ts with
  | nil =>
    intro done fs L S C B hdec hInv _
    exact ⟨fs, by simp, by simpa using hInv⟩
  | cons top ts ih =>
    intro done fs L S C B hdec hInv hno
    have hcr' := hcr
    obtain ⟨hch0, hsl, hdir0, hch0h, hhs, hsh, hUH, hSRC, hanti, hnod⟩ := hcr'
    have hreg : regionEq home fs fs0 := hInv.1
    simp only [List.foldl_cons, Option.isSome_none, Bool.false_eq_true, if_false] at hno ⊢
    rw [pairsForTop_region_eq fs0 fs home source_root hsl hhs hsh hreg (lastComp top)]
      at hno ⊢
    have hnoIn : ((pairsForTop fs0 source_root home (lastComp top)).foldl
        (stepPair linkPath false false stamp) ⟨fs, L, S, C, B, none⟩).abort = none := by
      rcases hab : ((pairsForTop fs0 source_root home (lastComp top)).foldl
          (stepPair linkPath false false stamp) ⟨fs, L, S, C, B, none⟩).abort with _ | e
      · rfl
      · exfalso
        rw [nestBody_abort_some home source_root stamp ts _ (by rw [hab]; rfl), hab] at hno
        exact Option.noConfusion hno
    have hdec1 : pairList fs0 home source_root
        = done ++ (pairsForTop fs0 source_root home (lastComp top)
            ++ ts.flatMap (fun top => pairsForTop fs0 source_root home (lastComp top))) := by
      rw [hdec, List.flatMap_cons]
    have hInvA : Inv fs0 home done
        (pairsForTop fs0 source_root home (lastComp top)
          ++ ts.flatMap (fun top => pairsForTop fs0 source_root home (lastComp top))) fs := by
      have h2 := hInv
      rw [List.flatMap_cons] at h2
      exact h2
    obtain ⟨g1, hfold1, hInv1⟩ := fold_run1 fs0 home source_root stamp hcr
      (pairsForTop fs0 source_root home (lastComp top)) done
      (ts.flatMap (fun top => pairsForTop fs0 source_root home (lastComp top)))
      fs L S C B hdec1 hInvA hnoIn
    rw [hfold1] at hno ⊢
    obtain ⟨g, hfold2, hInv2⟩ := ih
      (done ++ pairsForTop fs0 source_root home (lastComp top)) g1 _ _ _ B
      (by rw [hdec1, List.append_assoc]) hInv1 hno
    refine ⟨g, ?_, ?_⟩
    · rw [hfold2]
      have hle1 : (pairsForTop fs0 source_root home (lastComp top)).countP (conflictPair fs0)
          ≤ (pairsForTop fs0 source_root home (lastComp top)).length :=
        List.countP_le_length _
      have hle2 : (ts.flatMap (fun top => pairsForTop fs0 source_root home
            (lastComp top))).countP (conflictPair fs0)
          ≤ (ts.flatMap (fun top => pairsForTop fs0 source_root home (lastComp top))).length :=
        List.countP_le_length _
      simp only [RunResult.mk.injEq, List.flatMap_cons, List.countP_append, List.length_append,
        eq_self_iff_true, true_and, and_true]
      omega
    · rw [List.flatMap_cons, ← List.append_assoc]
      exact hInv2

theorem nest_run2 (fs0 : FS) (home source_root : Path) (stamp : List Char)
    (hcr : CleanRun fs0 home source_root) (g : FS)
    (hInv : Inv fs0 home (pairList fs0 home source_root) [] g) :
    ∀ (ts : List Path) (L S C : Nat) (B : List Path),
      (∀ pr ∈ ts.flatMap (fun top => pairsForTop fs0 source_root home (lastComp top)),
        pr ∈ pairList fs0 home source_root) →
      ts.foldl (fun (acc : RunResult) top =>
          if acc.abort.isSome then acc
          else (pairsForTop acc.fs source_root home (lastComp top)).foldl
            (stepPair linkPath false false stamp) acc) ⟨g, L, S, C, B, none⟩
        = ⟨g, L,
           S + ((ts.flatMap (fun top => pairsForTop fs0 source_root home (lastComp top))).length
             - (ts.flatMap (fun top => pairsForTop fs0 source_root home (lastComp top))).countP
                 (conflictPair fs0)),
           C + (ts.flatMap (fun top => pairsForTop fs0 source_root home (lastComp top))).countP
                 (conflictPair fs0),
           B, none⟩ := by
  have hcr' := hcr
  obtain ⟨hch0, hsl, hdir0, hch0h, hhs, hsh, hUH, hSRC, hanti, hnod⟩ := hcr'
  have hreg : regionEq home g fs0 := hInv.1
  intro ts
  induction ts with
  | nil => intro L S C B _; simp
  | cons top ts ih =>
    intro L S C B hsub
    simp only [List.foldl_cons, Option.isSome_none, Bool.false_eq_true, if_false]
    rw [pairsForTop_region_eq fs0 g home source_root hsl hhs hsh hreg (lastComp top)]
    rw [fold_run2 fs0 home source_root stamp hcr g hInv
      (pairsForTop fs0 source_root home (lastComp top)) L S C B
      (fun pr hpr => hsub pr (by rw [List.flatMap_cons]; exact List.mem_append_left _ hpr))]
    rw [ih _ _ _ B
      (fun pr hpr => hsub pr (by rw [List.flatMap_cons]; exact List.mem_append_right _ hpr))]
    have hle1 : (pairsForTop fs0 source_root home (lastComp top)).countP (conflictPair fs0)
        ≤ (pairsForTop fs0 source_root home (lastComp top)).length :=
      List.countP_le_length _
    have hle2 : (ts.flatMap (fun top => pairsForTop fs0 source_root home
          (lastComp top))).countP (conflictPair fs0)
        ≤ (ts.flatMap (fun top => pairsForTop fs0 source_root home (lastComp top))).length :=
      List.countP_le_length _
    simp only [RunResult.mk.injEq, List.flatMap_cons, List.countP_append, List.length_append,
      eq_self_iff_true, true_and, and_true]
    omega

theorem runRestore_first (fs0 : FS) (home source_root : Path) (stamp : List Char)
    (hcr : CleanRun fs0 home source_root)
    (hab : (runRestore fs0 home source_root false false stamp).abort = none) :
    ∃ g tops, iterdirSorted fs0 source_root = some tops
      ∧ runRestore fs0 home source_root false false stamp
          = ⟨g, (pairList fs0 home source_root).length
              - (pairList fs0 home source_root).countP (conflictPair fs0), 0,
             (pairList fs0 home source_root).countP (conflictPair fs0), [], none⟩
      ∧ Inv fs0 home (pairList fs0 home source_root) [] g := by
  have hcr' := hcr
  obtain ⟨hch0, hsl, hdir0, hch0h, hhs, hsh, hUH, hSRC, hanti, hnod⟩ := hcr'
  rcases hit : iterdirSorted fs0 source_root with _ | tops
  · exfalso
    have hrun : runRestore fs0 home source_root false false stamp
        = ⟨fs0, 0, 0, 0, [], some Err.oserr⟩ := by
      unfold runRestore runRestoreWith
      rw [hit]
    rw [hrun] at hab
    simp at hab
  · have hrun : runRestore fs0 home source_root false false stamp
        = tops.foldl (fun (acc : RunResult) top =>
            if acc.abort.isSome then acc
            else (pairsForTop acc.fs source_root home (lastComp top)).foldl
              (stepPair linkPath false false stamp) acc) ⟨fs0, 0, 0, 0, [], none⟩ := by
      unfold runRestore runRestoreWith
      rw [hit]
    rw [hrun] at hab ⊢
    have hPL : pairList fs0 home source_root
        = tops.flatMap (fun top => pairsForTop fs0 source_root home (lastComp top)) := by
      unfold pairList
      rw [hit]
    have hInv0 : Inv fs0 home []
        (tops.flatMap (fun top => pairsForTop fs0 source_root home (lastComp top))) fs0 := by
      refine ⟨rfl, keysReal_of_entries fs0 hch0, ?_, ?_, ?_, ?_⟩
      · intro e he u2 h2
        have := hsl e he
        rw [h2] at this
        simp [isLinkNode] at this
      · intro pr hpr
        exact absurd hpr (List.not_mem_nil pr)
      · intro pr hpr
        exact absurd hpr (List.not_mem_nil pr)
      · intro pr _ q _
        rfl
    obtain ⟨g, hfold, hInvg⟩ := nest_run1 fs0 home source_root stamp hcr tops [] fs0 0 0 0 []
      (by rw [hPL]; simp) hInv0 hab
    refine ⟨g, tops, rfl, ?_, by rw [hPL]; simpa using hInvg⟩
    rw [hfold, hPL]
    simp

theorem runRestore_second (fs0 : FS) (home source_root : Path) (stamp : List Char)
    (hcr : CleanRun fs0 home source_root) (g : FS) (tops : List Path)
    (hit : iterdirSorted fs0 source_root = some tops)
    (hInv : Inv fs0 home (pairList fs0 home source_root) [] g) :
    runRestore g home source_root false false stamp
      = ⟨g, 0, (pairList fs0 home source_root).length
          - (pairList fs0 home source_root).countP (conflictPair fs0),
         (pairList fs0 home source_root).countP (conflictPair fs0), [], none⟩ := by
  have hcr' := hcr
  obtain ⟨hch0, hsl, hdir0, hch0h, hhs, hsh, hUH, hSRC, hanti, hnod⟩ := hcr'
  have hreg : regionEq home g fs0 := hInv.1
  have hPL : pairList fs0 home source_root
      = tops.flatMap (fun top => pairsForTop fs0 source_root home (lastComp top)) := by
    unfold pairList
    rw [hit]
  have hrun : runRestore g home source_root false false stamp
      = tops.foldl (fun (acc : RunResult) top =>
          if acc.abort.isSome then acc
          else (pairsForTop acc.fs source_root home (lastComp top)).foldl
            (stepPair linkPath false false stamp) acc) ⟨g, 0, 0, 0, [], none⟩ := by
    unfold runRestore runRestoreWith
    rw [iterdir_region_eq fs0 g home source_root hhs hsh hreg, hit]
  rw [hrun, nest_run2 fs0 home source_root stamp hcr g hInv tops 0 0 0 []
    (by intro pr hpr; rw [hPL]; exact hpr)]
  rw [hPL]
  simp

end DF

namespace DF

theorem mkdirp_dry_fs (fs : FS) (p : Path) : (mkdirp fs p true).2.1 = fs := by
  unfold mkdirp
  by_cases hd : isDirAt fs p = true
  · rw [if_pos hd]
  · rw [if_neg hd]
    by_cases he : (pexists fs p && !(isDirAt fs p)) = true
    · rw [if_pos he]
    · rw [if_neg he, if_pos rfl]

theorem linkPath_dry_pure (fs : FS) (t s : Path) (f : Bool) (stamp : List Char) :
    (linkPath fs t s true f stamp).fs = fs ∧ (linkPath fs t s true f stamp).mkBak = [] := by
  by_cases h1 : sameCond fs t s = true
  · rw [linkPath_same fs t s true f stamp h1]
    exact ⟨rfl, rfl⟩
  · rw [Bool.not_eq_true] at h1
    by_cases h2 : occCond fs t = true
    · by_cases h3 : placeholderCond fs t s = true
      · rw [linkPath_placeholder fs t s true f stamp h1 h2 h3]
        simp
      · rw [Bool.not_eq_true] at h3
        cases f with
        | false =>
          rw [linkPath_conflict fs t s true stamp h1 h2 h3]
          exact ⟨rfl, rfl⟩
        | true =>
          rw [linkPath_force fs t s true stamp h1 h2 h3]
          simp
    · rw [Bool.not_eq_true] at h2
      rw [linkPath_free fs t s true f stamp h1 h2]
      simp

theorem stepPair_dry (f : Bool) (stamp : List Char) (acc : RunResult) (pr : Path × Path) :
    (stepPair linkPath true f stamp acc pr).fs = acc.fs
    ∧ (stepPair linkPath true f stamp acc pr).backups = acc.backups := by
  unfold stepPair
  by_cases hab : acc.abort.isSome = true
  · rw [if_pos hab]
    exact ⟨rfl, rfl⟩
  · rw [if_neg hab]
    rcases hm : mkdirp acc.fs pr.2.dropLast true with ⟨r, fs1, ev⟩
    have hfs1 : fs1 = acc.fs := by
      have := mkdirp_dry_fs acc.fs pr.2.dropLast
      rw [hm] at this
      exact this
    subst hfs1
    cases r with
    | error e =>
      simp only [hm]
      simp
    | ok u0 =>
      simp only [hm]
      obtain ⟨hfs, hbk⟩ := linkPath_dry_pure acc.fs pr.2 pr.1 f stamp
      rcases hres : (linkPath acc.fs pr.2 pr.1 true f stamp).res with a | e2
      · cases a <;> simp [hres, hfs, hbk]
      · cases e2 <;> simp [hres, hfs, hbk]

theorem runRestore_dry (fs0 : FS) (home source_root : Path) (f : Bool) (stamp : List Char) :
    (runRestore fs0 home source_root true f stamp).fs = fs0
    ∧ (runRestore fs0 home source_root true f stamp).backups = [] := by
  rcases hit : iterdirSorted fs0 source_root with _ | tops
  · have hrun : runRestore fs0 home source_root true f stamp
        = ⟨fs0, 0, 0, 0, [], some Err.oserr⟩ := by
      unfold runRestore runRestoreWith
      rw [hit]
    rw [hrun]
    exact ⟨rfl, rfl⟩
  · have hrun : runRestore fs0 home source_root true f stamp
        = tops.foldl (fun (acc : RunResult) top =>
            if acc.abort.isSome then acc
            else (pairsForTop acc.fs source_root home (lastComp top)).foldl
              (stepPair linkPath true f stamp) acc) ⟨fs0, 0, 0, 0, [], none⟩ := by
      unfold runRestore runRestoreWith
      rw [hit]
    rw [hrun]
    have hfold : ∀ (l : List (Path × Path)) (acc : RunResult),
        (l.foldl (stepPair linkPath true f stamp) acc).fs = acc.fs
        ∧ (l.foldl (stepPair linkPath true f stamp) acc).backups = acc.backups := by
      intro l
      induction l with
      | nil => intro acc; exact ⟨rfl, rfl⟩
      | cons pr l ih =>
        intro acc
        rw [List.foldl_cons]
        obtain ⟨h1, h2⟩ := ih (stepPair linkPath true f stamp acc pr)
        obtain ⟨h3, h4⟩ := stepPair_dry f stamp acc pr
        exact ⟨h1.trans h3, h2.trans h4⟩
    have hmain : ∀ (ts : List Path) (acc : RunResult),
        (ts.foldl (fun (acc : RunResult) top =>
          if acc.abort.isSome then acc
          else (pairsForTop acc.fs source_root home (lastComp top)).foldl
            (stepPair linkPath true f stamp) acc) acc).fs = acc.fs
        ∧ (ts.foldl (fun (acc : RunResult) top =>
          if acc.abort.isSome then acc
          else (pairsForTop acc.fs source_root home (lastComp top)).foldl
            (stepPair linkPath true f stamp) acc) acc).backups = acc.backups := by
      intro ts
      induction ts with
      | nil => intro acc; exact ⟨rfl, rfl⟩
      | cons top ts ih =>
        intro acc
        by_cases hab : acc.abort.isSome = true
        · simp only [List.foldl_cons, hab, if_true]
          exact ih acc
        · rw [Bool.not_eq_true] at hab
          simp only [List.foldl_cons, hab, Bool.false_eq_true, if_false]
          obtain ⟨h1, h2⟩ := ih ((pairsForTop acc.fs source_root home (lastComp top)).foldl
            (stepPair linkPath true f stamp) acc)
          obtain ⟨h3, h4⟩ := hfold (pairsForTop acc.fs source_root home (lastComp top)) acc
          exact ⟨h1.trans h3, h2.trans h4⟩
    exact ⟨(hmain tops _).1, (hmain tops _).2⟩

end DF

namespace DF

instance (fs0 : FS) (home source_root : Path) : Decidable (CleanRun fs0 home source_root) := by
  unfold CleanRun
  infer_instance

end DF

/-! ## Claim C2 — idempotence of restore -/

/-- Claim C2, as stated, is false in one part: the second run does not
report zero conflicts.  With `force=false` and a home file occupying a
repository entry's target, both runs raise the same `ConflictError` —
here the second run still reports a conflict. -/
theorem C2_idempotence_counterexample :
    (DF.runRestore
        (DF.runRestore
          [(["home".data], DF.Node.dir),
           (["home".data, ".bashrc".data], DF.Node.file "x".data),
           (["repo".data], DF.Node.dir),
           (["repo".data, "bashrc".data], DF.Node.file "y".data)]
          ["home".data] ["repo".data] false false ("T".data)).fs
        ["home".data] ["repo".data] false false ("T2".data)).conflicts ≠ 0 := by
  decide

/-- Claim C2, amended.  (a) For `force=false` under clean-state
hypotheses (`CleanRun`: a well-formed symlink-free initial filesystem,
an existing home directory, home and repository roots not nested, pair
targets strictly below home forming a duplicate-free antichain, pair
sources inside the repository) and a first run that does not abort, the
second run — with any timestamp — returns the filesystem unchanged,
creates no backups, performs zero new links, skips every pair the first
run linked or skipped, and reports exactly the first run's conflicts
(zero only when the first run had none).  (b) A dry run never changes
the filesystem or creates backups, and a second identical dry run
returns the identical result.  (c) A target that is already a symlink
to the source is SKIPped with no mutation and no backup for every
`dry_run` and `force` setting, so a re-run never duplicates a backup of
an already-linked target. -/
theorem C2_idempotence_amended (fs0 : DF.FS) (home source_root : DF.Path)
    (stamp stamp2 : List Char)
    (hcr : DF.CleanRun fs0 home source_root)
    (hab : (DF.runRestore fs0 home source_root false false stamp).abort = none) :
    (DF.runRestore (DF.runRestore fs0 home source_root false false stamp).fs
        home source_root false false stamp2
      = ⟨(DF.runRestore fs0 home source_root false false stamp).fs,
         0,
         (DF.runRestore fs0 home source_root false false stamp).links
           + (DF.runRestore fs0 home source_root false false stamp).skips,
         (DF.runRestore fs0 home source_root false false stamp).conflicts,
         [], none⟩)
    ∧ (∀ (fsA : DF.FS) (hA sA : DF.Path) (fb : Bool) (st : List Char),
        (DF.runRestore fsA hA sA true fb st).fs = fsA
        ∧ (DF.runRestore fsA hA sA true fb st).backups = []
        ∧ DF.runRestore (DF.runRestore fsA hA sA true fb st).fs hA sA true fb st
            = DF.runRestore fsA hA sA true fb st)
    ∧ (∀ (fsA : DF.FS) (t s : DF.Path) (d fb : Bool) (st : List Char),
        t ≠ [] → DF.realChain fsA t = true →
        DF.lookupP fsA t = some (DF.Node.symlink s) →
        (∀ f2, DF.resolveSteps fsA f2 [] s = some s) →
        DF.linkPath fsA t s d fb st = ⟨Except.ok DF.Action.SKIP, fsA, [], []⟩) := by
  obtain ⟨g, tops, hit, hr1, hInv⟩ := DF.runRestore_first fs0 home source_root stamp hcr hab
  refine ⟨?_, ?_, ?_⟩
  · simp only [hr1]
    rw [DF.runRestore_second fs0 home source_root stamp2 hcr g tops hit hInv]
    simp
  · intro fsA hA sA fb st
    obtain ⟨h1, h2⟩ := DF.runRestore_dry fsA hA sA fb st
    refine ⟨h1, h2, ?_⟩
    rw [h1]
  · intro fsA t s d fb st h1 h2 h3 h4
    exact DF.linkPath_skip_of_linked fsA t s d fb st h1 h2 h3 h4

/-- Witness: in a clean state with one conflicting target
(`~/.bashrc` an unrelated file) and one free target (`~/.vimrc`), the
second run (with a different timestamp) changes nothing, performs no
links, skips the linked pair, repeats the one conflict and makes no
backups. -/
theorem C2_idempotence_witness :
    DF.runRestore
        (DF.runRestore
          [(["home".data], DF.Node.dir),
           (["home".data, ".bashrc".data], DF.Node.file "x".data),
           (["repo".data], DF.Node.dir),
           (["repo".data, "bashrc".data], DF.Node.file "y".data),
           (["repo".data, "vimrc".data], DF.Node.file "z".data)]
          ["home".data] ["repo".data] false false ("T".data)).fs
        ["home".data] ["repo".data] false false ("T2".data)
      = ⟨(DF.runRestore
          [(["home".data], DF.Node.dir),
           (["home".data, ".bashrc".data], DF.Node.file "x".data),
           (["repo".data], DF.Node.dir),
           (["repo".data, "bashrc".data], DF.Node.file "y".data),
           (["repo".data, "vimrc".data], DF.Node.file "z".data)]
          ["home".data] ["repo".data] false false ("T".data)).fs,
         0,
         (DF.runRestore
          [(["home".data], DF.Node.dir),
           (["home".data, ".bashrc".data], DF.Node.file "x".data),
           (["repo".data], DF.Node.dir),
           (["repo".data, "bashrc".data], DF.Node.file "y".data),
           (["repo".data, "vimrc".data], DF.Node.file "z".data)]
          ["home".data] ["repo".data] false false ("T".data)).links
           + (DF.runRestore
          [(["home".data], DF.Node.dir),
           (["home".data, ".bashrc".data], DF.Node.file "x".data),
           (["repo".data], DF.Node.dir),
           (["repo".data, "bashrc".data], DF.Node.file "y".data),
           (["repo".data, "vimrc".data], DF.Node.file "z".data)]
          ["home".data] ["repo".data] false false ("T".data)).skips,
         (DF.runRestore
          [(["home".data], DF.Node.dir),
           (["home".data, ".bashrc".data], DF.Node.file "x".data),
           (["repo".data], DF.Node.dir),
           (["repo".data, "bashrc".data], DF.Node.file "y".data),
           (["repo".data, "vimrc".data], DF.Node.file "z".data)]
          ["home".data] ["repo".data] false false ("T".data)).conflicts,
         [], none⟩ :=
  (C2_idempotence_amended
    [(["home".data], DF.Node.dir),
     (["home".data, ".bashrc".data], DF.Node.file "x".data),
     (["repo".data], DF.Node.dir),
     (["repo".data, "bashrc".data], DF.Node.file "y".data),
     (["repo".data, "vimrc".data], DF.Node.file "z".data)]
    ["home".data] ["repo".data] ("T".data) ("T2".data)
    (by decide) (by decide)).1
